import Mathlib

/-!
# VF3 graph loaders and matching engine: a verification development

Shallow embedding of `include/argloader.hpp` (text, binary and GFU loaders, the text
writer) and of the matching engine's contract, followed by theorems about them.

Modelling conventions
* An `istream` is its unread characters together with its `eofbit` and `failbit`
  (`badbit` is never raised by an in-memory or file stream that merely runs out of data).
  The characters of a text stream are the (non-NUL) `char`s of a text file.
* `error(...)` terminates the program; a loader therefore returns either the builder
  it has filled or the fatal error together with the builder as it was when the
  error was raised.
* Integer extraction (`is >> i`) follows the C++11 rules: optional sign, decimal digits,
  the value 0 and `failbit` when no digit is found, the closest representable value and
  `failbit` on overflow.
-/

namespace VF3

/-- Equality of results is decidable. -/
instance instDecidableEqExcept {ε α : Type} [DecidableEq ε] [DecidableEq α] :
    DecidableEq (Except ε α) := fun a b =>
  match a, b with
  | .ok x, .ok y =>
    if h : x = y then isTrue (by rw [h]) else isFalse (fun e => h (Except.ok.inj e))
  | .error x, .error y =>
    if h : x = y then isTrue (by rw [h]) else isFalse (fun e => h (Except.error.inj e))
  | .ok _, .error _ => isFalse (fun e => by cases e)
  | .error _, .ok _ => isFalse (fun e => by cases e)

/-! ## Streams -/

/-- Input stream: unread characters and the two state bits the loaders can observe. -/
structure IStream where
  buf : List Char
  eofbit : Bool
  failbit : Bool
  deriving DecidableEq, Repr

/-- The member `good()`: no state bit is set. -/
def IStream.good (s : IStream) : Bool := !s.eofbit && !s.failbit

/-- A freshly opened stream over a text. -/
def IStream.ofText (t : List Char) : IStream := ⟨t, false, false⟩

/-- C `isspace` in the "C" locale: space, `\t`, `\n`, `\v`, `\f`, `\r`. -/
def isspace (c : Char) : Bool :=
  c == ' ' || c == '\t' || c == '\n' || c == '\x0b' || c == '\x0c' || c == '\r'

/-- C `isdigit`. -/
def isdigit (c : Char) : Bool := decide (48 ≤ c.toNat) && decide (c.toNat ≤ 57)

/-- The `enum { MAX_LINE=512 }` of `StreamARGLoader`. -/
def MAX_LINE : Nat := 512

/-- Character loop of `istream::getline(s, n)`; `room` is the number of characters that
may still be stored (`n - 1` at the start). The three stopping conditions are tested in
the order of the standard: end of file (`eofbit`), the delimiter `\n` (extracted, not
stored), no room left (`failbit`). Result: stored characters, unread characters, `eofbit`,
`failbit`. -/
def getlineLoop : Nat → List Char → List Char × List Char × Bool × Bool
  | _, [] => ([], [], true, false)
  | room, c :: cs =>
    if c = '\n' then ([], cs, false, false)
    else
      match room with
      | 0 => ([], c :: cs, false, true)
      | room + 1 =>
        let r := getlineLoop room cs
        (c :: r.1, r.2.1, r.2.2.1, r.2.2.2)

/-- The member `getline(line, n)`: an unformatted input function. On a stream that is not
good the sentry fails: `failbit` is set and nothing is extracted. Otherwise the loop runs,
and `failbit` is also set when no character at all was extracted. -/
def IStream.getline (s : IStream) (n : Nat) : List Char × IStream :=
  if s.good then
    let r := getlineLoop (n - 1) s.buf
    (r.1, ⟨r.2.1, r.2.2.1, r.2.2.2 || decide (r.2.1.length = s.buf.length)⟩)
  else ([], { s with failbit := true })

/-- The sentry of a formatted input function: fails (setting `failbit`) on a stream that
is not good; otherwise skips leading whitespace, and fails with `eofbit` and `failbit`
when the end of the stream is reached while skipping. -/
def IStream.sentry (s : IStream) : Bool × IStream :=
  if s.good then
    let r := s.buf.dropWhile isspace
    if r.isEmpty then (false, ⟨[], true, true⟩) else (true, { s with buf := r })
  else (false, { s with failbit := true })

/-- Value of a decimal digit character. -/
def digitVal (c : Char) : Nat := c.toNat - 48

/-- Value of a sequence of decimal digits. -/
def digitsVal (ds : List Char) : Nat := ds.foldl (fun a c => 10 * a + digitVal c) 0

/-- Characters accepted by integer extraction: an optional sign, then decimal digits. -/
structure NumScan where
  neg : Bool
  digits : List Char
  rest : List Char
  deriving DecidableEq, Repr

/-- Scan an optional sign and the following run of digits. -/
def scanNum (b : List Char) : NumScan :=
  match b with
  | '-' :: t => ⟨true, t.takeWhile isdigit, t.dropWhile isdigit⟩
  | '+' :: t => ⟨false, t.takeWhile isdigit, t.dropWhile isdigit⟩
  | _ => ⟨false, b.takeWhile isdigit, b.dropWhile isdigit⟩

/-- Largest `int`. -/
def INT_MAX : Nat := 2147483647

/-- Extraction `is >> i` for an `int`. The first component is `none` when the sentry fails
(the variable is left untouched), otherwise the value stored: 0 with `failbit` when there
is no digit, `INT_MAX` / `INT_MIN` with `failbit` on overflow. `eofbit` is set when the
scan reaches the end of the stream. -/
def extractInt (s : IStream) : Option Int × IStream :=
  match s.sentry with
  | (false, s1) => (none, s1)
  | (true, s1) =>
    let sc := scanNum s1.buf
    let eof := sc.rest.isEmpty
    if sc.digits.isEmpty then (some 0, ⟨sc.rest, eof, true⟩)
    else
      let v := digitsVal sc.digits
      if sc.neg then
        if INT_MAX + 1 < v then (some (-((INT_MAX : Int) + 1)), ⟨sc.rest, eof, true⟩)
        else (some (-(v : Int)), ⟨sc.rest, eof, false⟩)
      else
        if INT_MAX < v then (some (INT_MAX : Int), ⟨sc.rest, eof, true⟩)
        else (some (v : Int), ⟨sc.rest, eof, false⟩)

/-- Extraction `is >> u` for an unsigned integer type whose largest value is `maxv`
(`node_id`, `std::size_t`): as `extractInt`, with the value `maxv` on overflow and a
negated value taken modulo `maxv + 1`. -/
def extractUnsigned (maxv : Nat) (s : IStream) : Option Nat × IStream :=
  match s.sentry with
  | (false, s1) => (none, s1)
  | (true, s1) =>
    let sc := scanNum s1.buf
    let eof := sc.rest.isEmpty
    if sc.digits.isEmpty then (some 0, ⟨sc.rest, eof, true⟩)
    else
      let v := digitsVal sc.digits
      if maxv < v then (some maxv, ⟨sc.rest, eof, true⟩)
      else (some (if sc.neg then (maxv + 1 - v) % (maxv + 1) else v), ⟨sc.rest, eof, false⟩)

/-- Extraction `in >> name` for a `std::string`: after the sentry, the characters up to the
next whitespace or the end of the stream (`eofbit`). -/
def extractWord (s : IStream) : Option (List Char) × IStream :=
  match s.sentry with
  | (false, s1) => (none, s1)
  | (true, s1) =>
    let w := s1.buf.takeWhile (fun c => !isspace c)
    let r := s1.buf.dropWhile (fun c => !isspace c)
    (some w, ⟨r, r.isEmpty, w.isEmpty⟩)

/-! ## Output -/

/-- Digits of `out << n` for a non-negative integer, most significant first; the first
argument bounds the number of digits. -/
def showNatAux : Nat → Nat → List Char → List Char
  | 0, _, acc => acc
  | fuel + 1, n, acc =>
    let acc1 := Char.ofNat (48 + n % 10) :: acc
    if n / 10 = 0 then acc1 else showNatAux fuel (n / 10) acc1

/-- Text of `out << n` for a non-negative integer. -/
def showNat (n : Nat) : List Char := showNatAux (n + 1) n []

/-- Text of `out << i` for an `int`. -/
def showInt (i : Int) : List Char :=
  if i < 0 then '-' :: showNat i.natAbs else showNat i.natAbs

/-! ## Attribute types -/

/-- The stream operators of an attribute type (`Node` or `Edge` template argument):
`put` is `operator<<`, `get` is `operator>>` (first component `none` when the variable is
left untouched), `init` is the value of a variable declared without initialiser. -/
structure AttrCodec (α : Type) where
  put : α → List Char
  get : IStream → Option α × IStream
  init : α

/-- The operators of `int`; `junk` stands for the indeterminate value of an
uninitialised `int`. -/
def intCodec (junk : Int) : AttrCodec Int := ⟨showInt, extractInt, junk⟩

/-- Modelled from the spec: the attribute-less type `Empty` of `argraph.hpp` (not part of
the sources), whose stream operators read and write nothing. -/
def emptyCodec : AttrCodec Unit := ⟨fun _ => [], fun s => (some (), s), ()⟩

/-! ## The graph builder -/

/-- An insertion performed on the builder. -/
inductive Ins (α β : Type) where
  | node (a : α)
  | edge (u v : Nat) (b : β)
  deriving DecidableEq, Repr

/-- Modelled from the spec: the builder `ARGEdit` of `argedit.hpp` (not part of the
sources). `InsertNode(attr)` assigns ids sequentially from 0; `InsertEdge(src, dst, attr)`
records a directed edge. The builder is the sequence of insertions performed on it. -/
structure ARGEdit (α β : Type) where
  log : List (Ins α β)
  deriving DecidableEq, Repr

/-- The empty builder. -/
def ARGEdit.empty {α β : Type} : ARGEdit α β := ⟨[]⟩

/-- The attribute of a node insertion. -/
def Ins.asNode {α β : Type} : Ins α β → Option α
  | .node a => some a
  | .edge _ _ _ => none

/-- The source, destination and attribute of an edge insertion. -/
def Ins.asEdge {α β : Type} : Ins α β → Option (Nat × Nat × β)
  | .node _ => none
  | .edge u v b => some (u, v, b)

/-- The attributes of the inserted nodes, in id order. -/
def ARGEdit.nodes {α β : Type} (g : ARGEdit α β) : List α :=
  g.log.filterMap Ins.asNode

/-- The inserted edges (source, destination, attribute), in insertion order. -/
def ARGEdit.edges {α β : Type} (g : ARGEdit α β) : List (Nat × Nat × β) :=
  g.log.filterMap Ins.asEdge

/-- The member `NodeCount()`. -/
def ARGEdit.NodeCount {α β : Type} (g : ARGEdit α β) : Nat := g.nodes.length

/-- The member `InsertNode(attr)`. -/
def ARGEdit.InsertNode {α β : Type} (g : ARGEdit α β) (a : α) : ARGEdit α β :=
  ⟨g.log ++ [.node a]⟩

/-- The member `InsertEdge(id1, id2, attr)`. -/
def ARGEdit.InsertEdge {α β : Type} (g : ARGEdit α β) (u v : Nat) (b : β) : ARGEdit α β :=
  ⟨g.log ++ [.edge u v b]⟩

/-! ## The text loader `StreamARGLoader` -/

/-- The calls of `error(...)` made by the text loader. `outOfFuel` is not a behaviour of
the program: it marks the exhaustion of the iteration bound of `readLineLoop`, which never
happens for the bound used by `readLine` (`readLine_ne_outOfFuel`). -/
inductive Fatal where
  | eof
  | format (line : List Char)
  | outOfFuel
  deriving DecidableEq, Repr

/-- The test at the end of the `do ... while` of `readLine`: after skipping whitespace the
line is at its end or at a `#`. -/
def ignoredLine (line : List Char) : Bool :=
  match line.dropWhile isspace with
  | [] => true
  | c :: _ => c == '#'

/-- The `do ... while` loop of `readLine`, at most `fuel` iterations. -/
def readLineLoop : Nat → IStream → Except Fatal (List Char × IStream)
  | 0, _ => .error .outOfFuel
  | fuel + 1, s =>
    if s.good then
      let r := s.getline MAX_LINE
      if ignoredLine r.1 then readLineLoop fuel r.2 else .ok r
    else .error .eof

/-- The member `readLine(in, line)`: every iteration but the last consumes at least one
character, so `buf.length + 2` iterations are enough. -/
def readLine (s : IStream) : Except Fatal (List Char × IStream) :=
  readLineLoop (s.buf.length + 2) s

/-- Facts about the platform that the sources leave open: the largest value of the
type `node_id` (defined in `argraph.hpp`) and of `std::size_t`, and the indeterminate
values held by scalar variables declared without initialiser. -/
structure Platform where
  idMax : Nat
  sizeMax : Nat
  junkInt : Int
  junkNat : Nat
  deriving DecidableEq, Repr

/-- The statement `int i; is >> i;` of `readCount`, on the text of the line. -/
def parseCount (p : Platform) (line : List Char) : Int :=
  ((extractInt (IStream.ofText line)).1).getD p.junkInt

/-- The member `readCount(in)`: a line, then `is >> i` on it. -/
def readCount (p : Platform) (s : IStream) : Except Fatal (Int × IStream) :=
  match readLine s with
  | .error e => .error e
  | .ok (line, s1) => .ok (parseCount p line, s1)

/-- The statement `is >> id >> nattr` of `readNode`: the extracted id and attribute. The
second extraction is attempted on the stream state left by the first one. -/
def parseNode {α : Type} (p : Platform) (cn : AttrCodec α) (line : List Char) : Nat × α :=
  let r := extractUnsigned p.idMax (IStream.ofText line)
  (r.1.getD p.junkNat, ((cn.get r.2).1).getD cn.init)

/-- The statement `is >> id1 >> id2 >> eattr` of `readEdge`. -/
def parseEdge {β : Type} (p : Platform) (ce : AttrCodec β) (line : List Char) :
    Nat × Nat × β :=
  let r1 := extractUnsigned p.idMax (IStream.ofText line)
  let r2 := extractUnsigned p.idMax r1.2
  (r1.1.getD p.junkNat, r2.1.getD p.junkNat, ((ce.get r2.2).1).getD ce.init)

/-- Result of a loader step: the stream and builder after it, or the fatal error with the
builder as it was when `error` was called. -/
abbrev Step (α β : Type) := Except (Fatal × ARGEdit α β) (IStream × ARGEdit α β)

/-- The member `readNode(in)`. -/
def readNode {α β : Type} (p : Platform) (cn : AttrCodec α) (s : IStream) (g : ARGEdit α β) :
    Step α β :=
  match readLine s with
  | .error e => .error (e, g)
  | .ok (line, s1) =>
    let r := parseNode p cn line
    if r.1 ≠ g.NodeCount then .error (.format line, g)
    else .ok (s1, g.InsertNode r.2)

/-- The member `readEdge(in)`. -/
def readEdge {α β : Type} (p : Platform) (ce : AttrCodec β) (s : IStream) (g : ARGEdit α β) :
    Step α β :=
  match readLine s with
  | .error e => .error (e, g)
  | .ok (line, s1) =>
    let r := parseEdge p ce line
    .ok (s1, g.InsertEdge r.1 r.2.1 r.2.2)

/-- The loop `for(i=0; i<cnt; i++) readNode(in)`, `k` iterations left. -/
def readNodes {α β : Type} (p : Platform) (cn : AttrCodec α) :
    Nat → IStream → ARGEdit α β → Step α β
  | 0, s, g => .ok (s, g)
  | k + 1, s, g =>
    match readNode p cn s g with
    | .error e => .error e
    | .ok (s1, g1) => readNodes p cn k s1 g1

/-- The loop `for(j=0; j<ecount; j++) readEdge(in)`, `k` iterations left. -/
def readEdges {α β : Type} (p : Platform) (ce : AttrCodec β) :
    Nat → IStream → ARGEdit α β → Step α β
  | 0, s, g => .ok (s, g)
  | k + 1, s, g =>
    match readEdge p ce s g with
    | .error e => .error e
    | .ok (s1, g1) => readEdges p ce k s1 g1

/-- The loop over the edge sections: `ecount=readCount(in)` followed by the edge loop,
`k` sections left. -/
def readSections {α β : Type} (p : Platform) (ce : AttrCodec β) :
    Nat → IStream → ARGEdit α β → Step α β
  | 0, s, g => .ok (s, g)
  | k + 1, s, g =>
    match readCount p s with
    | .error e => .error (e, g)
    | .ok (ecount, s1) =>
      match readEdges p ce ecount.toNat s1 g with
      | .error e => .error e
      | .ok (s2, g2) => readSections p ce k s2 g2

/-- The constructor `StreamARGLoader(istream &in)`. -/
def StreamARGLoader {α β : Type} (p : Platform) (cn : AttrCodec α) (ce : AttrCodec β)
    (s : IStream) : Step α β :=
  match readCount p s with
  | .error e => .error (e, ARGEdit.empty)
  | .ok (cnt, s1) =>
    if cnt ≤ 0 then .ok (s1, ARGEdit.empty)
    else
      match readNodes p cn cnt.toNat s1 ARGEdit.empty with
      | .error e => .error e
      | .ok (s2, g2) => readSections p ce cnt.toNat s2 g2

/-- What a caller observes of a loader run: the builder, or the fatal error with the
builder at the time of the error. -/
def outcome {α β σ : Type} (r : Except (Fatal × ARGEdit α β) (σ × ARGEdit α β)) :
    Except (Fatal × ARGEdit α β) (ARGEdit α β) :=
  match r with
  | .error e => .error e
  | .ok x => .ok x.2

/-! ## Texts as sequences of lines -/

/-- The lines of a text: the maximal runs of characters between newlines. A text that
ends with a newline has an empty last line. -/
def textLines : List Char → List (List Char)
  | [] => [[]]
  | c :: cs =>
    if c = '\n' then [] :: textLines cs
    else
      match textLines cs with
      | [] => [[c]]
      | l :: ls => (c :: l) :: ls

/-- The text made of the given lines, separated by newlines. -/
def joinLines : List (List Char) → List Char
  | [] => []
  | [l] => l
  | l :: l2 :: ls => l ++ '\n' :: joinLines (l2 :: ls)

/-- The significant lines of a text: those that `readLine` does not skip. -/
def sigLines (t : List Char) : List (List Char) :=
  (textLines t).filter (fun l => !ignoredLine l)

/-- Every line of the text fits the line buffer: it is shorter than `MAX_LINE`. -/
def ShortLines (t : List Char) : Prop := ∀ l ∈ textLines t, l.length < MAX_LINE

/-- The stream positioned before the given lines; with no line left the stream has met
the end of the file. -/
def lineStream : List (List Char) → IStream
  | [] => ⟨[], true, false⟩
  | l :: ls => IStream.ofText (joinLines (l :: ls))

/-! ## The text loader on significant lines

The same algorithm as `StreamARGLoader`, reading from the list of significant lines
instead of the stream; `StreamARGLoader_eq_sigLoad` shows that the two agree. -/

/-- Result of a step of the loader on significant lines. -/
abbrev SigStep (α β : Type) := Except (Fatal × ARGEdit α β) (List (List Char) × ARGEdit α β)

/-- Counterpart of `readCount`. -/
def sigCount (p : Platform) : List (List Char) → Except Fatal (Int × List (List Char))
  | [] => .error .eof
  | l :: ls => .ok (parseCount p l, ls)

/-- Counterpart of `readNode`. -/
def sigNode {α β : Type} (p : Platform) (cn : AttrCodec α) :
    List (List Char) → ARGEdit α β → SigStep α β
  | [], g => .error (.eof, g)
  | l :: ls, g =>
    if (parseNode p cn l).1 ≠ g.NodeCount then .error (.format l, g)
    else .ok (ls, g.InsertNode (parseNode p cn l).2)

/-- Counterpart of `readEdge`. -/
def sigEdge {α β : Type} (p : Platform) (ce : AttrCodec β) :
    List (List Char) → ARGEdit α β → SigStep α β
  | [], g => .error (.eof, g)
  | l :: ls, g =>
    .ok (ls, g.InsertEdge (parseEdge p ce l).1 (parseEdge p ce l).2.1 (parseEdge p ce l).2.2)

/-- Counterpart of `readNodes`. -/
def sigNodes {α β : Type} (p : Platform) (cn : AttrCodec α) :
    Nat → List (List Char) → ARGEdit α β → SigStep α β
  | 0, ls, g => .ok (ls, g)
  | k + 1, ls, g =>
    match sigNode p cn ls g with
    | .error e => .error e
    | .ok (ls1, g1) => sigNodes p cn k ls1 g1

/-- Counterpart of `readEdges`. -/
def sigEdges {α β : Type} (p : Platform) (ce : AttrCodec β) :
    Nat → List (List Char) → ARGEdit α β → SigStep α β
  | 0, ls, g => .ok (ls, g)
  | k + 1, ls, g =>
    match sigEdge p ce ls g with
    | .error e => .error e
    | .ok (ls1, g1) => sigEdges p ce k ls1 g1

/-- Counterpart of `readSections`. -/
def sigSections {α β : Type} (p : Platform) (ce : AttrCodec β) :
    Nat → List (List Char) → ARGEdit α β → SigStep α β
  | 0, ls, g => .ok (ls, g)
  | k + 1, ls, g =>
    match sigCount p ls with
    | .error e => .error (e, g)
    | .ok (ecount, ls1) =>
      match sigEdges p ce ecount.toNat ls1 g with
      | .error e => .error e
      | .ok (ls2, g2) => sigSections p ce k ls2 g2

/-- Counterpart of the constructor `StreamARGLoader`. -/
def sigLoad {α β : Type} (p : Platform) (cn : AttrCodec α) (ce : AttrCodec β)
    (ls : List (List Char)) : SigStep α β :=
  match sigCount p ls with
  | .error e => .error (e, ARGEdit.empty)
  | .ok (cnt, ls1) =>
    if cnt ≤ 0 then .ok (ls1, ARGEdit.empty)
    else
      match sigNodes p cn cnt.toNat ls1 ARGEdit.empty with
      | .error e => .error e
      | .ok (ls2, g2) => sigSections p ce cnt.toNat ls2 g2

/-! ## Well-formed text files -/

/-- The insertion that `readNode` performs for a node line. -/
def nodeIns {α β : Type} (p : Platform) (cn : AttrCodec α) (l : List Char) : Ins α β :=
  .node (parseNode p cn l).2

/-- The insertion that `readEdge` performs for an edge line. -/
def edgeIns {α β : Type} (p : Platform) (ce : AttrCodec β) (l : List Char) : Ins α β :=
  .edge (parseEdge p ce l).1 (parseEdge p ce l).2.1 (parseEdge p ce l).2.2

/-- The ids carried by a sequence of node lines. -/
def lineIds {α : Type} (p : Platform) (cn : AttrCodec α) (ls : List (List Char)) : List Nat :=
  ls.map (fun l => (parseNode p cn l).1)

/-- The significant lines of a text file, grouped as the format describes them: the
node-count line, the node lines, and for every node its section, made of the edge-count
line and the edge lines. -/
structure TextFile where
  header : List Char
  nodeLines : List (List Char)
  sections : List (List Char × List (List Char))
  deriving DecidableEq, Repr

/-- The significant lines of the file in order. -/
def TextFile.lines (f : TextFile) : List (List Char) :=
  f.header :: (f.nodeLines ++ f.sections.flatMap (fun s => s.1 :: s.2))

/-- The file has the shape the format asks for: the header declares a positive node
count `n`, there are `n` node lines and `n` sections, and every section has as many
edge lines as its count line declares. -/
def TextFile.Shaped (p : Platform) (f : TextFile) : Prop :=
  0 < parseCount p f.header ∧
  f.nodeLines.length = (parseCount p f.header).toNat ∧
  f.sections.length = (parseCount p f.header).toNat ∧
  ∀ s ∈ f.sections, (parseCount p s.1).toNat = s.2.length

/-- The node lines carry the ids 0, 1, 2, ... in order. -/
def TextFile.IdsInOrder {α : Type} (p : Platform) (cn : AttrCodec α) (f : TextFile) : Prop :=
  lineIds p cn f.nodeLines = List.range f.nodeLines.length

/-- The insertions the format prescribes for the file: one node per node line, then one
edge per edge line, in file order. -/
def TextFile.insertions {α β : Type} (p : Platform) (cn : AttrCodec α) (ce : AttrCodec β)
    (f : TextFile) : List (Ins α β) :=
  f.nodeLines.map (nodeIns p cn) ++ f.sections.flatMap (fun s => s.2.map (edgeIns p ce))

/-! ## Example inputs -/

/-- A 64-bit platform with 16-bit node ids; uninitialised scalars read as 0. -/
def examplePlatform : Platform := ⟨65535, 18446744073709551615, 0, 0⟩

/-- The example file of the text format documentation (node and edge attributes are
`int`s). -/
def docExampleText : List Char :=
  ("# Number of nodes\n3\n\n# Node attributes\n0 27\n1 42\n2 13\n\n" ++
   "# Edges coming out of node 0\n2\n0 1  24\n0 2  73\n\n" ++
   "# Edges coming out of node 1\n1\n1 3  66\n\n" ++
   "# Edges coming out of node 2\n0\n").toList

/-- The documented example without its comments and blank lines. -/
def docExampleBare : List Char :=
  "3\n0 27\n1 42\n2 13\n2\n0 1  24\n0 2  73\n1\n1 3  66\n0".toList

/-! ## The text writer -/

/-- Modelled from the spec: the accessors of the immutable graph `ARGraph` of
`argraph.hpp` (not part of the sources) that the writer and the engine use:
`NodeCount()`, `GetNodeAttr(i)`, `OutEdgeCount(i)` and `GetOutEdge(i, j, &attr)`, which
gives the destination and the attribute of the `j`-th edge leaving `i`. -/
structure ARGraph (α β : Type) where
  NodeCount : Nat
  GetNodeAttr : Nat → α
  OutEdgeCount : Nat → Nat
  GetOutEdge : Nat → Nat → Nat × β

/-- The line `out << i << ' ' << *g.GetNodeAttr(i)` (without its `endl`). -/
def nodeLine {α β : Type} (cn : AttrCodec α) (g : ARGraph α β) (i : Nat) : List Char :=
  showNat i ++ ' ' :: cn.put (g.GetNodeAttr i)

/-- The line `out << i << ' ' << k << ' ' << *attr` (without its `endl`); `k`, the
destination of the edge, is an `int` and is taken to be non-negative. -/
def edgeLine {α β : Type} (ce : AttrCodec β) (g : ARGraph α β) (i j : Nat) : List Char :=
  showNat i ++ ' ' :: (showNat (g.GetOutEdge i j).1 ++ ' ' :: ce.put (g.GetOutEdge i j).2)

/-- The lines written for the edge section of node `i`: the count, then one line per
out-edge in index order. -/
def sectionLines {α β : Type} (ce : AttrCodec β) (g : ARGraph α β) (i : Nat) :
    List (List Char) :=
  showNat (g.OutEdgeCount i) :: (List.range (g.OutEdgeCount i)).map (edgeLine ce g i)

/-- The lines written by `write(out, g)`, in order; each is followed by `endl`. -/
def writeLines {α β : Type} (cn : AttrCodec α) (ce : AttrCodec β) (g : ARGraph α β) :
    List (List Char) :=
  showNat g.NodeCount ::
    ((List.range g.NodeCount).map (nodeLine cn g) ++
      (List.range g.NodeCount).flatMap (sectionLines ce g))

/-- Every line followed by a newline (`endl`). -/
def endLines (ls : List (List Char)) : List Char :=
  ls.flatMap (fun l => l ++ ['\n'])

/-- The static member `StreamARGLoader::write(ostream &out, ARGraph<Node, Edge> &g)`:
the text sent to `out`. -/
def StreamARGLoader.write {α β : Type} (cn : AttrCodec α) (ce : AttrCodec β)
    (g : ARGraph α β) : List Char :=
  endLines (writeLines cn ce g)

/-! ## Round trip through the text format -/

/-- The attribute has a whitespace-free textual form that the stream operators read back
to the same value: `put` writes no whitespace, and `get`, on the text that follows an id
and a space on a line, stores the attribute again. -/
def AttrCodec.ReadsBack {α : Type} (c : AttrCodec α) (a : α) : Prop :=
  (∀ ch ∈ c.put a, isspace ch = false) ∧
  (c.get ⟨' ' :: c.put a, false, false⟩).1 = some a

/-- The out-edges of node `i` in a builder, as (destination, attribute) pairs in insertion
order. -/
def ARGEdit.outEdges {α β : Type} (g : ARGEdit α β) (i : Nat) : List (Nat × β) :=
  (g.edges.filter (fun e => e.1 = i)).map (fun e => e.2)

/-- The out-edges of node `i` of a graph, in index order. -/
def ARGraph.outEdges {α β : Type} (g : ARGraph α β) (i : Nat) : List (Nat × β) :=
  (List.range (g.OutEdgeCount i)).map (g.GetOutEdge i)

/-- The graph is valid for its accessors: `NodeCount()` and `OutEdgeCount(i)` fit an
`int`, the node ids fit the type `node_id`, and every edge leads to a node of the graph. -/
def ARGraph.InRange {α β : Type} (p : Platform) (g : ARGraph α β) : Prop :=
  g.NodeCount ≤ INT_MAX ∧ g.NodeCount ≤ p.idMax + 1 ∧
  ∀ i, i < g.NodeCount → g.OutEdgeCount i ≤ INT_MAX ∧
    ∀ j, j < g.OutEdgeCount i → (g.GetOutEdge i j).1 < g.NodeCount

/-- A graph with three nodes and three edges, attributes being `int`s. -/
def exampleGraph : ARGraph Int Int :=
  ⟨3, fun i => 10 + (i : Int), fun i => if i = 0 then 2 else if i = 1 then 1 else 0,
    fun i j => (if i = 0 then j + 1 else 0, -7)⟩

/-! ## The binary loader `BinaryGraphLoader` -/

/-- A byte of a binary stream. -/
abbrev Byte := Fin 256

/-- The member `in.get()` of a binary stream: the next byte, or `EOF = -1` when the
stream is exhausted (and on every later call). -/
def istreamGet : List Byte → Int × List Byte
  | [] => (-1, [])
  | b :: bs => ((b.val : Int), bs)

/-- The member `read_word(in)`: `x = static_cast<unsigned char>(in.get())`, then
`x |= static_cast<uint16_t>(in.get()) << 8`, the result being stored in a `uint16_t`. -/
def read_word (s : List Byte) : Nat × List Byte :=
  let r0 := istreamGet s
  let x := (r0.1 % 256).toNat
  let r1 := istreamGet r0.2
  let hi := (r1.1 % 65536).toNat * 256
  ((x ||| hi) % 65536, r1.2)

/-- The loop `for(i=0; i<cnt; ++i) InsertNode(0)`, `k` iterations left. -/
def insertZeros {β : Type} : Nat → ARGEdit Int β → ARGEdit Int β
  | 0, g => g
  | k + 1, g => insertZeros k (g.InsertNode 0)

/-- The loop `for(j=0; j<ecount; ++j)` of the binary loader for node `i`: each target is
read as a word and converted to `node_id`. -/
def binEdges (p : Platform) (i : Nat) : Nat → List Byte → ARGEdit Int Unit →
    List Byte × ARGEdit Int Unit
  | 0, s, g => (s, g)
  | k + 1, s, g =>
    let r := read_word s
    binEdges p i k r.2 (g.InsertEdge (i % (p.idMax + 1)) (r.1 % (p.idMax + 1)) ())

/-- The loop over the nodes of the binary loader, `k` nodes left, `i` the current node. -/
def binSections (p : Platform) : Nat → Nat → List Byte → ARGEdit Int Unit →
    List Byte × ARGEdit Int Unit
  | 0, _, s, g => (s, g)
  | k + 1, i, s, g =>
    let r := read_word s
    let r2 := binEdges p i r.1 r.2 g
    binSections p k (i + 1) r2.1 r2.2

/-- The constructor `BinaryGraphLoader(istream & in)`: the unread bytes and the builder. -/
def BinaryGraphLoader (p : Platform) (s : List Byte) : List Byte × ARGEdit Int Unit :=
  let r := read_word s
  let cnt : Int := (r.1 : Int)
  if cnt ≤ 0 then (r.2, ARGEdit.empty)
  else binSections p cnt.toNat 0 r.2 (insertZeros cnt.toNat ARGEdit.empty)

/-! ## The binary encoding -/

/-- A 16-bit word in little-endian order: low byte, then high byte. -/
def encodeWord (w : Nat) : List Byte :=
  [⟨w % 256, Nat.mod_lt _ (by decide)⟩, ⟨(w / 256) % 256, Nat.mod_lt _ (by decide)⟩]

/-- The complete encoding of a graph given by the out-edge targets of its nodes in id
order: the node count, then for each node the out-edge count and the targets. -/
def encodeGraph (secs : List (List Nat)) : List Byte :=
  encodeWord secs.length ++ secs.flatMap (fun ts => encodeWord ts.length ++ ts.flatMap encodeWord)

/-- The edge insertions `i -> target` for the nodes `i`, `i + 1`, ... in file order. -/
def sectionEdges : Nat → List (List Nat) → List (Ins Int Unit)
  | _, [] => []
  | i, ts :: r => ts.map (fun t => Ins.edge i t ()) ++ sectionEdges (i + 1) r

/-- Every count and target of the encoding fits a 16-bit word. -/
def WordSized (secs : List (List Nat)) : Prop :=
  secs.length < 65536 ∧ ∀ ts ∈ secs, ts.length < 65536 ∧ ∀ t ∈ ts, t < 65536

/-- The example of the binary format documentation:
`03 00 / 00 00 / 02 00 00 00 02 00 / 01 00 00 00`. -/
def docExampleBytes : List Byte := [3, 0, 0, 0, 2, 0, 0, 0, 2, 0, 1, 0, 0, 0]

/-! ## The GFU loader `GFUGraphLoader` -/

/-- The loop `for (int i=0; i<cnt; ++i) { Node nattr; in >> nattr; InsertNode(nattr); }`. -/
def gfuNodes {α : Type} (cn : AttrCodec α) : Nat → IStream → ARGEdit α Unit →
    IStream × ARGEdit α Unit
  | 0, s, g => (s, g)
  | k + 1, s, g =>
    let r := cn.get s
    gfuNodes cn k r.2 (g.InsertNode (r.1.getD cn.init))

/-- The loop over the `u v` pairs: `in >> u >> v`, then `InsertEdge(u, v, eattr)` and
`InsertEdge(v, u, eattr)`. -/
def gfuEdges {α : Type} (p : Platform) : Nat → IStream → ARGEdit α Unit →
    IStream × ARGEdit α Unit
  | 0, s, g => (s, g)
  | k + 1, s, g =>
    let r1 := extractUnsigned p.idMax s
    let r2 := extractUnsigned p.idMax r1.2
    let u := r1.1.getD p.junkNat
    let v := r2.1.getD p.junkNat
    gfuEdges p k r2.2 ((g.InsertEdge u v ()).InsertEdge v u ())

/-- The constructor `GFUGraphLoader(istream & in)`. -/
def GFUGraphLoader {α : Type} (p : Platform) (cn : AttrCodec α) (s : IStream) :
    IStream × ARGEdit α Unit :=
  let r0 := extractWord s
  let r1 := extractInt r0.2
  let cnt := r1.1.getD p.junkInt
  let r2 := gfuNodes cn cnt.toNat r1.2 ARGEdit.empty
  let r3 := extractUnsigned p.sizeMax r2.1
  let ecnt := r3.1.getD p.junkNat
  gfuEdges p ecnt r3.2 r2.2

/-! ## GFU inputs -/

/-- Whitespace that separates two tokens: at least one character, all of them
whitespace. -/
def IsSep (ws : List Char) : Prop := ws ≠ [] ∧ ∀ c ∈ ws, isspace c = true

/-- The extraction operator, applied before optional whitespace, the textual form of the
attribute and a following whitespace character, stores the attribute and stops at that
character. -/
def AttrCodec.ReadsToken {α : Type} (c : AttrCodec α) (a : α) : Prop :=
  ∀ (ws rest : List Char) (sp : Char), (∀ ch ∈ ws, isspace ch = true) → isspace sp = true →
    c.get ⟨ws ++ (c.put a ++ sp :: rest), false, false⟩ = (some a, ⟨sp :: rest, false, false⟩)

/-- A GFU input: a name token, the node count, the node attributes, the edge count and
the pairs `u v`, every token preceded by the whitespace recorded with it, and whatever
follows the last token. The counts are those of the listed attributes and pairs. -/
structure GFUFile (α : Type) where
  lead : List Char
  name : List Char
  sepN : List Char
  attrs : List (List Char × α)
  sepM : List Char
  pairs : List ((List Char × Nat) × (List Char × Nat))
  trailer : List Char

/-- The text of the pairs. -/
def pairsText (ps : List ((List Char × Nat) × (List Char × Nat))) : List Char :=
  ps.flatMap (fun x => x.1.1 ++ (showNat x.1.2 ++ (x.2.1 ++ showNat x.2.2)))

/-- The text of the attributes. -/
def attrsText {α : Type} (cn : AttrCodec α) (as : List (List Char × α)) : List Char :=
  as.flatMap (fun x => x.1 ++ cn.put x.2)

/-- The text of a GFU input. -/
def GFUFile.text {α : Type} (cn : AttrCodec α) (f : GFUFile α) : List Char :=
  f.lead ++ (f.name ++ (f.sepN ++ (showNat f.attrs.length ++ (attrsText cn f.attrs ++
    (f.sepM ++ (showNat f.pairs.length ++ (pairsText f.pairs ++ f.trailer)))))))

/-- The input is well formed: the name is a non-empty token, tokens are separated by
whitespace, attributes are read back by the extraction operator, the counts and ids fit
their types, and the trailer does not continue the last number. -/
def GFUFile.WellFormed {α : Type} (p : Platform) (cn : AttrCodec α) (f : GFUFile α) : Prop :=
  (∀ c ∈ f.lead, isspace c = true) ∧
  (f.name ≠ [] ∧ ∀ c ∈ f.name, isspace c = false) ∧
  IsSep f.sepN ∧ f.attrs.length ≤ INT_MAX ∧
  (∀ x ∈ f.attrs, IsSep x.1 ∧ cn.ReadsToken x.2) ∧
  IsSep f.sepM ∧ f.pairs.length ≤ p.sizeMax ∧
  (∀ x ∈ f.pairs, (IsSep x.1.1 ∧ x.1.2 ≤ p.idMax) ∧ (IsSep x.2.1 ∧ x.2.2 ≤ p.idMax)) ∧
  (∀ c r, f.trailer = c :: r → isdigit c = false)

/-- The insertions prescribed for a GFU input: the nodes in order, then for each pair
the edges `u -> v` and `v -> u`. -/
def GFUFile.insertions {α : Type} (f : GFUFile α) : List (Ins α Unit) :=
  f.attrs.map (fun x => Ins.node x.2) ++
  f.pairs.flatMap (fun x => [Ins.edge x.1.2 x.2.2 (), Ins.edge x.2.2 x.1.2 ()])

/-- A GFU input with three nodes and two undirected edges. -/
def exampleGFU : GFUFile Int :=
  ⟨[], "#graph".toList, "\n".toList, [("\n".toList, 5), ("\n".toList, 6), ("\n".toList, 7)],
    "\n".toList, [(("\n".toList, 0), (" ".toList, 1)), (("\n".toList, 1), (" ".toList, 2))],
    "\n".toList⟩

/-! ## The matching engine

The engine (`match.hpp`, `vf3_sub_state.hpp`) is not part of the sources; it is modelled
from its description in the specification. -/

/-- Modelled from the spec: the adjacency query of the attributed graph (the accessors of
`argraph.hpp` are not part of the sources): there is an edge from `u` to `v` when one of
the out-edges of `u` has target `v`. -/
def ARGraph.HasEdge {α β : Type} (g : ARGraph α β) (u v : Nat) : Bool :=
  (List.range (g.OutEdgeCount u)).any (fun j => (g.GetOutEdge u j).1 == v)

/-- Modelled from the spec: the search frame `MatchState` of the engine (not part of the
sources), a partial mapping held as the forward mapping pattern -> target and the reverse
mapping target -> pattern, with absent entries for unmapped nodes. The frontier counts
used by the look-ahead are computed from the two mappings. -/
structure MatchState where
  fwd : List (Option Nat)
  rev : List (Option Nat)
  deriving DecidableEq, Repr

/-- The root state: the empty mapping. -/
def MatchState.root (pn tn : Nat) : MatchState :=
  ⟨List.replicate pn none, List.replicate tn none⟩

/-- The target node of a pattern node, if it is mapped. -/
def MatchState.image (st : MatchState) (p : Nat) : Option Nat := st.fwd.getD p none

/-- The pattern node of a target node, if it is used. -/
def MatchState.preimage (st : MatchState) (t : Nat) : Option Nat := st.rev.getD t none

/-- The state with the pair `p -> t` added. -/
def MatchState.extend (st : MatchState) (p t : Nat) : MatchState :=
  ⟨st.fwd.set p (some t), st.rev.set t (some p)⟩

/-- Modelled from the spec: the edge consistency rule of the engine (not part of the
sources), applied to the candidate pair `p -> t`. For every pattern neighbour `q` of `p`
that is mapped to some `t2` once the pair is placed (`p` itself included, when it has a
self-loop), an edge `p -> q` requires the edge `t -> t2`, and an edge `q -> p` requires the
edge `t2 -> t`; unmapped neighbours impose no constraint. -/
def edgeConsistent {α β γ δ : Type} (P : ARGraph α β) (T : ARGraph γ δ) (st : MatchState)
    (p t : Nat) : Bool :=
  (List.range P.NodeCount).all (fun q =>
    match (st.extend p t).image q with
    | none => true
    | some t2 => (!P.HasEdge p q || T.HasEdge t t2) && (!P.HasEdge q p || T.HasEdge t2 t))

/-- The number of nodes `w` with an edge `v -> w` that are unmapped under `m`. -/
def unmappedOut {α β : Type} (g : ARGraph α β) (m : Nat → Option Nat) (v : Nat) : Nat :=
  ((List.range g.NodeCount).filter (fun w => g.HasEdge v w && (m w).isNone)).length

/-- The number of nodes `w` with an edge `w -> v` that are unmapped under `m`. -/
def unmappedIn {α β : Type} (g : ARGraph α β) (m : Nat → Option Nat) (v : Nat) : Nat :=
  ((List.range g.NodeCount).filter (fun w => g.HasEdge w v && (m w).isNone)).length

/-- Modelled from the spec: the look-ahead rule of the engine (not part of the sources).
The count of unmapped pattern neighbours of `p` must not exceed the count of unmapped
target neighbours of `t`, in both edge directions. -/
def lookAhead {α β γ δ : Type} (P : ARGraph α β) (T : ARGraph γ δ) (st : MatchState)
    (p t : Nat) : Bool :=
  decide (unmappedOut P st.image p ≤ unmappedOut T st.preimage t) &&
  decide (unmappedIn P st.image p ≤ unmappedIn T st.preimage t)

/-- The inputs of a search: pattern and target graphs, their class arrays and the
visiting order. -/
structure Problem (α β γ δ : Type) where
  pattern : ARGraph α β
  target : ARGraph γ δ
  classPatt : List Nat
  classTarg : List Nat
  order : List Nat

/-- Modelled from the spec: candidate generation of the engine (not part of the sources).
A target node is a candidate for `p` when it is not used in the reverse mapping and its
class equals the class of `p`. -/
def isCandidate {α β γ δ : Type} (pb : Problem α β γ δ) (st : MatchState) (p t : Nat) : Bool :=
  (st.preimage t).isNone && (pb.classPatt.getD p 0 == pb.classTarg.getD t 0)

/-- Modelled from the spec: the feasibility rules of the engine (not part of the
sources), applied in order: edge consistency, look-ahead, class compatibility. -/
def isFeasible {α β γ δ : Type} (pb : Problem α β γ δ) (st : MatchState) (p t : Nat) : Bool :=
  edgeConsistent pb.pattern pb.target st p t && lookAhead pb.pattern pb.target st p t &&
  (pb.classPatt.getD p 0 == pb.classTarg.getD t 0)

/-- What the search has done so far: the solutions passed to the visitor, in order,
whether the visitor has requested a stop, and the user data. -/
structure Trace (σ : Type) where
  emitted : List MatchState
  stopped : Bool
  usr : σ
  deriving DecidableEq, Repr

/-- Modelled from the spec: the backtracking search of the engine (not part of the
sources), from a state of depth `k` with `rem` pattern nodes left to place. At depth
`patternSize` the visitor is invoked with the mapping; otherwise the candidates for
`order[k]` are tried in ascending order of target id, each feasible one leading to the
search one level deeper, and nothing more is tried once the visitor has requested a stop. -/
def search {α β γ δ σ : Type} (pb : Problem α β γ δ) (vis : MatchState → σ → Bool × σ) :
    Nat → Nat → MatchState → Trace σ → Trace σ
  | 0, _, st, tr =>
    let r := vis st tr.usr
    ⟨tr.emitted ++ [st], r.1, r.2⟩
  | rem + 1, k, st, tr =>
    (List.range pb.target.NodeCount).foldl (fun a t =>
      if a.stopped then a
      else if isCandidate pb st (pb.order.getD k 0) t && isFeasible pb st (pb.order.getD k 0) t
      then search pb vis rem (k + 1) (st.extend (pb.order.getD k 0) t) a
      else a) tr

/-- The configuration errors detected at setup. -/
inductive ConfigError where
  | order
  | classes
  deriving DecidableEq, Repr

/-- Modelled from the spec: the entry point `match` of the engine (not part of the
sources). The visiting order must be a permutation of the pattern node ids and the class
arrays must cover their graphs, otherwise a configuration error is reported before any
search; the search then starts from the root state. -/
def match_ {α β γ δ σ : Type} (pb : Problem α β γ δ) (vis : MatchState → σ → Bool × σ)
    (usr : σ) : Except ConfigError (Trace σ) :=
  if pb.order.length ≠ pb.pattern.NodeCount ∨ ¬ pb.order.Nodup ∨
      ¬ (∀ p ∈ pb.order, p < pb.pattern.NodeCount) then .error .order
  else if pb.classPatt.length < pb.pattern.NodeCount ∨
      pb.classTarg.length < pb.target.NodeCount then .error .classes
  else .ok (search pb vis pb.pattern.NodeCount 0
    (MatchState.root pb.pattern.NodeCount pb.target.NodeCount) ⟨[], false, usr⟩)

/-- The visitor of the harness, as far as the search is concerned: it counts the
solutions and never requests a stop. -/
def countingVisitor (_ : MatchState) (n : Nat) : Bool × Nat := (false, n + 1)

/-- A graph without attributes given by the out-neighbours of its nodes. -/
def graphOfLists (adj : List (List Nat)) : ARGraph Unit Unit :=
  ⟨adj.length, fun _ => (), fun i => (adj.getD i []).length,
    fun i j => ((adj.getD i []).getD j 0, ())⟩

/-- Scenario A of the specification: the pattern `0 -> 1` in the path `0 -> 1 -> 2`, all
nodes in one class. -/
def scenarioA : Problem Unit Unit Unit Unit :=
  ⟨graphOfLists [[1], []], graphOfLists [[1], [2], []], [0, 0], [0, 0, 0], [0, 1]⟩

/-- A pattern made of one node with a self-loop, and a target made of two nodes joined by
the edges `0 -> 1` and `1 -> 0`; every node has one incoming and one outgoing edge, and
all nodes are in one class. -/
def selfLoopProblem : Problem Unit Unit Unit Unit :=
  ⟨graphOfLists [[0]], graphOfLists [[1], [0]], [0], [0, 0], [0]⟩

/-- The same pattern, one node with a self-loop, and a target made of two nodes with the
edges `0 -> 1` and `1 -> 1`: node 1 carries a self-loop; all nodes are in one class. -/
def selfLoopInLoopProblem : Problem Unit Unit Unit Unit :=
  ⟨graphOfLists [[0]], graphOfLists [[1], [1]], [0], [0, 0], [0]⟩

/-! ## The loader interface and the second writer -/

/-- Modelled from the spec: the accessors of the abstract loader `ARGLoader` of
`argraph.hpp` (not part of the sources), through which a graph is built and which the
second writer uses: `NodeCount()`, `GetNodeAttr(i)`, `OutEdgeCount(i)` and
`GetOutEdge(i, j, &attr)`. -/
structure ARGLoader (α β : Type) where
  NodeCount : Nat
  GetNodeAttr : Nat → α
  OutEdgeCount : Nat → Nat
  GetOutEdge : Nat → Nat → Nat × β

/-- Modelled from the spec: the builder `ARGEdit` seen through the loader interface
(`argedit.hpp` is not part of the sources): the nodes in insertion order and, for every
node, its out-edges in insertion order. `a0` and `b0` stand for what the accessors give
outside their range. -/
def ARGEdit.toLoader {α β : Type} (a0 : α) (b0 : β) (g : ARGEdit α β) : ARGLoader α β :=
  ⟨g.NodeCount, fun i => g.nodes.getD i a0, fun i => (g.outEdges i).length,
    fun i j => (g.outEdges i).getD j (0, b0)⟩

/-- Modelled from the spec: the constructor `ARGraph(ARGLoader *)` of `argraph.hpp` (not
part of the sources): the immutable graph with the node count, node attributes and
per-node out-edge sequences of the loader. -/
def ARGraph.ofLoader {α β : Type} (l : ARGLoader α β) : ARGraph α β :=
  ⟨l.NodeCount, l.GetNodeAttr, l.OutEdgeCount, l.GetOutEdge⟩

/-- The graph has the node count, the node attributes and the per-node out-edge
sequences of the loader. -/
def ARGraph.BuiltFrom {α β : Type} (g : ARGraph α β) (l : ARGLoader α β) : Prop :=
  g.NodeCount = l.NodeCount ∧
  ∀ i, i < l.NodeCount → g.GetNodeAttr i = l.GetNodeAttr i ∧
    g.OutEdgeCount i = l.OutEdgeCount i ∧
    ∀ j, j < l.OutEdgeCount i → g.GetOutEdge i j = l.GetOutEdge i j

/-- The line `out << i << ' ' << *(Node *)g.GetNodeAttr(i)` of the second writer. -/
def loaderNodeLine {α β : Type} (cn : AttrCodec α) (l : ARGLoader α β) (i : Nat) : List Char :=
  showNat i ++ ' ' :: cn.put (l.GetNodeAttr i)

/-- The line `out << i << ' ' << k << ' ' << *(Edge *)attr` of the second writer. -/
def loaderEdgeLine {α β : Type} (ce : AttrCodec β) (l : ARGLoader α β) (i j : Nat) :
    List Char :=
  showNat i ++ ' ' :: (showNat (l.GetOutEdge i j).1 ++ ' ' :: ce.put (l.GetOutEdge i j).2)

/-- The lines the second writer emits for the edge section of node `i`. -/
def loaderSectionLines {α β : Type} (ce : AttrCodec β) (l : ARGLoader α β) (i : Nat) :
    List (List Char) :=
  showNat (l.OutEdgeCount i) :: (List.range (l.OutEdgeCount i)).map (loaderEdgeLine ce l i)

/-- The lines written by `write(out, ARGLoader &g)`, in order; each is followed by
`endl`. -/
def loaderWriteLines {α β : Type} (cn : AttrCodec α) (ce : AttrCodec β) (l : ARGLoader α β) :
    List (List Char) :=
  showNat l.NodeCount ::
    ((List.range l.NodeCount).map (loaderNodeLine cn l) ++
      (List.range l.NodeCount).flatMap (loaderSectionLines ce l))

/-- The static member `StreamARGLoader::write(ostream &out, ARGLoader<Node,Edge> &g)`:
the text sent to `out`. -/
def StreamARGLoader.writeLoader {α β : Type} (cn : AttrCodec α) (ce : AttrCodec β)
    (l : ARGLoader α β) : List Char :=
  endLines (loaderWriteLines cn ce l)

/-- The number of edges of a graph: the sum of the out-edge counts of its nodes. -/
def ARGraph.edgeCount {α β : Type} (g : ARGraph α β) : Nat :=
  ((List.range g.NodeCount).map g.OutEdgeCount).sum

/-- The builder filled by the insertions of the documented example file. -/
def docExampleBuilder : ARGEdit Int Int :=
  ⟨[.node 27, .node 42, .node 13, .edge 0 1 24, .edge 0 2 73, .edge 1 3 66]⟩

/-- The struct `visitor_data_t`: an `unsigned long` and a `long`. -/
structure visitor_data_t where
  first_solution_time : Nat
  solutions : Int
  deriving DecidableEq, Repr

/-- The number of values of an `unsigned long`. -/
def ULONG_MOD : Nat := 18446744073709551616

/-- Subtraction of two `unsigned long` values, which wraps around. -/
def ulongSub (a b : Nat) : Nat := (a % ULONG_MOD + ULONG_MOD - b % ULONG_MOD) % ULONG_MOD

/-- What a call of `visitor` can reach: its arguments `n`, `ni1`, `ni2`, the data behind
`usr_data`, and the number of calls of `clock()` made so far by the program. -/
structure VisitorCall where
  n : Int
  ni1 : List Nat
  ni2 : List Nat
  data : visitor_data_t
  clockCalls : Nat
  deriving DecidableEq, Repr

/-- The function `visitor` of the harness; `clock i` is the reading of the `i`-th call of
`clock()`. The counter `solutions` is a `long`, whose overflow is undefined and left
aside. -/
def visitor (clock : Nat → Nat) (m : VisitorCall) : Bool × VisitorCall :=
  let d1 : visitor_data_t := { m.data with solutions := m.data.solutions + 1 }
  if d1.solutions = 1 then
    (false, { m with
      data := { d1 with first_solution_time := clock m.clockCalls % ULONG_MOD },
      clockCalls := m.clockCalls + 1 })
  else (false, { m with data := d1 })

/-- A value of a binary floating-point type (`float`, `double`): a finite number
`m * 2^e`, an infinity, or a NaN. Zeros carry no sign: the sign of a zero plays no part in
a product that is then compared with `<`. -/
inductive FloatVal where
  | finite (m : Int) (e : Int)
  | inf (negative : Bool)
  | nan
  deriving DecidableEq, Repr

/-- The quotient of `n` by `2^k`, rounded to nearest, ties to even. -/
def roundShift (n k : Nat) : Nat :=
  let q := n / 2 ^ k
  let r := n % 2 ^ k
  if 2 * r < 2 ^ k then q
  else if 2 ^ k < 2 * r then q + 1
  else if q % 2 = 0 then q else q + 1

/-- The number of binary digits of `n`, by at most `fuel` halvings. -/
def bitLengthAux : Nat → Nat → Nat
  | 0, _ => 0
  | fuel + 1, n => if n = 0 then 0 else bitLengthAux fuel (n / 2) + 1

/-- The number of binary digits of `n`. -/
def bitLength (n : Nat) : Nat := bitLengthAux n n

/-- The `float` nearest to `n * 2^e`, negated when `negative`: IEEE 754 binary32 with
rounding to nearest, ties to even, that is 24 significant bits, least exponent -149 and
infinity from `2^128` on. -/
def roundFloat (negative : Bool) (n : Nat) (e : Int) : FloatVal :=
  let k : Nat := (max ((bitLength n : Int) - 24) (-149 - e)).toNat
  let m := roundShift n k
  if m ≠ 0 ∧ 129 ≤ (bitLength m : Int) + (e + k) then .inf negative
  else .finite (if negative then -(m : Int) else m) (e + k)

/-- The conversion of a non-negative integer (an `unsigned long`, or the `clock_t`
constant `CLOCKS_PER_SEC`) to `float`. -/
def floatOfNat (n : Nat) : FloatVal := roundFloat false n 0

/-- The conversion of a `double` to `float`, as in `limit = atof(argv[3])`. -/
def FloatVal.toFloat : FloatVal → FloatVal
  | .finite m e => roundFloat (decide (m < 0)) m.natAbs e
  | x => x

/-- The product of two `float`s, evaluated in `float`. -/
def FloatVal.mul : FloatVal → FloatVal → FloatVal
  | .nan, _ => .nan
  | _, .nan => .nan
  | .finite m1 e1, .finite m2 e2 =>
    roundFloat (decide (m1 * m2 < 0)) (m1 * m2).natAbs (e1 + e2)
  | .finite m _, .inf s => if m = 0 then .nan else .inf (decide (m < 0) != s)
  | .inf s, .finite m _ => if m = 0 then .nan else .inf (s != decide (m < 0))
  | .inf s1, .inf s2 => .inf (s1 != s2)

/-- The comparison `<` of two `float`s; it is false as soon as one of them is a NaN. -/
def FloatVal.lt : FloatVal → FloatVal → Bool
  | .nan, _ => false
  | _, .nan => false
  | .finite m1 e1, .finite m2 e2 =>
    decide (m1 * 2 ^ (e1 - min e1 e2).toNat < m2 * 2 ^ (e2 - min e1 e2).toNat)
  | .finite _ _, .inf s => !s
  | .inf s, .finite _ _ => s
  | .inf s1, .inf s2 => s1 && !s2

/-- The macro `TIME_LIMIT`. -/
def TIME_LIMIT : Nat := 1

/-- The environment of a run of the harness: the platform, the files by path, the library
function `atof` (the `double` it returns), the constant
`CLOCKS_PER_SEC`, the successive readings of `clock()`, and the classes `NodeClassifier`
and `VF3NodeSorter`, which are not part of the sources and are taken as given: the class
array of the target, the class array of the pattern relative to the target, and the
visiting order of the pattern. -/
structure Env where
  platform : Platform
  files : List Char → Option (List Char)
  atof : List Char → FloatVal
  CLOCKS_PER_SEC : Nat
  clock : Nat → Nat
  classTarg : ARGraph Int Unit → List Nat
  classPatt : ARGraph Int Unit → ARGraph Int Unit → List Nat
  sortNodes : ARGraph Int Unit → ARGraph Int Unit → List Nat

/-- The stream `std::ifstream(path)`: over the contents of the file, or with `failbit` set
when the file cannot be opened. -/
def Env.ifstream (env : Env) (path : List Char) : IStream :=
  match env.files path with
  | some t => IStream.ofText t
  | none => ⟨[], false, true⟩

/-- Modelled from the spec: the arrays handed to the visitor hold `NULL_NODE`, the largest
`node_id` (`argraph.hpp` is not part of the sources), for absent entries. -/
def nodeArray (p : Platform) (l : List (Option Nat)) : List Nat :=
  l.map (fun x => x.getD p.idMax)

/-- The visitor as the engine calls it: `visitor(n, n1, n2, state, &vis_data)`. The user
data of the search is `vis_data` together with the number of calls of `clock()`. -/
def harnessVisitor (env : Env) (s : MatchState) (u : visitor_data_t × Nat) :
    Bool × (visitor_data_t × Nat) :=
  let r := visitor env.clock
    ⟨s.fwd.length, nodeArray env.platform s.fwd, nodeArray env.platform s.rev, u.1, u.2⟩
  (r.1, (r.2.data, r.2.clockCalls))

/-- What `main` has built before the trials: the two graphs and their class arrays. -/
structure Harness where
  patt_graph : ARGraph Int Unit
  targ_graph : ARGraph Int Unit
  class_patt : List Nat
  class_targ : List Nat

/-- The variables of `main` that the trial loop changes: `rep`, `vis_data`, and the number
of calls of `clock()` made so far. -/
structure TrialState where
  rep : Int
  vis_data : visitor_data_t
  clockCalls : Nat
  deriving DecidableEq, Repr

/-- The search problem of a trial: the sorter is run again on the two graphs. -/
def Harness.problem (env : Env) (h : Harness) : Problem Int Unit Int Unit :=
  ⟨h.patt_graph, h.targ_graph, h.class_patt, h.class_targ,
    env.sortNodes h.targ_graph h.patt_graph⟩

/-- The body of the `do ... while` loop followed by the call of `clock()` in its
condition: `rep++`, the two counters of `vis_data` reset to 0, a new node order, a new
initial state, the search. The result is the new state and the reading of the clock. -/
def trialStep (env : Env) (h : Harness) (st : TrialState) :
    Except ConfigError (TrialState × Nat) :=
  match match_ (h.problem env) (harnessVisitor env) (⟨0, 0⟩, st.clockCalls) with
  | .error e => .error e
  | .ok tr => .ok (⟨st.rep + 1, tr.usr.1, tr.usr.2 + 1⟩, env.clock tr.usr.2)

/-- The condition `clock() - ticks < CLOCKS_PER_SEC*limit` of the loop, `now` being the
reading of `clock()`. The difference is an `unsigned long` and `limit` is a `float`: the
constant is converted to `float` and multiplied by `limit` in `float`, the difference is
converted to `float`, and the two `float`s are compared (each operation rounded to
`float`, as on platforms that evaluate `float` expressions in their own precision). -/
def loopContinues (env : Env) (ticks : Nat) (limit : FloatVal) (now : Nat) : Prop :=
  (floatOfNat (ulongSub now ticks)).lt ((floatOfNat env.CLOCKS_PER_SEC).mul limit) = true

/-- The condition of the loop is decidable. -/
instance instDecidableLoopContinues (env : Env) (ticks : Nat) (limit : FloatVal)
    (now : Nat) : Decidable (loopContinues env ticks limit now) := by
  unfold loopContinues
  infer_instance

/-- How the trial loop ends. `running` is not an end: it marks that the loop has not ended
within the given number of trials. -/
inductive LoopResult where
  | done (st : TrialState)
  | config (e : ConfigError)
  | running
  deriving DecidableEq, Repr

/-- The `do ... while` loop of `main`, at most `fuel` trials. -/
def trialLoop (env : Env) (h : Harness) (ticks : Nat) (limit : FloatVal) :
    Nat → TrialState → LoopResult
  | 0, _ => .running
  | fuel + 1, st =>
    match trialStep env h st with
    | .error e => .config e
    | .ok (st1, now) =>
      if loopContinues env ticks limit now then trialLoop env h ticks limit fuel st1
      else .done st1

/-- An item sent to `std::cout`: a text, an integer, or a `double` (taken as an exact
number). -/
inductive Printed where
  | text (s : List Char)
  | int (i : Int)
  | real (q : ℚ)
  deriving DecidableEq, Repr

/-- How a run of `main` ends: it returns an exit code, or the program is ended by
`error(...)`, or the engine reports a configuration error. `running` is not an end: the
trial loop has not ended within the given number of trials. In every case the items
printed so far are recorded. -/
inductive MainResult where
  | returned (code : Int) (out : List Printed)
  | fatal (e : Fatal) (out : List Printed)
  | config (e : ConfigError) (out : List Printed)
  | running (out : List Printed)
  deriving DecidableEq, Repr

/-- The usage message. -/
def usageMessage : List Char :=
  "Usage: vf3 [pattern] [target] [minimim execution time] \n".toList

/-- The value of the `float` variable `limit` after the arguments are read: `TIME_LIMIT`,
or `atof(argv[3])` converted to `float` when `argc == 4`. -/
def limitOf (env : Env) (argv : List (List Char)) : FloatVal :=
  if argv.length = 4 then (env.atof (argv.getD 3 [])).toFloat else floatOfNat TIME_LIMIT

/-- The graphs and class arrays that `main` builds from two loaded builders. -/
def Harness.ofLoaders (env : Env) (pattloader targloader : ARGEdit Int Unit) : Harness :=
  let patt_graph := ARGraph.ofLoader (pattloader.toLoader env.platform.junkInt ())
  let targ_graph := ARGraph.ofLoader (targloader.toLoader env.platform.junkInt ())
  ⟨patt_graph, targ_graph, env.classPatt patt_graph targ_graph, env.classTarg targ_graph⟩

/-- The values `timeAll` and `timeFirst` and the final output, computed after the loop;
`now` is the reading of the last call of `clock()`. -/
def finalOutput (env : Env) (ticks : Nat) (st : TrialState) (now : Nat) : List Printed :=
  let timeAll : ℚ := ((ulongSub now ticks : Nat) : ℚ) / env.CLOCKS_PER_SEC / st.rep
  let timeFirst : ℚ :=
    ((ulongSub st.vis_data.first_solution_time ticks : Nat) : ℚ) / env.CLOCKS_PER_SEC / st.rep
  [.int st.vis_data.solutions, .text [' '], .real timeAll, .text [' '], .real timeFirst]

/-- The function `main`, with `argc = argv.length`; `fuel` bounds the number of trials.
The variable `vis_data` is not initialised before the loop resets it. -/
def main (env : Env) (fuel : Nat) (argv : List (List Char)) : MainResult :=
  if argv.length < 3 then .returned (-1) [.text usageMessage]
  else
    let limit := limitOf env argv
    match StreamARGLoader env.platform (intCodec env.platform.junkInt) emptyCodec
        (env.ifstream (argv.getD 1 [])) with
    | .error e => .fatal e.1 []
    | .ok pattloader =>
      match StreamARGLoader env.platform (intCodec env.platform.junkInt) emptyCodec
          (env.ifstream (argv.getD 2 [])) with
      | .error e => .fatal e.1 []
      | .ok targloader =>
        let h := Harness.ofLoaders env pattloader.2 targloader.2
        let out1 : List Printed :=
          [.text "nodes1: ".toList, .int h.patt_graph.NodeCount, .text ['\n']]
        let ticks := env.clock 0 % ULONG_MOD
        match trialLoop env h ticks limit fuel
            ⟨0, ⟨env.platform.junkNat, env.platform.junkInt⟩, 1⟩ with
        | .running => .running out1
        | .config e => .config e out1
        | .done st => .returned 0 (out1 ++ finalOutput env ticks st (env.clock st.clockCalls))

/-- The trial loop, started in `st`, runs exactly `j` trials and ends in `st2`: every trial
but the last one ends with the condition of the loop true, and the last one, started in
`st1`, is the first that ends with it false. -/
inductive RunsTrials (env : Env) (h : Harness) (ticks : Nat) (limit : FloatVal) :
    Nat → TrialState → TrialState → TrialState → Prop where
  | last (st st2 : TrialState) (now : Nat) :
      trialStep env h st = .ok (st2, now) → ¬ loopContinues env ticks limit now →
      RunsTrials env h ticks limit 1 st st st2
  | more (j : Nat) (st sa st1 st2 : TrialState) (now : Nat) :
      trialStep env h st = .ok (sa, now) → loopContinues env ticks limit now →
      RunsTrials env h ticks limit j sa st1 st2 →
      RunsTrials env h ticks limit (j + 1) st st1 st2

/-- The average, over the trials, of the time to the first solution in seconds: each
trial contributes the tick of its first solution minus the tick at which it started. The
trials are given as pairs (start tick, first-solution tick). -/
def averageTimeToFirst (cps : Nat) (trials : List (Nat × Nat)) : ℚ :=
  ((trials.map (fun x => ((x.2 : ℚ) - (x.1 : ℚ)))).sum) / (cps : ℚ) / (trials.length : ℚ)

/-- A one-node graph file. -/
def oneNodeFile : List Char := "1\n0 5\n0\n".toList

/-- A three-node graph file without edges. -/
def threeNodeFile : List Char := "3\n0 5\n1 5\n2 5\n0\n0\n0\n".toList

/-- An environment with the files `p` (one node) and `t` (three nodes without edges), 100
ticks per second, a single class for all nodes, the identity as visiting order, `atof`
reading `2` as 2, and the clock readings 0, 10, 100, 110, 300, 300, ... -/
def exampleEnv : Env :=
  { platform := examplePlatform
    files := fun path =>
      if path = ['p'] then some oneNodeFile
      else if path = ['t'] then some threeNodeFile else none
    atof := fun s => if s = ['2'] then .finite 2 0 else .finite 0 0
    CLOCKS_PER_SEC := 100
    clock := fun i => [0, 10, 100, 110].getD i 300
    classTarg := fun g => List.replicate g.NodeCount 0
    classPatt := fun g _ => List.replicate g.NodeCount 0
    sortNodes := fun _ g => List.range g.NodeCount }

/-- The two graphs of the example environment, as the harness holds them. -/
def exampleHarness : Harness :=
  Harness.ofLoaders exampleEnv ⟨[.node 5]⟩ ⟨[.node 5, .node 5, .node 5]⟩

/-- The command line `vf3 p t 2`. -/
def exampleArgs : List (List Char) := [['v', 'f', '3'], ['p'], ['t'], ['2']]

/-- The first item of an output that is a value and not text. -/
def firstValue : List Printed → Option Printed
  | [] => none
  | .text _ :: out => firstValue out
  | x :: _ => some x

/-- The output of the run `vf3 p t 2` in the example environment: `nodes1: 1`, a line end,
and `3 1.5 0.55`. -/
def exampleOutput : List Printed :=
  [.text "nodes1: ".toList, .int 1, .text ['\n'], .int 3, .text [' '], .real (3 / 2),
    .text [' '], .real (11 / 20)]

/-- Lines that `getline` delivers whole: no newline inside, shorter than the buffer. -/
def GoodLines (ls : List (List Char)) : Prop := ∀ l ∈ ls, '\n' ∉ l ∧ l.length < MAX_LINE

/-- A stream positioned before good lines whose significant ones are `sl`. -/
def Reads (s : IStream) (sl : List (List Char)) : Prop :=
  ∃ ls, GoodLines ls ∧ s = lineStream ls ∧ ls.filter (fun l => !ignoredLine l) = sl

/-- Agreement of a step on the stream with a step on the significant lines. -/
def Sim {α β : Type} (x : Step α β) (y : SigStep α β) : Prop :=
  match x, y with
  | .error e, .error e2 => e = e2
  | .ok (s, g), .ok (sl, g2) => g = g2 ∧ Reads s sl
  | _, _ => False

/-- A run of decimal digits, as `out << n` writes it. -/
def IsNumeral (ds : List Char) (n : Nat) : Prop :=
  ds ≠ [] ∧ (∀ c ∈ ds, isdigit c = true ∧ isspace c = false ∧ c ≠ '#' ∧ c ≠ '-' ∧ c ≠ '+' ∧
    c ≠ '\n') ∧
  ∀ a, ds.foldl (fun a c => 10 * a + digitVal c) a = a * 10 ^ ds.length + n

/-- The text that follows a numeral does not continue it. -/
def EndsNumeral (rest : List Char) : Prop := ∀ c r, rest = c :: r → isdigit c = false

/-- The codecs read back all the attributes of the graph. -/
def ARGraph.ReadsBack {α β : Type} (cn : AttrCodec α) (ce : AttrCodec β) (g : ARGraph α β) :
    Prop :=
  ∀ i, i < g.NodeCount → cn.ReadsBack (g.GetNodeAttr i) ∧
    ∀ j, j < g.OutEdgeCount i → ce.ReadsBack (g.GetOutEdge i j).2

/-- The significant lines written for a graph, grouped. -/
def writtenFile {α β : Type} (cn : AttrCodec α) (ce : AttrCodec β) (g : ARGraph α β) :
    TextFile :=
  ⟨showNat g.NodeCount, (List.range g.NodeCount).map (nodeLine cn g),
    (List.range g.NodeCount).map (fun i =>
      (showNat (g.OutEdgeCount i), (List.range (g.OutEdgeCount i)).map (edgeLine ce g i)))⟩

/-- The insertions that rebuild a graph in the order of the writer. -/
def ARGraph.insertions {α β : Type} (g : ARGraph α β) : List (Ins α β) :=
  (List.range g.NodeCount).map (fun i => Ins.node (g.GetNodeAttr i)) ++
  (List.range g.NodeCount).flatMap (fun i =>
    (List.range (g.OutEdgeCount i)).map (fun j =>
      Ins.edge i (g.GetOutEdge i j).1 (g.GetOutEdge i j).2))

/-- The text begins with a whitespace character. -/
def SpaceFirst (l : List Char) : Prop := ∃ sp r, l = sp :: r ∧ isspace sp = true

/-- The visiting order passes the setup check. -/
def Problem.OrderOk {α β γ δ : Type} (pb : Problem α β γ δ) : Prop :=
  pb.order.length = pb.pattern.NodeCount ∧ pb.order.Nodup ∧
  ∀ p ∈ pb.order, p < pb.pattern.NodeCount

/-- The state is a partial bijection whose domain is the first `k` nodes of the order. -/
def StateInv {α β γ δ : Type} (pb : Problem α β γ δ) (k : Nat) (st : MatchState) : Prop :=
  st.fwd.length = pb.pattern.NodeCount ∧ st.rev.length = pb.target.NodeCount ∧
  (∀ p t, st.image p = some t ↔ st.preimage t = some p) ∧
  (∀ p, (st.image p).isSome = true ↔ p ∈ pb.order.take k)

/-- The edges between mapped pattern nodes are present between their images. -/
def EdgeInv {α β γ δ : Type} (pb : Problem α β γ δ) (st : MatchState) : Prop :=
  ∀ p1 p2 t1 t2, st.image p1 = some t1 → st.image p2 = some t2 →
    pb.pattern.HasEdge p1 p2 = true → pb.target.HasEdge t1 t2 = true

/-- A complete, consistent solution. -/
def GoodSolution {α β γ δ : Type} (pb : Problem α β γ δ) (s : MatchState) : Prop :=
  StateInv pb pb.pattern.NodeCount s ∧ EdgeInv pb s

/-- The bytes of `s2` are those of `s1` followed by bytes `FF`. -/
def Padded (s1 s2 : List Byte) : Prop := ∃ k, s2 = s1 ++ List.replicate k (255 : Byte)

/-! # Theorems -/

theorem getlineLoop_line (l rest : List Char) (room : Nat) (hl : '\n' ∉ l)
    (hlen : l.length ≤ room) : getlineLoop room (l ++ '\n' :: rest) = (l, rest, false, false) := by
  induction l generalizing room with
  | nil => cases room <;> simp [getlineLoop]
  | cons c cs ih =>
    have hc : c ≠ '\n' := fun h => hl (by simp [h])
    have hcs : '\n' ∉ cs := fun h => hl (by simp [h])
    cases room with
    | zero => simp at hlen
    | succ room =>
      have := ih room hcs (by simpa using hlen)
      simp [getlineLoop, hc, this]

theorem getlineLoop_last (l : List Char) (room : Nat) (hl : '\n' ∉ l)
    (hlen : l.length ≤ room) : getlineLoop room l = (l, [], true, false) := by
  induction l generalizing room with
  | nil => simp [getlineLoop]
  | cons c cs ih =>
    have hc : c ≠ '\n' := fun h => hl (by simp [h])
    have hcs : '\n' ∉ cs := fun h => hl (by simp [h])
    cases room with
    | zero => simp at hlen
    | succ room =>
      have := ih room hcs (by simpa using hlen)
      simp [getlineLoop, hc, this]

theorem textLines_ne_nil (t : List Char) : textLines t ≠ [] := by
  cases t with
  | nil => simp [textLines]
  | cons c cs =>
    simp only [textLines]
    split
    · simp
    · split <;> simp

theorem joinLines_textLines (t : List Char) : joinLines (textLines t) = t := by
  induction t with
  | nil => simp [textLines, joinLines]
  | cons c cs ih =>
    simp only [textLines]
    split
    · rename_i h
      subst h
      have hne := textLines_ne_nil cs
      cases hx : textLines cs with
      | nil => exact absurd hx hne
      | cons l ls => rw [hx] at ih; simp [joinLines, ih]
    · cases hx : textLines cs with
      | nil => exact absurd hx (textLines_ne_nil cs)
      | cons l ls =>
        rw [hx] at ih
        cases ls with
        | nil => simp [joinLines] at ih ⊢; exact ih
        | cons l2 ls => simp [joinLines] at ih ⊢; exact ih

theorem textLines_no_newline (t : List Char) : ∀ l ∈ textLines t, '\n' ∉ l := by
  induction t with
  | nil => simp [textLines]
  | cons c cs ih =>
    simp only [textLines]
    split
    · intro l hl
      simp at hl
      rcases hl with h | h
      · simp [h]
      · exact ih l h
    · rename_i hc
      cases hx : textLines cs with
      | nil => exact absurd hx (textLines_ne_nil cs)
      | cons l ls =>
        rw [hx] at ih
        intro l' hl'
        simp at hl'
        rcases hl' with h | h
        · subst h
          have := ih l (by simp)
          simp only [List.mem_cons, not_or]
          exact ⟨fun h => hc h.symm, this⟩
        · exact ih l' (by simp [h])

theorem GoodLines.tail {l : List Char} {ls : List (List Char)} (h : GoodLines (l :: ls)) :
    GoodLines ls := fun x hx => h x (List.mem_cons_of_mem _ hx)

theorem ignoredLine_nil : ignoredLine [] = true := by simp [ignoredLine]

theorem readLineLoop_bad (fuel : Nat) (s : IStream) (h : s.good = false) :
    readLineLoop (fuel + 1) s = .error .eof := by
  simp [readLineLoop, h]

theorem getline_last (l : List Char) (h1 : '\n' ∉ l) (h2 : l.length < MAX_LINE) :
    (IStream.ofText l).getline MAX_LINE = (l, ⟨[], true, decide (l.length = 0)⟩) := by
  have h := getlineLoop_last l (MAX_LINE - 1) h1 (by simp [MAX_LINE] at h2 ⊢; omega)
  simp [IStream.getline, IStream.ofText, IStream.good, h, eq_comm]

theorem getline_line (l rest : List Char) (h1 : '\n' ∉ l) (h2 : l.length < MAX_LINE) :
    (IStream.ofText (l ++ '\n' :: rest)).getline MAX_LINE = (l, IStream.ofText rest) := by
  have h := getlineLoop_line l rest (MAX_LINE - 1) h1 (by simp [MAX_LINE] at h2 ⊢; omega)
  simp [IStream.getline, IStream.ofText, IStream.good, h]
  omega

theorem readLineLoop_lineStream (ls : List (List Char)) (h : GoodLines ls) :
    ∀ fuel, ls.length + 1 ≤ fuel →
    (ls.filter (fun l => !ignoredLine l) = [] ∧
        readLineLoop fuel (lineStream ls) = .error .eof) ∨
    (∃ l rest, readLineLoop fuel (lineStream ls) = .ok (l, lineStream rest) ∧
        ls.filter (fun l => !ignoredLine l) = l :: rest.filter (fun l => !ignoredLine l) ∧
        GoodLines rest) := by
  induction ls with
  | nil =>
    intro fuel hf
    left
    obtain ⟨f, rfl⟩ : ∃ f, fuel = f + 1 := ⟨fuel - 1, by omega⟩
    exact ⟨rfl, readLineLoop_bad f _ rfl⟩
  | cons l ls ih =>
    intro fuel hf
    obtain ⟨f, rfl⟩ : ∃ f, fuel = f + 1 := ⟨fuel - 1, by omega⟩
    have hl := h l (by simp)
    have hg : (lineStream (l :: ls)).good = true := rfl
    cases ls with
    | nil =>
      have hgl := getline_last l hl.1 hl.2
      simp only [lineStream, joinLines] at hgl ⊢
      by_cases hi : ignoredLine l = true
      · left
        refine ⟨by simp [hi], ?_⟩
        obtain ⟨f2, rfl⟩ : ∃ f2, f = f2 + 1 := ⟨f - 1, by simp at hf; omega⟩
        rw [readLineLoop]
        simp only [hgl, hi, if_true]
        have : (IStream.ofText l).good = true := rfl
        simp only [this, if_true]
        exact readLineLoop_bad f2 _ rfl
      · right
        have hne : l ≠ [] := fun e => hi (by rw [e]; exact ignoredLine_nil)
        have hlen : decide (l.length = 0) = false := by simpa using hne
        refine ⟨l, [], ?_, by simp [hi], fun x hx => by simp at hx⟩
        rw [readLineLoop]
        have : (IStream.ofText l).good = true := rfl
        simp only [this, if_true, hgl, hi, hlen]
        simp [lineStream]
    | cons l2 r =>
      have hgl := getline_line l (joinLines (l2 :: r)) hl.1 hl.2
      have hstep : readLineLoop (f + 1) (lineStream (l :: l2 :: r)) =
          if ignoredLine l then readLineLoop f (lineStream (l2 :: r)) else .ok (l, lineStream (l2 :: r)) := by
        rw [readLineLoop]
        simp only [hg, if_true]
        simp only [lineStream, joinLines] at hgl ⊢
        simp only [hgl]
      rw [hstep]
      by_cases hi : ignoredLine l = true
      · simp only [hi, if_true]
        have := ih h.tail f (by simp at hf ⊢; omega)
        simpa [List.filter, hi] using this
      · right
        refine ⟨l, l2 :: r, by simp [hi], by simp [hi], h.tail⟩

theorem joinLines_length (ls : List (List Char)) : ls.length ≤ (joinLines ls).length + 1 := by
  induction ls with
  | nil => simp
  | cons l ls ih =>
    cases ls with
    | nil => simp
    | cons l2 r => simp [joinLines] at ih ⊢; omega

theorem readLine_lineStream (ls : List (List Char)) (h : GoodLines ls) :
    (ls.filter (fun l => !ignoredLine l) = [] ∧
        readLine (lineStream ls) = .error .eof) ∨
    (∃ l rest, readLine (lineStream ls) = .ok (l, lineStream rest) ∧
        ls.filter (fun l => !ignoredLine l) = l :: rest.filter (fun l => !ignoredLine l) ∧
        GoodLines rest) := by
  apply readLineLoop_lineStream ls h
  cases ls with
  | nil => simp [lineStream]
  | cons l r =>
    have := joinLines_length (l :: r)
    simp [lineStream, IStream.ofText] at this ⊢
    omega

theorem readLine_reads {s : IStream} {sl : List (List Char)} (h : Reads s sl) :
    (sl = [] ∧ readLine s = .error .eof) ∨
    (∃ l s1 sl1, readLine s = .ok (l, s1) ∧ sl = l :: sl1 ∧ Reads s1 sl1) := by
  obtain ⟨ls, hg, rfl, rfl⟩ := h
  rcases readLine_lineStream ls hg with ⟨h1, h2⟩ | ⟨l, rest, h1, h2, h3⟩
  · exact Or.inl ⟨h1, h2⟩
  · exact Or.inr ⟨l, _, _, h1, h2, rest, h3, rfl, rfl⟩

theorem readCount_reads (p : Platform) {s : IStream} {sl : List (List Char)} (h : Reads s sl) :
    (sigCount p sl = .error .eof ∧ readCount p s = .error .eof) ∨
    (∃ c s1 sl1, readCount p s = .ok (c, s1) ∧ sigCount p sl = .ok (c, sl1) ∧ Reads s1 sl1) := by
  rcases readLine_reads h with ⟨rfl, h2⟩ | ⟨l, s1, sl1, h1, rfl, h3⟩
  · left; simp [sigCount, readCount, h2]
  · right; exact ⟨parseCount p l, s1, sl1, by simp [readCount, h1], by simp [sigCount], h3⟩

theorem readNode_sim {α β : Type} (p : Platform) (cn : AttrCodec α) {s : IStream}
    {sl : List (List Char)} (g : ARGEdit α β) (h : Reads s sl) :
    Sim (readNode p cn s g) (sigNode p cn sl g) := by
  rcases readLine_reads h with ⟨rfl, h2⟩ | ⟨l, s1, sl1, h1, rfl, h3⟩
  · simp [readNode, sigNode, h2, Sim]
  · simp only [readNode, sigNode, h1]
    split <;> simp [Sim, h3]

theorem readEdge_sim {α β : Type} (p : Platform) (ce : AttrCodec β) {s : IStream}
    {sl : List (List Char)} (g : ARGEdit α β) (h : Reads s sl) :
    Sim (readEdge p ce s g) (sigEdge p ce sl g) := by
  rcases readLine_reads h with ⟨rfl, h2⟩ | ⟨l, s1, sl1, h1, rfl, h3⟩
  · simp [readEdge, sigEdge, h2, Sim]
  · simp [readEdge, sigEdge, h1, Sim, h3]

theorem readNodes_sim {α β : Type} (p : Platform) (cn : AttrCodec α) (k : Nat) :
    ∀ {s : IStream} {sl : List (List Char)} (g : ARGEdit α β), Reads s sl →
    Sim (readNodes p cn k s g) (sigNodes p cn k sl g) := by
  induction k with
  | zero => intro s sl g h; simp [readNodes, sigNodes, Sim, h]
  | succ k ih =>
    intro s sl g h
    have h1 := readNode_sim p cn g h
    simp only [readNodes, sigNodes]
    cases hx : readNode p cn s g with
    | error e =>
      cases hy : sigNode p cn sl g with
      | error e2 => rw [hx, hy] at h1; simpa [Sim] using h1
      | ok y => rw [hx, hy] at h1; simp [Sim] at h1
    | ok x =>
      cases hy : sigNode p cn sl g with
      | error e2 => rw [hx, hy] at h1; simp [Sim] at h1
      | ok y =>
        rw [hx, hy] at h1
        obtain ⟨s1, g1⟩ := x
        obtain ⟨sl1, g2⟩ := y
        simp only [Sim] at h1
        obtain ⟨rfl, hr⟩ := h1
        exact ih g1 hr

theorem readEdges_sim {α β : Type} (p : Platform) (ce : AttrCodec β) (k : Nat) :
    ∀ {s : IStream} {sl : List (List Char)} (g : ARGEdit α β), Reads s sl →
    Sim (readEdges p ce k s g) (sigEdges p ce k sl g) := by
  induction k with
  | zero => intro s sl g h; simp [readEdges, sigEdges, Sim, h]
  | succ k ih =>
    intro s sl g h
    have h1 := readEdge_sim p ce g h
    simp only [readEdges, sigEdges]
    cases hx : readEdge p ce s g with
    | error e =>
      cases hy : sigEdge p ce sl g with
      | error e2 => rw [hx, hy] at h1; simpa [Sim] using h1
      | ok y => rw [hx, hy] at h1; simp [Sim] at h1
    | ok x =>
      cases hy : sigEdge p ce sl g with
      | error e2 => rw [hx, hy] at h1; simp [Sim] at h1
      | ok y =>
        rw [hx, hy] at h1
        obtain ⟨s1, g1⟩ := x
        obtain ⟨sl1, g2⟩ := y
        simp only [Sim] at h1
        obtain ⟨rfl, hr⟩ := h1
        exact ih g1 hr

theorem readSections_sim {α β : Type} (p : Platform) (ce : AttrCodec β) (k : Nat) :
    ∀ {s : IStream} {sl : List (List Char)} (g : ARGEdit α β), Reads s sl →
    Sim (readSections p ce k s g) (sigSections p ce k sl g) := by
  induction k with
  | zero => intro s sl g h; simp [readSections, sigSections, Sim, h]
  | succ k ih =>
    intro s sl g h
    simp only [readSections, sigSections]
    rcases readCount_reads p h with ⟨h1, h2⟩ | ⟨c, s1, sl1, h1, h2, h3⟩
    · simp [h1, h2, Sim]
    · simp only [h1, h2]
      have h4 := readEdges_sim p ce c.toNat g h3
      cases hx : readEdges p ce c.toNat s1 g with
      | error e =>
        cases hy : sigEdges p ce c.toNat sl1 g with
        | error e2 => rw [hx, hy] at h4; simpa [Sim] using h4
        | ok y => rw [hx, hy] at h4; simp [Sim] at h4
      | ok x =>
        cases hy : sigEdges p ce c.toNat sl1 g with
        | error e2 => rw [hx, hy] at h4; simp [Sim] at h4
        | ok y =>
          rw [hx, hy] at h4
          obtain ⟨s2, g1⟩ := x
          obtain ⟨sl2, g2⟩ := y
          simp only [Sim] at h4
          obtain ⟨rfl, hr⟩ := h4
          exact ih g1 hr

theorem StreamARGLoader_sim {α β : Type} (p : Platform) (cn : AttrCodec α) (ce : AttrCodec β)
    {s : IStream} {sl : List (List Char)} (h : Reads s sl) :
    Sim (StreamARGLoader p cn ce s) (sigLoad p cn ce sl) := by
  simp only [StreamARGLoader, sigLoad]
  rcases readCount_reads p h with ⟨h1, h2⟩ | ⟨c, s1, sl1, h1, h2, h3⟩
  · simp [h1, h2, Sim]
  · simp only [h1, h2]
    by_cases hc : c ≤ 0
    · simp [hc, Sim, h3]
    · simp only [hc, if_false]
      have h4 := readNodes_sim p cn c.toNat (ARGEdit.empty : ARGEdit α β) h3
      cases hx : readNodes p cn c.toNat s1 (ARGEdit.empty : ARGEdit α β) with
      | error e =>
        cases hy : sigNodes p cn c.toNat sl1 (ARGEdit.empty : ARGEdit α β) with
        | error e2 => rw [hx, hy] at h4; simpa [Sim] using h4
        | ok y => rw [hx, hy] at h4; simp [Sim] at h4
      | ok x =>
        cases hy : sigNodes p cn c.toNat sl1 (ARGEdit.empty : ARGEdit α β) with
        | error e2 => rw [hx, hy] at h4; simp [Sim] at h4
        | ok y =>
          rw [hx, hy] at h4
          obtain ⟨s2, g1⟩ := x
          obtain ⟨sl2, g2⟩ := y
          simp only [Sim] at h4
          obtain ⟨rfl, hr⟩ := h4
          exact readSections_sim p ce c.toNat g1 hr

theorem outcome_of_sim {α β : Type} {x : Step α β} {y : SigStep α β} (h : Sim x y) :
    outcome x = outcome y := by
  cases x with
  | error e => cases y with
    | error e2 => simp only [Sim] at h; simp [outcome, h]
    | ok y => simp [Sim] at h
  | ok x => cases y with
    | error e2 => simp [Sim] at h
    | ok y => obtain ⟨s, g⟩ := x; obtain ⟨sl, g2⟩ := y; simp only [Sim] at h; simp [outcome, h.1]

theorem reads_ofText (t : List Char) (h : ShortLines t) : Reads (IStream.ofText t) (sigLines t) := by
  refine ⟨textLines t, fun l hl => ⟨textLines_no_newline t l hl, h l hl⟩, ?_, rfl⟩
  have h1 := joinLines_textLines t
  cases hx : textLines t with
  | nil => exact absurd hx (textLines_ne_nil t)
  | cons l ls => rw [hx] at h1; simp [lineStream, h1]

/-- The loader on a text whose lines fit the line buffer is the loader on the text's
significant lines. -/
theorem StreamARGLoader_eq_sigLoad {α β : Type} (p : Platform) (cn : AttrCodec α)
    (ce : AttrCodec β) (t : List Char) (h : ShortLines t) :
    outcome (StreamARGLoader p cn ce (IStream.ofText t)) = outcome (sigLoad p cn ce (sigLines t)) :=
  outcome_of_sim (StreamARGLoader_sim p cn ce (reads_ofText t h))

/-! ### The loader on significant lines -/

@[simp] theorem NodeCount_InsertNode {α β : Type} (g : ARGEdit α β) (a : α) :
    (g.InsertNode a).NodeCount = g.NodeCount + 1 := by
  simp [ARGEdit.InsertNode, ARGEdit.NodeCount, ARGEdit.nodes, List.filterMap_append, Ins.asNode]

@[simp] theorem NodeCount_InsertEdge {α β : Type} (g : ARGEdit α β) (u v : Nat) (b : β) :
    (g.InsertEdge u v b).NodeCount = g.NodeCount := by
  simp [ARGEdit.InsertEdge, ARGEdit.NodeCount, ARGEdit.nodes, List.filterMap_append, Ins.asNode]

theorem sigNodes_ok {α β : Type} (p : Platform) (cn : AttrCodec α) (ls rest : List (List Char)) :
    ∀ (g : ARGEdit α β), lineIds p cn ls = List.range' g.NodeCount ls.length →
    sigNodes p cn ls.length (ls ++ rest) g = .ok (rest, ⟨g.log ++ ls.map (nodeIns p cn)⟩) := by
  induction ls with
  | nil => intro g _; simp [sigNodes]
  | cons l ls ih =>
    intro g h
    simp only [lineIds, List.map_cons, List.length_cons, List.range'_succ, List.cons.injEq] at h
    have h2 := ih (g.InsertNode (parseNode p cn l).2) (by simpa [lineIds] using h.2)
    simp only [List.length_cons, sigNodes, List.cons_append, sigNode, h.1, ne_eq, not_true_eq_false,
      if_false, h2]
    simp [ARGEdit.InsertNode, nodeIns]

theorem sigEdges_ok {α β : Type} (p : Platform) (ce : AttrCodec β) (ls rest : List (List Char)) :
    ∀ (g : ARGEdit α β),
    sigEdges p ce ls.length (ls ++ rest) g = .ok (rest, ⟨g.log ++ ls.map (edgeIns p ce)⟩) := by
  induction ls with
  | nil => intro g; simp [sigEdges]
  | cons l ls ih =>
    intro g
    simp only [List.length_cons, sigEdges, List.cons_append, sigEdge, ih]
    simp [ARGEdit.InsertEdge, edgeIns]

theorem sigSections_ok {α β : Type} (p : Platform) (ce : AttrCodec β)
    (secs : List (List Char × List (List Char))) (rest : List (List Char)) :
    ∀ (g : ARGEdit α β), (∀ s ∈ secs, (parseCount p s.1).toNat = s.2.length) →
    sigSections p ce secs.length (secs.flatMap (fun s => s.1 :: s.2) ++ rest) g =
      .ok (rest, ⟨g.log ++ secs.flatMap (fun s => s.2.map (edgeIns p ce))⟩) := by
  induction secs with
  | nil => intro g _; simp [sigSections]
  | cons s secs ih =>
    intro g h
    have hs := h s (by simp)
    have h2 := sigEdges_ok p ce s.2 (secs.flatMap (fun s => s.1 :: s.2) ++ rest) g
    simp only [List.length_cons, sigSections, List.flatMap_cons, List.cons_append, sigCount, hs,
      List.append_assoc, h2]
    rw [ih _ (fun x hx => h x (by simp [hx]))]
    simp

theorem sigLoad_ok {α β : Type} (p : Platform) (cn : AttrCodec α) (ce : AttrCodec β)
    (f : TextFile) (rest : List (List Char)) (hshape : f.Shaped p)
    (hids : f.IdsInOrder p cn) :
    sigLoad p cn ce (f.lines ++ rest) = .ok (rest, ⟨f.insertions p cn ce⟩) := by
  obtain ⟨h0, h1, h2, h3⟩ := hshape
  have hn := sigNodes_ok (β := β) p cn f.nodeLines
    (f.sections.flatMap (fun s => s.1 :: s.2) ++ rest) ARGEdit.empty
    (by simpa [ARGEdit.empty, ARGEdit.NodeCount, ARGEdit.nodes, List.range_eq_range',
      TextFile.IdsInOrder] using hids)
  have hs := sigSections_ok p ce f.sections rest
    (⟨(ARGEdit.empty : ARGEdit α β).log ++ f.nodeLines.map (nodeIns p cn)⟩) h3
  simp only [sigLoad, TextFile.lines, List.cons_append, sigCount, not_le.mpr h0, if_false,
    List.append_assoc]
  rw [← h1, hn]
  simp only
  rw [h1, ← h2, hs]
  simp [TextFile.insertions, ARGEdit.empty]

theorem digitChar_facts : ∀ r, r < 10 →
    isdigit (Char.ofNat (48 + r)) = true ∧ digitVal (Char.ofNat (48 + r)) = r ∧
    isspace (Char.ofNat (48 + r)) = false ∧ Char.ofNat (48 + r) ≠ '#' ∧
    Char.ofNat (48 + r) ≠ '-' ∧ Char.ofNat (48 + r) ≠ '+' ∧ Char.ofNat (48 + r) ≠ '\n' := by
  decide

theorem showNatAux_spec (fuel : Nat) : ∀ (n : Nat) (acc : List Char), n < fuel →
    ∃ ds, showNatAux fuel n acc = ds ++ acc ∧ IsNumeral ds n := by
  induction fuel with
  | zero => intro n acc h; simp at h
  | succ fuel ih =>
    intro n acc h
    have hd := digitChar_facts (n % 10) (Nat.mod_lt _ (by decide))
    by_cases h0 : n / 10 = 0
    · refine ⟨[Char.ofNat (48 + n % 10)], by simp [showNatAux, h0], by simp, ?_, ?_⟩
      · intro c hc
        simp only [List.mem_singleton] at hc
        subst hc
        exact ⟨hd.1, hd.2.2.1, hd.2.2.2.1, hd.2.2.2.2.1, hd.2.2.2.2.2.1, hd.2.2.2.2.2.2⟩
      · intro a
        simp only [List.foldl_cons, List.foldl_nil, hd.2.1, List.length_singleton, pow_one]
        have : n % 10 = n := Nat.mod_eq_of_lt (by omega)
        omega
    · obtain ⟨ds, h1, h2, h3, h4⟩ := ih (n / 10) (Char.ofNat (48 + n % 10) :: acc) (by omega)
      refine ⟨ds ++ [Char.ofNat (48 + n % 10)], by simp [showNatAux, h0, h1], by simp, ?_, ?_⟩
      · intro c hc
        simp only [List.mem_append, List.mem_singleton] at hc
        rcases hc with hc | hc
        · exact h3 c hc
        · subst hc
          exact ⟨hd.1, hd.2.2.1, hd.2.2.2.1, hd.2.2.2.2.1, hd.2.2.2.2.2.1, hd.2.2.2.2.2.2⟩
      · intro a
        simp only [List.foldl_append, List.foldl_cons, List.foldl_nil, h4, hd.2.1,
          List.length_append, List.length_singleton, pow_succ]
        have := Nat.div_add_mod n 10
        nlinarith [this]

theorem showNat_numeral (n : Nat) : IsNumeral (showNat n) n := by
  obtain ⟨ds, h1, h2⟩ := showNatAux_spec (n + 1) n [] (by omega)
  simp only [List.append_nil] at h1
  unfold showNat
  rw [h1]
  exact h2

theorem IsNumeral.digitsVal {ds : List Char} {n : Nat} (h : IsNumeral ds n) :
    digitsVal ds = n := by
  have := h.2.2 0
  simpa [VF3.digitsVal] using this

theorem takeWhile_numeral {ds rest : List Char} {n : Nat} (h : IsNumeral ds n)
    (hr : EndsNumeral rest) :
    (ds ++ rest).takeWhile isdigit = ds ∧ (ds ++ rest).dropWhile isdigit = rest := by
  have hall : ∀ c ∈ ds, isdigit c = true := fun c hc => (h.2.1 c hc).1
  rw [List.takeWhile_append_of_pos hall, List.dropWhile_append_of_pos hall]
  cases rest with
  | nil => simp
  | cons c r => simp [List.takeWhile, List.dropWhile, hr c r rfl]

theorem scanNum_numeral {ds rest : List Char} {n : Nat} (h : IsNumeral ds n)
    (hr : EndsNumeral rest) : scanNum (ds ++ rest) = ⟨false, ds, rest⟩ := by
  obtain ⟨h1, h2⟩ := takeWhile_numeral h hr
  cases ds with
  | nil => exact absurd rfl h.1
  | cons d ds =>
    have hd := h.2.1 d (by simp)
    unfold scanNum
    split
    · rename_i t heq
      simp only [List.cons_append, List.cons.injEq] at heq
      exact absurd heq.1 hd.2.2.2.1
    · rename_i t heq
      simp only [List.cons_append, List.cons.injEq] at heq
      exact absurd heq.1 hd.2.2.2.2.1
    · rw [h1, h2]

theorem sentry_numeral {ds rest : List Char} {n : Nat} (h : IsNumeral ds n) (ws : List Char)
    (hws : ∀ c ∈ ws, isspace c = true) :
    (IStream.ofText (ws ++ (ds ++ rest))).sentry = (true, IStream.ofText (ds ++ rest)) := by
  cases ds with
  | nil => exact absurd rfl h.1
  | cons d ds =>
    have hd := h.2.1 d (by simp)
    simp [IStream.sentry, IStream.ofText, IStream.good, List.dropWhile_append_of_pos hws,
      List.dropWhile, hd.2.1]

theorem extractUnsigned_numeral {ds rest : List Char} {n : Nat} (h : IsNumeral ds n)
    (hr : EndsNumeral rest) (ws : List Char) (hws : ∀ c ∈ ws, isspace c = true)
    (maxv : Nat) (hn : n ≤ maxv) :
    extractUnsigned maxv (IStream.ofText (ws ++ (ds ++ rest))) =
      (some n, ⟨rest, rest.isEmpty, false⟩) := by
  unfold extractUnsigned
  rw [sentry_numeral h ws hws]
  simp only [IStream.ofText, scanNum_numeral h hr, h.digitsVal]
  have : ds.isEmpty = false := by cases ds with
    | nil => exact absurd rfl h.1
    | cons _ _ => rfl
  simp [this, Nat.not_lt.mpr hn]

theorem extractInt_numeral {ds rest : List Char} {n : Nat} (h : IsNumeral ds n)
    (hr : EndsNumeral rest) (ws : List Char) (hws : ∀ c ∈ ws, isspace c = true)
    (hn : n ≤ INT_MAX) :
    extractInt (IStream.ofText (ws ++ (ds ++ rest))) =
      (some (n : Int), ⟨rest, rest.isEmpty, false⟩) := by
  unfold extractInt
  rw [sentry_numeral h ws hws]
  simp only [IStream.ofText, scanNum_numeral h hr, h.digitsVal]
  have : ds.isEmpty = false := by cases ds with
    | nil => exact absurd rfl h.1
    | cons _ _ => rfl
  simp [this, Nat.not_lt.mpr hn]

theorem endsNumeral_nil : EndsNumeral [] := fun c r h => by cases h

theorem endsNumeral_space (r : List Char) : EndsNumeral (' ' :: r) := by
  intro c r2 h
  simp only [List.cons.injEq] at h
  rw [← h.1]
  decide

theorem parseCount_showNat (p : Platform) (n : Nat) (hn : n ≤ INT_MAX) :
    parseCount p (showNat n) = (n : Int) := by
  have h := extractInt_numeral (showNat_numeral n) endsNumeral_nil [] (by simp) hn
  simp only [List.nil_append, List.append_nil] at h
  simp [parseCount, h]

/-! ### Writing and reading back -/

theorem parseNode_nodeLine {α β : Type} (p : Platform) (cn : AttrCodec α) (g : ARGraph α β)
    (i : Nat) (hi : i ≤ p.idMax) (ha : cn.ReadsBack (g.GetNodeAttr i)) :
    parseNode p cn (nodeLine cn g i) = (i, g.GetNodeAttr i) := by
  have h := extractUnsigned_numeral (showNat_numeral i)
    (endsNumeral_space (cn.put (g.GetNodeAttr i))) [] (by simp) p.idMax hi
  simp only [List.nil_append] at h
  simp [parseNode, nodeLine, h, ha.2]

theorem parseEdge_edgeLine {α β : Type} (p : Platform) (ce : AttrCodec β) (g : ARGraph α β)
    (i j : Nat) (hi : i ≤ p.idMax) (hk : (g.GetOutEdge i j).1 ≤ p.idMax)
    (ha : ce.ReadsBack (g.GetOutEdge i j).2) :
    parseEdge p ce (edgeLine ce g i j) = (i, (g.GetOutEdge i j).1, (g.GetOutEdge i j).2) := by
  have h1 := extractUnsigned_numeral (showNat_numeral i)
    (endsNumeral_space (showNat (g.GetOutEdge i j).1 ++ ' ' :: ce.put (g.GetOutEdge i j).2))
    [] (by simp) p.idMax hi
  have h2 := extractUnsigned_numeral (showNat_numeral (g.GetOutEdge i j).1)
    (endsNumeral_space (ce.put (g.GetOutEdge i j).2)) [' '] (by simp [isspace]) p.idMax hk
  simp only [List.nil_append] at h1
  simp only [IStream.ofText, List.singleton_append] at h2
  simp only [parseEdge, edgeLine, IStream.ofText] at h1 ⊢
  rw [h1]
  simp only [List.isEmpty_cons, Option.getD_some]
  rw [h2]
  simp [ha.2]

theorem numeral_line_ok {ds : List Char} {n : Nat} (h : IsNumeral ds n) (rest : List Char)
    (hr : ∀ c ∈ rest, c ≠ '\n') :
    '\n' ∉ ds ++ rest ∧ ignoredLine (ds ++ rest) = false := by
  constructor
  · intro hmem
    rcases List.mem_append.mp hmem with hm | hm
    · exact (h.2.1 _ hm).2.2.2.2.2 rfl
    · exact hr _ hm rfl
  · cases ds with
    | nil => exact absurd rfl h.1
    | cons d ds =>
      have hd := h.2.1 d (by simp)
      simp [ignoredLine, List.dropWhile, hd.2.1, hd.2.2.1]

theorem isspace_newline : isspace '\n' = true := by decide

theorem put_no_newline {α : Type} {c : AttrCodec α} {a : α} (h : c.ReadsBack a) :
    ∀ ch ∈ c.put a, ch ≠ '\n' := by
  intro ch hch e
  have := h.1 ch hch
  rw [e, isspace_newline] at this
  cases this

theorem nodeLine_ok {α β : Type} (cn : AttrCodec α) (g : ARGraph α β) (i : Nat)
    (ha : cn.ReadsBack (g.GetNodeAttr i)) :
    '\n' ∉ nodeLine cn g i ∧ ignoredLine (nodeLine cn g i) = false := by
  apply numeral_line_ok (showNat_numeral i)
  intro c hc
  simp only [List.mem_cons] at hc
  rcases hc with rfl | hc
  · decide
  · exact put_no_newline ha c hc

theorem edgeLine_ok {α β : Type} (ce : AttrCodec β) (g : ARGraph α β) (i j : Nat)
    (ha : ce.ReadsBack (g.GetOutEdge i j).2) :
    '\n' ∉ edgeLine ce g i j ∧ ignoredLine (edgeLine ce g i j) = false := by
  apply numeral_line_ok (showNat_numeral i)
  intro c hc
  simp only [List.mem_cons, List.mem_append] at hc
  rcases hc with rfl | hc | rfl | hc
  · decide
  · exact ((showNat_numeral _).2.1 c hc).2.2.2.2.2
  · decide
  · exact put_no_newline ha c hc

theorem countLine_ok (n : Nat) : '\n' ∉ showNat n ∧ ignoredLine (showNat n) = false := by
  have := numeral_line_ok (showNat_numeral n) [] (by simp)
  simpa using this

theorem writeLines_ok {α β : Type} (cn : AttrCodec α) (ce : AttrCodec β) (g : ARGraph α β)
    (hrb : g.ReadsBack cn ce) :
    ∀ l ∈ writeLines cn ce g, '\n' ∉ l ∧ ignoredLine l = false := by
  intro l hl
  simp only [writeLines, List.mem_cons, List.mem_append, List.mem_map, List.mem_range,
    List.mem_flatMap, sectionLines] at hl
  rcases hl with rfl | ⟨i, hi, rfl⟩ | ⟨i, hi, rfl | ⟨j, hj, rfl⟩⟩
  · exact countLine_ok _
  · exact nodeLine_ok cn g i (hrb i hi).1
  · exact countLine_ok _
  · exact edgeLine_ok ce g i j ((hrb i hi).2 j hj)

theorem textLines_line (l t : List Char) (h : '\n' ∉ l) :
    textLines (l ++ '\n' :: t) = l :: textLines t := by
  induction l with
  | nil => simp [textLines]
  | cons c cs ih =>
    have hc : c ≠ '\n' := fun e => h (by simp [e])
    have h2 := ih (fun hm => h (by simp [hm]))
    simp only [List.cons_append, textLines, hc, if_false, List.append_eq, h2]

theorem textLines_endLines (ls : List (List Char)) (h : ∀ l ∈ ls, '\n' ∉ l) :
    textLines (endLines ls) = ls ++ [[]] := by
  induction ls with
  | nil => simp [endLines, textLines]
  | cons l ls ih =>
    have ih2 := ih (fun x hx => h x (by simp [hx]))
    have hl := h l (by simp)
    simp only [endLines, List.flatMap_cons, List.append_assoc, List.singleton_append] at ih2 ⊢
    rw [textLines_line l _ hl, ih2]
    rfl

theorem sigLines_write {α β : Type} (cn : AttrCodec α) (ce : AttrCodec β) (g : ARGraph α β)
    (hrb : g.ReadsBack cn ce) :
    sigLines (StreamARGLoader.write cn ce g) = writeLines cn ce g := by
  have h := writeLines_ok cn ce g hrb
  rw [StreamARGLoader.write, sigLines, textLines_endLines _ (fun l hl => (h l hl).1)]
  rw [List.filter_append]
  have : (writeLines cn ce g).filter (fun l => !ignoredLine l) = writeLines cn ce g := by
    apply List.filter_eq_self.mpr
    intro l hl
    simp [(h l hl).2]
  rw [this]
  simp [ignoredLine]

theorem shortLines_write {α β : Type} (cn : AttrCodec α) (ce : AttrCodec β) (g : ARGraph α β)
    (hrb : g.ReadsBack cn ce) (hlen : ∀ l ∈ writeLines cn ce g, l.length < MAX_LINE) :
    ShortLines (StreamARGLoader.write cn ce g) := by
  have h := writeLines_ok cn ce g hrb
  intro l hl
  rw [StreamARGLoader.write, textLines_endLines _ (fun l hl => (h l hl).1)] at hl
  simp only [List.mem_append, List.mem_singleton] at hl
  rcases hl with hl | rfl
  · exact hlen l hl
  · simp [MAX_LINE]

theorem writtenFile_lines {α β : Type} (cn : AttrCodec α) (ce : AttrCodec β) (g : ARGraph α β) :
    (writtenFile cn ce g).lines = writeLines cn ce g := by
  simp only [writtenFile, TextFile.lines, writeLines, List.flatMap_map]
  rfl

theorem writtenFile_shaped {α β : Type} (p : Platform) (cn : AttrCodec α) (ce : AttrCodec β)
    (g : ARGraph α β) (hr : g.InRange p) (h0 : 0 < g.NodeCount) :
    (writtenFile cn ce g).Shaped p := by
  have hc := parseCount_showNat p g.NodeCount hr.1
  refine ⟨?_, ?_, ?_, ?_⟩
  · simp only [writtenFile, hc]; exact_mod_cast h0
  · simp [writtenFile, hc]
  · simp [writtenFile, hc]
  · intro s hs
    simp only [writtenFile, List.mem_map, List.mem_range] at hs
    obtain ⟨i, hi, rfl⟩ := hs
    simp [parseCount_showNat p _ (hr.2.2 i hi).1]

theorem writtenFile_ids {α β : Type} (p : Platform) (cn : AttrCodec α) (ce : AttrCodec β)
    (g : ARGraph α β) (hr : g.InRange p) (hrb : g.ReadsBack cn ce) :
    (writtenFile cn ce g).IdsInOrder p cn := by
  simp only [TextFile.IdsInOrder, writtenFile, lineIds, List.map_map, List.length_map,
    List.length_range]
  conv_rhs => rw [← List.map_id (List.range g.NodeCount)]
  apply List.map_congr_left
  intro i hi
  have hi2 := List.mem_range.mp hi
  have : i ≤ p.idMax := by have := hr.2.1; omega
  simp [parseNode_nodeLine p cn g i this (hrb i hi2).1]

theorem writtenFile_insertions {α β : Type} (p : Platform) (cn : AttrCodec α)
    (ce : AttrCodec β) (g : ARGraph α β) (hr : g.InRange p) (hrb : g.ReadsBack cn ce) :
    (writtenFile cn ce g).insertions p cn ce = g.insertions := by
  simp only [TextFile.insertions, writtenFile, ARGraph.insertions, List.map_map,
    List.flatMap_map]
  congr 1
  · apply List.map_congr_left
    intro i hi
    have hi2 := List.mem_range.mp hi
    have : i ≤ p.idMax := by have := hr.2.1; omega
    simp [nodeIns, parseNode_nodeLine p cn g i this (hrb i hi2).1]
  · apply List.flatMap_congr
    intro i hi
    have hi2 := List.mem_range.mp hi
    have hid : i ≤ p.idMax := by have := hr.2.1; omega
    apply List.map_congr_left
    intro j hj
    have hj2 := List.mem_range.mp hj
    have hdst : (g.GetOutEdge i j).1 ≤ p.idMax := by
      have := (hr.2.2 i hi2).2 j hj2
      have := hr.2.1
      omega
    simp [edgeIns, parseEdge_edgeLine p ce g i j hid hdst ((hrb i hi2).2 j hj2)]

theorem load_write {α β : Type} (p : Platform) (cn : AttrCodec α) (ce : AttrCodec β)
    (g : ARGraph α β) (hr : g.InRange p) (hrb : g.ReadsBack cn ce)
    (hlen : ∀ l ∈ writeLines cn ce g, l.length < MAX_LINE) :
    outcome (StreamARGLoader p cn ce (IStream.ofText (StreamARGLoader.write cn ce g))) =
      .ok ⟨g.insertions⟩ := by
  rw [StreamARGLoader_eq_sigLoad p cn ce _ (shortLines_write cn ce g hrb hlen),
    sigLines_write cn ce g hrb]
  by_cases h0 : g.NodeCount = 0
  · have hc := parseCount_showNat p 0 (by simp [INT_MAX])
    simp [writeLines, h0, sigLoad, sigCount, hc, outcome, ARGraph.insertions, ARGEdit.empty]
  · have h1 := sigLoad_ok p cn ce (writtenFile cn ce g) [] (writtenFile_shaped p cn ce g hr (by omega))
      (writtenFile_ids p cn ce g hr hrb)
    rw [List.append_nil, writtenFile_lines, writtenFile_insertions p cn ce g hr hrb] at h1
    rw [h1]
    rfl

theorem filterMap_some_fun {γ δ : Type} (f : γ → δ) (l : List γ) :
    List.filterMap (fun x => some (f x)) l = List.map f l := by
  induction l with
  | nil => rfl
  | cons x l ih => simp [List.filterMap_cons, ih]

theorem edges_insertions {α β : Type} (g : ARGraph α β) :
    (⟨g.insertions⟩ : ARGEdit α β).edges = (List.range g.NodeCount).flatMap (fun i =>
      (List.range (g.OutEdgeCount i)).map (fun j => (i, g.GetOutEdge i j))) := by
  simp only [ARGEdit.edges, ARGraph.insertions, List.filterMap_append, List.filterMap_map]
  have h1 : List.filterMap (Ins.asEdge ∘
      (fun i => (Ins.node (g.GetNodeAttr i) : Ins α β))) (List.range g.NodeCount) = [] := by
    simp [Function.comp_def, Ins.asEdge]
  rw [h1, List.nil_append]
  generalize List.range g.NodeCount = l
  induction l with
  | nil => simp
  | cons x l ih =>
    simp only [List.flatMap_cons, List.filterMap_append, ih, List.filterMap_map]
    congr 1
    simp [Function.comp_def, Ins.asEdge, filterMap_some_fun]

theorem nodes_insertions {α β : Type} (g : ARGraph α β) :
    (⟨g.insertions⟩ : ARGEdit α β).nodes = (List.range g.NodeCount).map g.GetNodeAttr := by
  simp only [ARGEdit.nodes, ARGraph.insertions, List.filterMap_append, List.filterMap_map]
  have h2 : ∀ l : List Nat, List.filterMap Ins.asNode
      (l.flatMap (fun i => (List.range (g.OutEdgeCount i)).map (fun j =>
        (Ins.edge i (g.GetOutEdge i j).1 (g.GetOutEdge i j).2 : Ins α β)))) = [] := by
    intro l
    induction l with
    | nil => simp
    | cons x l ih =>
      simp [List.flatMap_cons, List.filterMap_append, ih, List.filterMap_map, Function.comp_def,
        Ins.asNode]
  rw [h2]
  simp [Function.comp_def, Ins.asNode, filterMap_some_fun]

theorem outEdges_insertions {α β : Type} (g : ARGraph α β) (i : Nat) (hi : i < g.NodeCount) :
    (⟨g.insertions⟩ : ARGEdit α β).outEdges i = g.outEdges i := by
  simp only [ARGEdit.outEdges, edges_insertions, ARGraph.outEdges]
  have key : ∀ l : List Nat, l.Nodup → i ∈ l →
      List.map (fun e => e.2) (List.filter (fun e => decide (e.1 = i))
        (l.flatMap (fun i => (List.range (g.OutEdgeCount i)).map (fun j => (i, g.GetOutEdge i j)))))
      = (List.range (g.OutEdgeCount i)).map (g.GetOutEdge i) := by
    have hnone : ∀ l : List Nat, i ∉ l →
        List.filter (fun e => decide (e.1 = i))
          (l.flatMap (fun i => (List.range (g.OutEdgeCount i)).map
            (fun j => (i, g.GetOutEdge i j)))) = [] := by
      intro l hl
      induction l with
      | nil => simp
      | cons x l ih =>
        have hx : x ≠ i := fun e => hl (by simp [e])
        simp only [List.flatMap_cons, List.filter_append, ih (fun h => hl (by simp [h])),
          List.append_nil, List.filter_map]
        simp [Function.comp_def, hx]
    intro l hnd hmem
    induction l with
    | nil => simp at hmem
    | cons x l ih =>
      simp only [List.flatMap_cons, List.filter_append, List.map_append]
      by_cases hx : x = i
      · subst hx
        rw [hnone l (List.nodup_cons.mp hnd).1]
        simp [List.filter_map, Function.comp_def]
      · have hmem2 : i ∈ l := by
          rcases List.mem_cons.mp hmem with h | h
          · exact absurd h.symm hx
          · exact h
        rw [ih (List.nodup_cons.mp hnd).2 hmem2]
        simp [List.filter_map, Function.comp_def, hx]
  exact key _ (List.nodup_range _) (List.mem_range.mpr hi)

/-! ### The binary loader -/

theorem read_word_encodeWord (w : Nat) (hw : w < 65536) (rest : List Byte) :
    read_word (encodeWord w ++ rest) = (w, rest) := by
  have h1 : ((((w % 256 : Nat) : Int)) % 256).toNat = w % 256 := by omega
  have h2 : (((((w / 256) % 256 : Nat) : Int)) % 65536).toNat = (w / 256) % 256 := by omega
  have h3 : (w % 256) ||| ((w / 256) % 256 * 256) = w := by
    have := Nat.mul_add_lt_is_or (i := 8) (b := w % 256) (by omega) ((w / 256) % 256)
    have e : (2 : Nat) ^ 8 = 256 := by norm_num
    rw [e] at this
    rw [Nat.lor_comm, Nat.mul_comm, ← this]
    omega
  simp only [read_word, encodeWord, istreamGet, List.cons_append, List.nil_append, h1, h2, h3]
  simp [Nat.mod_eq_of_lt hw]

theorem insertZeros_log {β : Type} (k : Nat) : ∀ (g : ARGEdit Int β),
    insertZeros k g = ⟨g.log ++ List.replicate k (Ins.node 0)⟩ := by
  induction k with
  | zero => intro g; simp [insertZeros]
  | succ k ih =>
    intro g
    simp only [insertZeros, ih, ARGEdit.InsertNode, List.replicate_succ, List.append_assoc,
      List.singleton_append]

theorem binEdges_encode (p : Platform) (hp : 65535 ≤ p.idMax) (i : Nat) (hi : i < 65536)
    (ts : List Nat) (rest : List Byte) :
    ∀ (g : ARGEdit Int Unit), (∀ t ∈ ts, t < 65536) →
    binEdges p i ts.length (ts.flatMap encodeWord ++ rest) g =
      (rest, ⟨g.log ++ ts.map (fun t => Ins.edge i t ())⟩) := by
  induction ts with
  | nil => intro g _; simp [binEdges]
  | cons t ts ih =>
    intro g h
    have ht := h t (by simp)
    have h1 : i % (p.idMax + 1) = i := Nat.mod_eq_of_lt (by omega)
    have h2 : t % (p.idMax + 1) = t := Nat.mod_eq_of_lt (by omega)
    simp only [List.length_cons, binEdges, List.flatMap_cons, List.append_assoc,
      read_word_encodeWord t ht, h1, h2]
    rw [ih _ (fun x hx => h x (by simp [hx]))]
    simp [ARGEdit.InsertEdge]

theorem binSections_encode (p : Platform) (hp : 65535 ≤ p.idMax) (secs : List (List Nat))
    (rest : List Byte) :
    ∀ (i : Nat) (g : ARGEdit Int Unit), i + secs.length ≤ 65536 →
    (∀ ts ∈ secs, ts.length < 65536 ∧ ∀ t ∈ ts, t < 65536) →
    binSections p secs.length i
        (secs.flatMap (fun ts => encodeWord ts.length ++ ts.flatMap encodeWord) ++ rest) g =
      (rest, ⟨g.log ++ sectionEdges i secs⟩) := by
  induction secs with
  | nil => intro i g _ _; simp [binSections, sectionEdges]
  | cons ts secs ih =>
    intro i g hi h
    have hts := h ts (by simp)
    simp only [List.length_cons] at hi
    simp only [List.length_cons, binSections, List.flatMap_cons, List.append_assoc,
      read_word_encodeWord _ hts.1]
    rw [binEdges_encode p hp i (by omega) ts _ g hts.2]
    simp only
    rw [ih (i + 1) _ (by omega) (fun x hx => h x (by simp [hx]))]
    simp [sectionEdges]

/-! ### The GFU loader -/

theorem isdigit_of_isspace {c : Char} (h : isspace c = true) : isdigit c = false := by
  simp only [isspace, Bool.or_eq_true, beq_iff_eq] at h
  rcases h with ((((h | h) | h) | h) | h) | h <;> subst h <;> decide

theorem SpaceFirst.endsNumeral {l : List Char} (h : SpaceFirst l) : EndsNumeral l := by
  obtain ⟨sp, r, rfl, hs⟩ := h
  intro c r2 e
  simp only [List.cons.injEq] at e
  rw [← e.1]
  exact isdigit_of_isspace hs

theorem IsSep.spaceFirst {ws : List Char} (h : IsSep ws) (rest : List Char) :
    SpaceFirst (ws ++ rest) := by
  obtain ⟨h1, h2⟩ := h
  cases ws with
  | nil => exact absurd rfl h1
  | cons c r => exact ⟨c, r ++ rest, rfl, h2 c (by simp)⟩

theorem attrsText_spaceFirst {α : Type} (cn : AttrCodec α) (as : List (List Char × α))
    (S : List Char) (h : ∀ x ∈ as, IsSep x.1) (hS : SpaceFirst S) :
    SpaceFirst (attrsText cn as ++ S) := by
  cases as with
  | nil => simpa [attrsText] using hS
  | cons x as =>
    have := (h x (by simp)).spaceFirst (cn.put x.2 ++ (attrsText cn as ++ S))
    simpa [attrsText] using this

theorem gfuNodes_text {α : Type} (cn : AttrCodec α) (as : List (List Char × α))
    (S : List Char) (hS : SpaceFirst S) :
    ∀ (g : ARGEdit α Unit), (∀ x ∈ as, IsSep x.1 ∧ cn.ReadsToken x.2) →
    gfuNodes cn as.length ⟨attrsText cn as ++ S, false, false⟩ g =
      (⟨S, false, false⟩, ⟨g.log ++ as.map (fun x => Ins.node x.2)⟩) := by
  induction as with
  | nil => intro g _; simp [gfuNodes, attrsText]
  | cons x as ih =>
    intro g h
    have hx := h x (by simp)
    have htl : ∀ y ∈ as, IsSep y.1 ∧ cn.ReadsToken y.2 := fun y hy => h y (by simp [hy])
    obtain ⟨sp, r, hr, hsp⟩ := attrsText_spaceFirst cn as S (fun y hy => (htl y hy).1) hS
    have hget := hx.2 x.1 r sp hx.1.2 hsp
    have htext : attrsText cn (x :: as) ++ S = x.1 ++ (cn.put x.2 ++ sp :: r) := by
      rw [← hr]; simp [attrsText]
    simp only [List.length_cons, gfuNodes, htext, hget, Option.getD_some]
    rw [hr.symm, ih _ htl]
    simp [ARGEdit.InsertNode]

theorem pairsText_endsNumeral (ps : List ((List Char × Nat) × (List Char × Nat)))
    (tl : List Char) (h : ∀ x ∈ ps, IsSep x.1.1) (ht : EndsNumeral tl) :
    EndsNumeral (pairsText ps ++ tl) := by
  cases ps with
  | nil => simpa [pairsText] using ht
  | cons x ps =>
    have := ((h x (by simp)).spaceFirst
      (showNat x.1.2 ++ (x.2.1 ++ showNat x.2.2) ++ (pairsText ps ++ tl))).endsNumeral
    simpa [pairsText] using this

theorem gfuEdges_text {α : Type} (p : Platform)
    (ps : List ((List Char × Nat) × (List Char × Nat))) (tl : List Char)
    (ht : EndsNumeral tl) :
    ∀ (g : ARGEdit α Unit),
    (∀ x ∈ ps, (IsSep x.1.1 ∧ x.1.2 ≤ p.idMax) ∧ (IsSep x.2.1 ∧ x.2.2 ≤ p.idMax)) →
    gfuEdges p ps.length ⟨pairsText ps ++ tl, (pairsText ps ++ tl).isEmpty, false⟩ g =
      (⟨tl, tl.isEmpty, false⟩,
        ⟨g.log ++ ps.flatMap (fun x => [Ins.edge x.1.2 x.2.2 (), Ins.edge x.2.2 x.1.2 ()])⟩) := by
  induction ps with
  | nil => intro g _; simp [gfuEdges, pairsText]
  | cons x ps ih =>
    intro g h
    have hx := h x (by simp)
    have htl : ∀ y ∈ ps, (IsSep y.1.1 ∧ y.1.2 ≤ p.idMax) ∧ (IsSep y.2.1 ∧ y.2.2 ≤ p.idMax) :=
      fun y hy => h y (by simp [hy])
    have hR := pairsText_endsNumeral ps tl (fun y hy => (htl y hy).1.1) ht
    have htext : pairsText (x :: ps) ++ tl =
        x.1.1 ++ (showNat x.1.2 ++ (x.2.1 ++ (showNat x.2.2 ++ (pairsText ps ++ tl)))) := by
      simp [pairsText]
    have hne : (pairsText (x :: ps) ++ tl).isEmpty = false := by
      rw [htext]
      obtain ⟨sp, r, e, _⟩ := hx.1.1.spaceFirst
        (showNat x.1.2 ++ (x.2.1 ++ (showNat x.2.2 ++ (pairsText ps ++ tl))))
      rw [e]; rfl
    have h1 := extractUnsigned_numeral (showNat_numeral x.1.2)
      (hx.2.1.spaceFirst (showNat x.2.2 ++ (pairsText ps ++ tl))).endsNumeral
      x.1.1 hx.1.1.2 p.idMax hx.1.2
    have hne2 : (x.2.1 ++ (showNat x.2.2 ++ (pairsText ps ++ tl))).isEmpty = false := by
      obtain ⟨sp, r, e, _⟩ := hx.2.1.spaceFirst (showNat x.2.2 ++ (pairsText ps ++ tl))
      rw [e]; rfl
    have h2 := extractUnsigned_numeral (showNat_numeral x.2.2) hR x.2.1 hx.2.1.2 p.idMax hx.2.2
    simp only [IStream.ofText] at h1 h2
    simp only [List.length_cons, gfuEdges, hne, htext.symm]
    rw [htext, h1, hne2]
    simp only
    rw [h2]
    simp only [Option.getD_some]
    rw [ih _ htl]
    simp [ARGEdit.InsertEdge]

theorem extractWord_token (lead name rest : List Char) (hl : ∀ c ∈ lead, isspace c = true)
    (hn : name ≠ [] ∧ ∀ c ∈ name, isspace c = false) (hr : SpaceFirst rest) :
    extractWord (IStream.ofText (lead ++ (name ++ rest))) = (some name, IStream.ofText rest) := by
  obtain ⟨sp, r, rfl, hsp⟩ := hr
  cases name with
  | nil => exact absurd rfl hn.1
  | cons c cs =>
    have hc := hn.2 c (by simp)
    have hall : ∀ a ∈ c :: cs, (fun ch => !isspace ch) a = true := by
      intro a ha; simp [hn.2 a ha]
    have e1 : (lead ++ (c :: cs ++ sp :: r)).dropWhile isspace = c :: cs ++ sp :: r := by
      rw [List.dropWhile_append_of_pos hl]
      simp [List.dropWhile, hc]
    simp only [extractWord, IStream.sentry, IStream.ofText, IStream.good, Bool.not_false,
      Bool.and_self, if_true, e1]
    simp only [List.cons_append, List.isEmpty_cons, Bool.false_eq_true, if_false]
    rw [← List.cons_append, List.takeWhile_append_of_pos hall,
      List.dropWhile_append_of_pos hall]
    simp [List.takeWhile, List.dropWhile, hsp]

theorem GFUGraphLoader_text {α : Type} (p : Platform) (cn : AttrCodec α) (f : GFUFile α)
    (h : f.WellFormed p cn) :
    GFUGraphLoader p cn (IStream.ofText (f.text cn)) =
      (⟨f.trailer, f.trailer.isEmpty, false⟩, ⟨f.insertions⟩) := by
  obtain ⟨hlead, hname, hsepN, hn, hattrs, hsepM, hm, hpairs, htl⟩ := h
  have hS2 : SpaceFirst (f.sepM ++ (showNat f.pairs.length ++ (pairsText f.pairs ++ f.trailer))) :=
    hsepM.spaceFirst _
  have hS1 := attrsText_spaceFirst cn f.attrs _ (fun x hx => (hattrs x hx).1) hS2
  have h0 := extractWord_token f.lead f.name _ hlead hname (hsepN.spaceFirst
    (showNat f.attrs.length ++ (attrsText cn f.attrs ++
      (f.sepM ++ (showNat f.pairs.length ++ (pairsText f.pairs ++ f.trailer))))))
  have h1 := extractInt_numeral (showNat_numeral f.attrs.length) hS1.endsNumeral f.sepN
    hsepN.2 hn
  have hne1 : (attrsText cn f.attrs ++
      (f.sepM ++ (showNat f.pairs.length ++ (pairsText f.pairs ++ f.trailer)))).isEmpty = false := by
    obtain ⟨sp, r, e, _⟩ := hS1
    rw [e]; rfl
  have h2 := gfuNodes_text cn f.attrs _ hS2 (ARGEdit.empty : ARGEdit α Unit) hattrs
  have hR := pairsText_endsNumeral f.pairs f.trailer (fun y hy => (hpairs y hy).1.1) htl
  have h3 := extractUnsigned_numeral (showNat_numeral f.pairs.length) hR f.sepM hsepM.2
    p.sizeMax hm
  have h4 := gfuEdges_text (α := α) p f.pairs f.trailer htl
    ⟨(ARGEdit.empty : ARGEdit α Unit).log ++ f.attrs.map (fun x => Ins.node x.2)⟩ hpairs
  simp only [IStream.ofText] at h0 h1 h3
  simp only [GFUGraphLoader, GFUFile.text, IStream.ofText, h0, h1, hne1, Option.getD_some,
    Int.toNat_ofNat, h2, h3, h4]
  simp [GFUFile.insertions, ARGEdit.empty]

theorem intCodec_readsToken (junk : Int) (n : Nat) (hn : n ≤ INT_MAX) :
    (intCodec junk).ReadsToken (n : Int) := by
  intro ws rest sp hws hsp
  have h := extractInt_numeral (showNat_numeral n)
    (SpaceFirst.endsNumeral ⟨sp, rest, rfl, hsp⟩) ws hws hn
  have e : showInt (n : Int) = showNat n := by
    simp [showInt]
  simp only [intCodec, e]
  simpa [IStream.ofText] using h

/-! ### The matching engine -/

theorem getD_set_option (l : List (Option Nat)) (p q t : Nat) (h : p < l.length) :
    (l.set p (some t)).getD q none = if q = p then some t else l.getD q none := by
  rw [List.getD_eq_getElem?_getD, List.getD_eq_getElem?_getD, List.getElem?_set]
  by_cases hq : q = p
  · subst hq; simp [h]
  · have : ¬ p = q := fun e => hq e.symm
    simp [hq, this]

theorem getD_some_lt {l : List (Option Nat)} {q t : Nat} (h : l.getD q none = some t) :
    q < l.length := by
  by_contra hn
  rw [List.getD_eq_getElem?_getD, List.getElem?_eq_none (by omega)] at h
  simp at h

theorem image_lt {st : MatchState} {q t : Nat} (h : st.image q = some t) :
    q < st.fwd.length := getD_some_lt h

theorem preimage_lt {st : MatchState} {q t : Nat} (h : st.preimage t = some q) :
    t < st.rev.length := getD_some_lt h

theorem image_extend (st : MatchState) (p t q : Nat) (h : p < st.fwd.length) :
    (st.extend p t).image q = if q = p then some t else st.image q :=
  getD_set_option st.fwd p q t h

theorem preimage_extend (st : MatchState) (p t u : Nat) (h : t < st.rev.length) :
    (st.extend p t).preimage u = if u = t then some p else st.preimage u :=
  getD_set_option st.rev t u p h

theorem order_getD {α β γ δ : Type} (pb : Problem α β γ δ) (ho : pb.OrderOk) (k : Nat)
    (hk : k < pb.pattern.NodeCount) :
    pb.order.getD k 0 < pb.pattern.NodeCount ∧ pb.order.getD k 0 ∉ pb.order.take k ∧
    pb.order.take (k + 1) = pb.order.take k ++ [pb.order.getD k 0] := by
  have hlen : k < pb.order.length := by rw [ho.1]; exact hk
  have hg : pb.order.getD k 0 = pb.order[k] := List.getD_eq_getElem _ _ hlen
  rw [hg]
  refine ⟨ho.2.2 _ (List.getElem_mem _), ?_, ?_⟩
  · intro hmem
    obtain ⟨i, hi, he⟩ := List.mem_take_iff_getElem.mp hmem
    have hi2 : i < k := by have := Nat.lt_min.mp hi; omega
    have hik : i < pb.order.length := by omega
    have := (List.Nodup.getElem_inj_iff ho.2.1).mp (he : pb.order[i] = pb.order[k])
    omega
  · rw [List.take_succ, List.getElem?_eq_getElem hlen]
    rfl

theorem stateInv_extend {α β γ δ : Type} (pb : Problem α β γ δ) (ho : pb.OrderOk) (k : Nat)
    (hk : k < pb.pattern.NodeCount) (st : MatchState) (hinv : StateInv pb k st) (t : Nat)
    (ht : t < pb.target.NodeCount) (hfree : st.preimage t = none) :
    StateInv pb (k + 1) (st.extend (pb.order.getD k 0) t) := by
  obtain ⟨hp, hnot, htake⟩ := order_getD pb ho k hk
  obtain ⟨h1, h2, h3, h4⟩ := hinv
  have hpnone : st.image (pb.order.getD k 0) = none := by
    cases hx : st.image (pb.order.getD k 0) with
    | none => rfl
    | some u => exact absurd ((h4 _).mp (by rw [hx]; rfl)) hnot
  refine ⟨by simp [MatchState.extend, h1], by simp [MatchState.extend, h2], ?_, ?_⟩
  · intro q u
    rw [image_extend st _ t q (by omega), preimage_extend st _ t u (by omega)]
    by_cases hq : q = pb.order.getD k 0
    · by_cases hu : u = t
      · simp [hq, hu]
      · simp only [hq, if_true, hu, if_false]
        constructor
        · intro h; simp only [Option.some.injEq] at h; exact absurd h.symm hu
        · intro h
          have := (h3 _ u).mpr h
          rw [hpnone] at this
          cases this
    · by_cases hu : u = t
      · simp only [hq, if_false, hu, if_true]
        constructor
        · intro h
          have := (h3 q t).mp h
          rw [hfree] at this
          cases this
        · intro h; simp only [Option.some.injEq] at h; exact absurd h.symm hq
      · simp only [hq, if_false, hu]
        exact h3 q u
  · intro q
    rw [image_extend st _ t q (by omega), htake]
    by_cases hq : q = pb.order.getD k 0
    · simp [hq]
    · simp only [hq, if_false, List.mem_append, List.mem_singleton, or_false]
      exact h4 q

theorem edgeInv_extend {α β γ δ : Type} (pb : Problem α β γ δ) (ho : pb.OrderOk) (k : Nat)
    (hk : k < pb.pattern.NodeCount) (st : MatchState) (hinv : StateInv pb k st)
    (hedge : EdgeInv pb st) (t : Nat)
    (hfeas : edgeConsistent pb.pattern pb.target st (pb.order.getD k 0) t = true) :
    EdgeInv pb (st.extend (pb.order.getD k 0) t) := by
  obtain ⟨hp, hnot, htake⟩ := order_getD pb ho k hk
  obtain ⟨h1, h2, h3, h4⟩ := hinv
  have hcons : ∀ q t2, (st.extend (pb.order.getD k 0) t).image q = some t2 →
      (pb.pattern.HasEdge (pb.order.getD k 0) q = true → pb.target.HasEdge t t2 = true) ∧
      (pb.pattern.HasEdge q (pb.order.getD k 0) = true → pb.target.HasEdge t2 t = true) := by
    intro q t2 hq
    have hlt : q < pb.pattern.NodeCount := by
      have := image_lt hq
      simp only [MatchState.extend, List.length_set] at this
      omega
    have := (List.all_eq_true.mp hfeas) q (List.mem_range.mpr hlt)
    simp only [hq, Bool.and_eq_true, Bool.or_eq_true, Bool.not_eq_true'] at this
    constructor
    · intro he
      rcases this.1 with h | h
      · rw [he] at h; cases h
      · exact h
    · intro he
      rcases this.2 with h | h
      · rw [he] at h; cases h
      · exact h
  intro p1 p2 t1 t2 hi1 hi2 he
  have hj1 := hi1
  have hj2 := hi2
  rw [image_extend st _ t p1 (by omega)] at hj1
  rw [image_extend st _ t p2 (by omega)] at hj2
  by_cases hp1 : p1 = pb.order.getD k 0
  · simp only [hp1, if_true, Option.some.injEq] at hj1
    subst hj1
    rw [hp1] at he
    exact (hcons p2 t2 hi2).1 he
  · simp only [hp1, if_false] at hj1
    by_cases hp2 : p2 = pb.order.getD k 0
    · simp only [hp2, if_true, Option.some.injEq] at hj2
      subst hj2
      rw [hp2] at he
      exact (hcons p1 t1 hi1).2 he
    · simp only [hp2, if_false] at hj2
      exact hedge p1 p2 t1 t2 hj1 hj2 he

theorem foldl_invariant {τ ι : Type} (Q : τ → Prop) (f : τ → ι → τ) (l : List ι)
    (hstep : ∀ a x, x ∈ l → Q a → Q (f a x)) : ∀ a, Q a → Q (l.foldl f a) := by
  induction l with
  | nil => intro a ha; exact ha
  | cons x l ih =>
    intro a ha
    rw [List.foldl_cons]
    exact ih (fun b y hy hb => hstep b y (by simp [hy]) hb) _ (hstep a x (by simp) ha)

theorem search_emitted {α β γ δ σ : Type} (pb : Problem α β γ δ)
    (vis : MatchState → σ → Bool × σ) (ho : pb.OrderOk) (rem : Nat) :
    ∀ (k : Nat) (st : MatchState) (tr : Trace σ), k + rem = pb.pattern.NodeCount →
    StateInv pb k st → EdgeInv pb st → (∀ s ∈ tr.emitted, GoodSolution pb s) →
    ∀ s ∈ (search pb vis rem k st tr).emitted, GoodSolution pb s := by
  induction rem with
  | zero =>
    intro k st tr hk hinv hedge htr s hs
    simp only [search, List.mem_append, List.mem_singleton] at hs
    rcases hs with hs | rfl
    · exact htr s hs
    · have : k = pb.pattern.NodeCount := by omega
      subst this
      exact ⟨hinv, hedge⟩
  | succ rem ih =>
    intro k st tr hk hinv hedge htr
    simp only [search]
    apply foldl_invariant (fun a : Trace σ => ∀ s ∈ a.emitted, GoodSolution pb s)
    · intro a t ht ha
      by_cases hstop : a.stopped = true
      · simp only [hstop, if_true]; exact ha
      · simp only [hstop, Bool.false_eq_true, if_false]
        by_cases hc : (isCandidate pb st (pb.order.getD k 0) t &&
            isFeasible pb st (pb.order.getD k 0) t) = true
        · simp only [hc, if_true]
          simp only [Bool.and_eq_true, isCandidate, isFeasible, Option.isNone_iff_eq_none] at hc
          exact ih (k + 1) _ a (by omega)
            (stateInv_extend pb ho k (by omega) st hinv t (List.mem_range.mp ht) hc.1.1)
            (edgeInv_extend pb ho k (by omega) st hinv hedge t hc.2.1.1) ha
        · simp only [hc, Bool.false_eq_true, if_false]; exact ha
    · exact htr

theorem match_emitted {α β γ δ σ : Type} (pb : Problem α β γ δ)
    (vis : MatchState → σ → Bool × σ) (usr : σ) (tr : Trace σ)
    (h : match_ pb vis usr = .ok tr) :
    pb.OrderOk ∧ ∀ s ∈ tr.emitted, GoodSolution pb s := by
  unfold match_ at h
  split at h
  · cases h
  · rename_i hord
    split at h
    · cases h
    · simp only [Except.ok.injEq] at h
      have ho : pb.OrderOk := by
        simp only [not_or, not_not] at hord
        exact ⟨hord.1, hord.2.1, hord.2.2⟩
      refine ⟨ho, ?_⟩
      rw [← h]
      apply search_emitted pb vis ho _ 0 _ _ (by omega)
      · refine ⟨by simp [MatchState.root], by simp [MatchState.root], ?_, ?_⟩
        · intro p t
          simp [MatchState.image, MatchState.preimage, MatchState.root,
            List.getD_eq_getElem?_getD, List.getElem?_replicate]
          constructor
          · intro h; split at h <;> simp at h
          · intro h; split at h <;> simp at h
        · intro p
          simp [MatchState.image, MatchState.root, List.getD_eq_getElem?_getD,
            List.getElem?_replicate]
          split <;> simp
      · intro p1 p2 t1 t2 h1
        simp [MatchState.image, MatchState.root, List.getD_eq_getElem?_getD,
          List.getElem?_replicate] at h1
        split at h1 <;> simp at h1
      · intro s hs; simp at hs

theorem order_complete {α β γ δ : Type} (pb : Problem α β γ δ) (ho : pb.OrderOk) (p : Nat)
    (hp : p < pb.pattern.NodeCount) : p ∈ pb.order := by
  have hsub : pb.order ⊆ List.range pb.pattern.NodeCount :=
    fun x hx => List.mem_range.mpr (ho.2.2 x hx)
  have hperm := (List.subperm_of_subset ho.2.1 hsub).perm_of_length_le
    (by rw [List.length_range, ho.1])
  exact hperm.symm.subset (List.mem_range.mpr hp)

/-! ## Claims about the text loader -/

theorem getlineLoop_length_le (room : Nat) (b : List Char) :
    (getlineLoop room b).2.1.length ≤ b.length := by
  induction b generalizing room with
  | nil => simp [getlineLoop]
  | cons c cs ihb =>
    by_cases hc : c = '\n'
    · cases room <;> simp [getlineLoop, hc]
    · cases room with
      | zero => simp [getlineLoop, hc]
      | succ r =>
        have := ihb r
        simp only [getlineLoop, hc, if_false, List.length_cons]
        omega

/-- The bound used by `readLine` is never exhausted. -/
theorem readLineLoop_ne_outOfFuel (fuel : Nat) :
    ∀ (s : IStream), (s.good = true → s.buf.length + 2 ≤ fuel) → 1 ≤ fuel →
    readLineLoop fuel s ≠ .error .outOfFuel := by
  induction fuel with
  | zero => intro s _ h; simp at h
  | succ f ih =>
    intro s h1 _
    rw [readLineLoop]
    by_cases hg : s.good = true
    · have hf := h1 hg
      simp only [hg, if_true]
      split
      · apply ih
        · intro hg2
          have hlt : (s.getline MAX_LINE).2.buf.length < s.buf.length := by
            simp only [IStream.getline, hg, if_true] at hg2 ⊢
            simp only [IStream.good, Bool.and_eq_true, Bool.not_eq_true', Bool.or_eq_false_iff,
              decide_eq_false_iff_not] at hg2
            have := getlineLoop_length_le (MAX_LINE - 1) s.buf
            have hne := hg2.2.2
            omega
          omega
        · omega
      · simp
    · simp [hg]

/-- The member `readLine` never runs out of iterations. -/
theorem readLine_ne_outOfFuel (s : IStream) : readLine s ≠ .error .outOfFuel :=
  readLineLoop_ne_outOfFuel _ s (fun _ => Nat.le_refl _) (by omega)

theorem readLineLoop_significant (fuel : Nat) :
    ∀ (s s1 : IStream) (line : List Char), readLineLoop fuel s = .ok (line, s1) →
    ignoredLine line = false := by
  induction fuel with
  | zero => intro s s1 line h; simp [readLineLoop] at h
  | succ f ih =>
    intro s s1 line h
    rw [readLineLoop] at h
    by_cases hg : s.good = true
    · simp only [hg, if_true] at h
      by_cases hi : ignoredLine (s.getline MAX_LINE).1 = true
      · simp only [hi, if_true] at h
        exact ih _ _ _ h
      · simp only [hi] at h
        simp only [Bool.false_eq_true, if_false, Except.ok.injEq] at h
        rw [h] at hi
        simpa using hi
    · simp [hg] at h

set_option maxRecDepth 100000 in
/-- C7, counterexample: a header that is a negative number, and a header that is not a
number, both make the constructor return normally with an empty builder; no error is
reported. -/
theorem malformed_header_counterexample :
    outcome (StreamARGLoader examplePlatform (intCodec 0) emptyCodec
        (IStream.ofText "-3\n0 27\n1 42\n2 13\n0\n0\n0\n".toList)) = .ok ARGEdit.empty ∧
    outcome (StreamARGLoader examplePlatform (intCodec 0) emptyCodec
        (IStream.ofText "abc\n0 27\n".toList)) = .ok ARGEdit.empty := by
  decide

/-- C7, amended. When the first significant line of a text (lines shorter than `MAX_LINE`)
does not carry a positive node count, that is when `is >> i` leaves a value `i <= 0`, the
constructor returns normally with an empty builder: nothing is inserted and no error is
raised. -/
theorem malformed_header_gives_empty_graph {α β : Type} (p : Platform) (cn : AttrCodec α)
    (ce : AttrCodec β) (t : List Char) (hdr : List Char) (rest : List (List Char))
    (hshort : ShortLines t) (hlines : sigLines t = hdr :: rest)
    (hcnt : parseCount p hdr ≤ 0) :
    outcome (StreamARGLoader p cn ce (IStream.ofText t)) = .ok ARGEdit.empty := by
  rw [StreamARGLoader_eq_sigLoad p cn ce t hshort, hlines]
  simp [sigLoad, sigCount, hcnt, outcome]

set_option maxRecDepth 100000 in
/-- C7, witness of the amended claim: the header `-3` is read as -3, the header `abc` as 0,
and both texts load as the empty graph. -/
theorem malformed_header_gives_empty_graph_witness :
    parseCount examplePlatform "-3".toList = -3 ∧
    parseCount examplePlatform "abc".toList = 0 ∧
    outcome (StreamARGLoader examplePlatform (intCodec 0) emptyCodec
        (IStream.ofText "# header\n-3\n0 27\n".toList)) = .ok ARGEdit.empty ∧
    outcome (StreamARGLoader examplePlatform (intCodec 0) emptyCodec
        (IStream.ofText "abc\n".toList)) = .ok ARGEdit.empty :=
  ⟨by decide, by decide,
    malformed_header_gives_empty_graph examplePlatform (intCodec 0) emptyCodec
      "# header\n-3\n0 27\n".toList "-3".toList ["0 27".toList]
      (by unfold ShortLines; decide) (by decide) (by decide),
    malformed_header_gives_empty_graph examplePlatform (intCodec 0) emptyCodec
      "abc\n".toList "abc".toList []
      (by unfold ShortLines; decide) (by decide) (by decide)⟩

/-- C8. Blank and comment lines are ignored: two texts (lines shorter than `MAX_LINE`)
that have the same significant lines, that is, that differ only by lines that are empty,
whitespace-only or start with `#` after optional whitespace, wherever these lines stand,
make the constructor perform the same insertions and end the same way (completion, or the
same error at the same point). Moreover a line returned by `readLine` always has a first
character after its leading whitespace, and this character is not `#`. -/
theorem blank_and_comment_lines_ignored {α β : Type} (p : Platform) (cn : AttrCodec α)
    (ce : AttrCodec β) (t1 t2 : List Char) (h1 : ShortLines t1) (h2 : ShortLines t2)
    (h : sigLines t1 = sigLines t2) :
    outcome (StreamARGLoader p cn ce (IStream.ofText t1)) =
      outcome (StreamARGLoader p cn ce (IStream.ofText t2)) ∧
    ∀ (s s1 : IStream) (line : List Char), readLine s = .ok (line, s1) →
      ∃ c r, line.dropWhile isspace = c :: r ∧ c ≠ '#' := by
  constructor
  · rw [StreamARGLoader_eq_sigLoad p cn ce t1 h1, StreamARGLoader_eq_sigLoad p cn ce t2 h2, h]
  · intro s s1 line hr
    have hi := readLineLoop_significant _ s s1 line hr
    unfold ignoredLine at hi
    cases hd : line.dropWhile isspace with
    | nil => rw [hd] at hi; simp at hi
    | cons c r =>
      rw [hd] at hi
      exact ⟨c, r, rfl, by simpa using hi⟩

set_option maxRecDepth 100000 in
/-- C8, witness: the documented example with and without its comments and blank lines. -/
theorem blank_and_comment_lines_ignored_witness :
    outcome (StreamARGLoader examplePlatform (intCodec 0) (intCodec 0)
        (IStream.ofText docExampleText)) =
      outcome (StreamARGLoader examplePlatform (intCodec 0) (intCodec 0)
        (IStream.ofText docExampleBare)) :=
  (blank_and_comment_lines_ignored examplePlatform (intCodec 0) (intCodec 0)
    docExampleText docExampleBare
    (by unfold ShortLines; decide) (by unfold ShortLines; decide) (by decide)).1

/-- C1. Text round trip: for every graph whose values fit the types of its accessors, whose
node and edge attributes have a whitespace-free textual form that the stream operators
read back to the same value, and whose written lines are shorter than `MAX_LINE`, the
constructor run on the output of `write(out, g)` completes without error, and the loaded
builder has the same node count, the same attribute for every node id, and for every node
the same out-edges (destination, attribute), in the same order and hence with the same
count and the same multiset. -/
theorem text_round_trip {α β : Type} (p : Platform) (cn : AttrCodec α) (ce : AttrCodec β)
    (g : ARGraph α β) (hr : g.InRange p) (hrb : g.ReadsBack cn ce)
    (hlen : ∀ l ∈ writeLines cn ce g, l.length < MAX_LINE) :
    ∃ L : ARGEdit α β,
      outcome (StreamARGLoader p cn ce (IStream.ofText (StreamARGLoader.write cn ce g))) =
        .ok L ∧
      L.NodeCount = g.NodeCount ∧
      (∀ i, i < g.NodeCount → L.nodes[i]? = some (g.GetNodeAttr i)) ∧
      (∀ i, i < g.NodeCount → (L.outEdges i).length = g.OutEdgeCount i ∧
        L.outEdges i = g.outEdges i) := by
  refine ⟨⟨g.insertions⟩, load_write p cn ce g hr hrb hlen, ?_, ?_, ?_⟩
  · simp [ARGEdit.NodeCount, nodes_insertions]
  · intro i hi
    simp [nodes_insertions, List.getElem?_map, List.getElem?_range hi]
  · intro i hi
    rw [outEdges_insertions g i hi]
    simp [ARGraph.outEdges]

set_option maxRecDepth 100000 in
/-- C1, witness: the example graph, with `int` attributes, is read back from its own
text. -/
theorem text_round_trip_witness :
    ∃ L : ARGEdit Int Int,
      outcome (StreamARGLoader examplePlatform (intCodec 0) (intCodec 0)
        (IStream.ofText (StreamARGLoader.write (intCodec 0) (intCodec 0) exampleGraph))) =
        .ok L ∧
      L.NodeCount = exampleGraph.NodeCount ∧
      (∀ i, i < exampleGraph.NodeCount → L.nodes[i]? = some (exampleGraph.GetNodeAttr i)) ∧
      (∀ i, i < exampleGraph.NodeCount →
        (L.outEdges i).length = exampleGraph.OutEdgeCount i ∧
        L.outEdges i = exampleGraph.outEdges i) :=
  text_round_trip examplePlatform (intCodec 0) (intCodec 0) exampleGraph
    (by unfold ARGraph.InRange; decide)
    (by unfold ARGraph.ReadsBack AttrCodec.ReadsBack; decide)
    (by decide)

/-- C3. Binary format decoding: on the complete encoding of a graph (node count, then per
node the out-edge count and the targets, as little-endian 16-bit words), followed by any
bytes, the binary loader inserts one node with attribute 0 per node, then exactly the edges
`i -> target` in file order, and leaves the following bytes unread; in particular when the
node-count word is 0 it inserts nothing and reads no further. The type `node_id` is assumed
to hold every 16-bit word. -/
theorem binary_format_decoding (p : Platform) (hp : 65535 ≤ p.idMax) (secs : List (List Nat))
    (rest : List Byte) (hw : WordSized secs) :
    BinaryGraphLoader p (encodeGraph secs ++ rest) =
      (rest, ⟨List.replicate secs.length (Ins.node 0) ++ sectionEdges 0 secs⟩) ∧
    BinaryGraphLoader p (encodeWord 0 ++ rest) = (rest, ARGEdit.empty) := by
  constructor
  · simp only [BinaryGraphLoader, encodeGraph, List.append_assoc,
      read_word_encodeWord _ hw.1]
    by_cases h0 : secs.length = 0
    · have : secs = [] := List.length_eq_zero.mp h0
      subst this
      simp [sectionEdges, ARGEdit.empty]
    · have hpos : ¬ ((secs.length : Int) ≤ 0) := by omega
      simp only [hpos, if_false, Int.toNat_ofNat, insertZeros_log]
      rw [binSections_encode p hp secs rest 0 _ (by have := hw.1; omega) hw.2]
      simp [ARGEdit.empty]
  · simp [BinaryGraphLoader, read_word_encodeWord 0 (by decide)]

/-- C3, witness: the documented example decodes to 3 nodes and the edges 1->0, 1->2,
2->0. -/
theorem binary_format_decoding_witness :
    BinaryGraphLoader examplePlatform docExampleBytes =
      ([], ⟨[.node 0, .node 0, .node 0, .edge 1 0 (), .edge 1 2 (), .edge 2 0 ()]⟩) :=
  (binary_format_decoding examplePlatform (by decide) [[], [0, 2], [0]] []
    (by unfold WordSized; decide)).1

/-- C4. GFU loading: on a well-formed GFU input (a name token, the node count n, n node
attributes, the edge count m and m pairs `u v`, separated by whitespace), the GFU loader
inserts exactly the n nodes with the listed attributes in order and then, for each pair in
order, the edges `u -> v` and `v -> u` with the `Empty` attribute: 2*m edges in all, forming
a symmetric edge relation. -/
theorem gfu_loading {α : Type} (p : Platform) (cn : AttrCodec α) (f : GFUFile α)
    (h : f.WellFormed p cn) :
    ∃ (s : IStream) (L : ARGEdit α Unit),
      GFUGraphLoader p cn (IStream.ofText (f.text cn)) = (s, L) ∧
      L.log = f.attrs.map (fun x => Ins.node x.2) ++
        f.pairs.flatMap (fun x => [Ins.edge x.1.2 x.2.2 (), Ins.edge x.2.2 x.1.2 ()]) ∧
      L.nodes = f.attrs.map (fun x => x.2) ∧
      L.edges.length = 2 * f.pairs.length ∧
      ∀ u v b, (u, v, b) ∈ L.edges → (v, u, b) ∈ L.edges := by
  refine ⟨_, ⟨f.insertions⟩, GFUGraphLoader_text p cn f h, rfl, ?_, ?_, ?_⟩
  · simp only [ARGEdit.nodes, GFUFile.insertions, List.filterMap_append, List.filterMap_map]
    have h2 : List.filterMap (Ins.asNode (α := α) (β := Unit))
        (f.pairs.flatMap (fun x => [Ins.edge x.1.2 x.2.2 (), Ins.edge x.2.2 x.1.2 ()])) = [] := by
      generalize f.pairs = l
      induction l with
      | nil => rfl
      | cons x l ih => simp [List.flatMap_cons, List.filterMap_append, ih, Ins.asNode]
    rw [h2]
    simp [Function.comp_def, Ins.asNode, filterMap_some_fun]
  · have he : (⟨f.insertions⟩ : ARGEdit α Unit).edges =
        f.pairs.flatMap (fun x => [(x.1.2, x.2.2, ()), (x.2.2, x.1.2, ())]) := by
      simp only [ARGEdit.edges, GFUFile.insertions, List.filterMap_append, List.filterMap_map]
      have h1 : List.filterMap (Ins.asEdge ∘ fun x : List Char × α =>
          (Ins.node x.2 : Ins α Unit)) f.attrs = [] := by
        simp [Function.comp_def, Ins.asEdge]
      rw [h1, List.nil_append]
      generalize f.pairs = l
      induction l with
      | nil => rfl
      | cons x l ih => simp [List.flatMap_cons, List.filterMap_append, ih, Ins.asEdge]
    rw [he]
    generalize f.pairs = l
    induction l with
    | nil => rfl
    | cons x l ih => simp only [List.flatMap_cons, List.length_append, ih]; simp; omega
  · have he : (⟨f.insertions⟩ : ARGEdit α Unit).edges =
        f.pairs.flatMap (fun x => [(x.1.2, x.2.2, ()), (x.2.2, x.1.2, ())]) := by
      simp only [ARGEdit.edges, GFUFile.insertions, List.filterMap_append, List.filterMap_map]
      have h1 : List.filterMap (Ins.asEdge ∘ fun x : List Char × α =>
          (Ins.node x.2 : Ins α Unit)) f.attrs = [] := by
        simp [Function.comp_def, Ins.asEdge]
      rw [h1, List.nil_append]
      generalize f.pairs = l
      induction l with
      | nil => rfl
      | cons x l ih => simp [List.flatMap_cons, List.filterMap_append, ih, Ins.asEdge]
    intro u v b hmem
    rw [he] at hmem ⊢
    simp only [List.mem_flatMap, List.mem_cons, Prod.mk.injEq, List.mem_singleton,
      List.not_mem_nil, or_false] at hmem ⊢
    obtain ⟨x, hx, h1 | h1⟩ := hmem
    · exact ⟨x, hx, Or.inr ⟨h1.2.1, h1.1, h1.2.2⟩⟩
    · exact ⟨x, hx, Or.inl ⟨h1.2.1, h1.1, h1.2.2⟩⟩

/-- C4, witness: a GFU input with 3 nodes (attributes 5, 6, 7) and the pairs `0 1` and
`1 2` yields the three nodes and the four edges 0->1, 1->0, 1->2, 2->1. -/
theorem gfu_loading_witness :
    ∃ (s : IStream) (L : ARGEdit Int Unit),
      GFUGraphLoader examplePlatform (intCodec 0)
        (IStream.ofText "#graph\n3\n5\n6\n7\n2\n0 1\n1 2\n".toList) = (s, L) ∧
      L.log = [.node 5, .node 6, .node 7, .edge 0 1 (), .edge 1 0 (), .edge 1 2 (),
        .edge 2 1 ()] ∧
      L.nodes = [5, 6, 7] ∧
      L.edges.length = 2 * 2 ∧
      ∀ u v b, (u, v, b) ∈ L.edges → (v, u, b) ∈ L.edges :=
  gfu_loading examplePlatform (intCodec 0) exampleGFU
    ⟨by decide, by decide, by unfold IsSep; decide, by decide,
      by
        intro x hx
        simp only [exampleGFU, List.mem_cons, List.mem_singleton, List.not_mem_nil,
          or_false] at hx
        rcases hx with rfl | rfl | rfl
        · exact ⟨by unfold IsSep; decide, intCodec_readsToken 0 5 (by decide)⟩
        · exact ⟨by unfold IsSep; decide, intCodec_readsToken 0 6 (by decide)⟩
        · exact ⟨by unfold IsSep; decide, intCodec_readsToken 0 7 (by decide)⟩,
      by unfold IsSep; decide, by decide, by unfold IsSep; decide,
      by
        intro c r h
        have hc : c = '\n' := by
          have := congrArg List.head? h
          simpa [exampleGFU] using this.symm
        rw [hc]
        decide⟩

/-! ## Claims about the matching engine -/

/-- C9. Injectivity of emitted solutions: for every pattern graph, target graph, visiting
order, class arrays and visitor, every solution passed to the visitor maps every pattern
node to a target node, uses no target node twice, and its forward mapping is the exact
inverse of its reverse mapping. -/
theorem injectivity_of_emitted_solutions {α β γ δ σ : Type} (pb : Problem α β γ δ)
    (vis : MatchState → σ → Bool × σ) (usr : σ) (tr : Trace σ)
    (h : match_ pb vis usr = .ok tr) (s : MatchState) (hs : s ∈ tr.emitted) :
    (∀ p, p < pb.pattern.NodeCount → ∃ t, t < pb.target.NodeCount ∧ s.image p = some t) ∧
    (∀ p1 p2 t, s.image p1 = some t → s.image p2 = some t → p1 = p2) ∧
    (∀ p t, s.image p = some t ↔ s.preimage t = some p) := by
  obtain ⟨ho, hgood⟩ := match_emitted pb vis usr tr h
  obtain ⟨⟨h1, h2, h3, h4⟩, _⟩ := hgood s hs
  refine ⟨?_, ?_, h3⟩
  · intro p hp
    have hmem : p ∈ pb.order.take pb.pattern.NodeCount := by
      rw [← ho.1, List.take_length]
      exact order_complete pb ho p hp
    have hsome := (h4 p).mpr hmem
    obtain ⟨t, ht⟩ := Option.isSome_iff_exists.mp hsome
    exact ⟨t, by rw [← h2]; exact preimage_lt ((h3 p t).mp ht), ht⟩
  · intro p1 p2 t e1 e2
    have a1 := (h3 p1 t).mp e1
    have a2 := (h3 p2 t).mp e2
    rw [a1] at a2
    exact Option.some.inj a2

/-- C9, witness: in scenario A the engine emits the mappings `0 -> 0, 1 -> 1` and
`0 -> 1, 1 -> 2`; the first one is injective and inverse to its reverse mapping. -/
theorem injectivity_of_emitted_solutions_witness :
    match_ scenarioA countingVisitor 0 =
      .ok ⟨[⟨[some 0, some 1], [some 0, some 1, none]⟩,
            ⟨[some 1, some 2], [none, some 0, some 1]⟩], false, 2⟩ ∧
    ((∀ p, p < 2 → ∃ t, t < 3 ∧
        (⟨[some 0, some 1], [some 0, some 1, none]⟩ : MatchState).image p = some t) ∧
     (∀ p1 p2 t, (⟨[some 0, some 1], [some 0, some 1, none]⟩ : MatchState).image p1 = some t →
        (⟨[some 0, some 1], [some 0, some 1, none]⟩ : MatchState).image p2 = some t → p1 = p2) ∧
     (∀ p t, (⟨[some 0, some 1], [some 0, some 1, none]⟩ : MatchState).image p = some t ↔
        (⟨[some 0, some 1], [some 0, some 1, none]⟩ : MatchState).preimage t = some p)) :=
  ⟨by decide,
    injectivity_of_emitted_solutions scenarioA countingVisitor 0
      ⟨[⟨[some 0, some 1], [some 0, some 1, none]⟩,
        ⟨[some 1, some 2], [none, some 0, some 1]⟩], false, 2⟩ (by decide)
      ⟨[some 0, some 1], [some 0, some 1, none]⟩ (by decide)⟩

/-- C10. Edge preservation of emitted solutions: for every pattern graph, target graph,
visiting order, class arrays and visitor, every solution passed to the visitor and every
pattern edge `(p1, p2)`, a self-loop included, both ends are mapped and the target graph
contains the edge `(map(p1), map(p2))`. -/
theorem edge_preservation_of_emitted_solutions {α β γ δ σ : Type} (pb : Problem α β γ δ)
    (vis : MatchState → σ → Bool × σ) (usr : σ) (tr : Trace σ)
    (h : match_ pb vis usr = .ok tr) (s : MatchState) (hs : s ∈ tr.emitted)
    (p1 p2 : Nat) (h1 : p1 < pb.pattern.NodeCount) (h2 : p2 < pb.pattern.NodeCount)
    (he : pb.pattern.HasEdge p1 p2 = true) :
    ∃ t1 t2, s.image p1 = some t1 ∧ s.image p2 = some t2 ∧
      pb.target.HasEdge t1 t2 = true := by
  obtain ⟨ho, hgood⟩ := match_emitted pb vis usr tr h
  obtain ⟨⟨_, _, _, h4⟩, hedge⟩ := hgood s hs
  have hmem : ∀ p, p < pb.pattern.NodeCount → ∃ t, s.image p = some t := by
    intro p hp
    have hm : p ∈ pb.order.take pb.pattern.NodeCount := by
      rw [← ho.1, List.take_length]
      exact order_complete pb ho p hp
    exact Option.isSome_iff_exists.mp ((h4 p).mpr hm)
  obtain ⟨t1, e1⟩ := hmem p1 h1
  obtain ⟨t2, e2⟩ := hmem p2 h2
  exact ⟨t1, t2, e1, e2, hedge p1 p2 t1 t2 e1 e2 he⟩

/-- C10, witness: in scenario A the pattern edge `0 -> 1` is mapped by the second emitted
solution onto the target edge `1 -> 2`; a pattern made of one node with a self-loop has no
solution in a target without self-loops, and one solution, onto the node carrying the
loop, in a target with a self-loop, where the edge `(0, 0)` is mapped onto `(1, 1)`. -/
theorem edge_preservation_of_emitted_solutions_witness :
    (∃ t1 t2, (⟨[some 1, some 2], [none, some 0, some 1]⟩ : MatchState).image 0 = some t1 ∧
      (⟨[some 1, some 2], [none, some 0, some 1]⟩ : MatchState).image 1 = some t2 ∧
      scenarioA.target.HasEdge t1 t2 = true) ∧
    match_ selfLoopProblem countingVisitor 0 = .ok ⟨[], false, 0⟩ ∧
    match_ selfLoopInLoopProblem countingVisitor 0 =
      .ok ⟨[⟨[some 1], [none, some 0]⟩], false, 1⟩ ∧
    (∃ t1 t2, (⟨[some 1], [none, some 0]⟩ : MatchState).image 0 = some t1 ∧
      (⟨[some 1], [none, some 0]⟩ : MatchState).image 0 = some t2 ∧
      selfLoopInLoopProblem.target.HasEdge t1 t2 = true) :=
  ⟨edge_preservation_of_emitted_solutions scenarioA countingVisitor 0
    ⟨[⟨[some 0, some 1], [some 0, some 1, none]⟩,
      ⟨[some 1, some 2], [none, some 0, some 1]⟩], false, 2⟩ (by decide)
    ⟨[some 1, some 2], [none, some 0, some 1]⟩ (by decide) 0 1 (by decide) (by decide)
    (by decide),
   by decide, by decide,
   edge_preservation_of_emitted_solutions selfLoopInLoopProblem countingVisitor 0
    ⟨[⟨[some 1], [none, some 0]⟩], false, 1⟩ (by decide)
    ⟨[some 1], [none, some 0]⟩ (by decide) 0 0 (by decide) (by decide) (by decide)⟩

/-! ## Claims about the binary loader's words -/

theorem byte_or_high (a b : Nat) (ha : a < 256) : a ||| (b * 256) = a + 256 * b := by
  have h := Nat.mul_add_lt_is_or (i := 8) (b := a) (by omega) b
  have e : (2 : Nat) ^ 8 = 256 := by norm_num
  rw [e] at h
  rw [Nat.lor_comm, Nat.mul_comm, ← h]
  omega

theorem read_word_bytes (b0 b1 : Byte) (rest : List Byte) :
    read_word (b0 :: b1 :: rest) = (b0.val + 256 * b1.val, rest) := by
  have h0 := b0.isLt
  have h1 := b1.isLt
  have e1 : (((b0.val : Nat) : Int) % 256).toNat = b0.val := by omega
  have e2 : (((b1.val : Nat) : Int) % 65536).toNat = b1.val := by omega
  simp only [read_word, istreamGet, e1, e2, byte_or_high _ _ h0]
  have : (b0.val + 256 * b1.val) % 65536 = b0.val + 256 * b1.val :=
    Nat.mod_eq_of_lt (by omega)
  rw [this]

theorem read_word_lt (s : List Byte) : (read_word s).1 < 65536 := by
  simp only [read_word]
  exact Nat.mod_lt _ (by decide)

theorem read_word_nil : read_word [] = (65535, []) := by decide

theorem read_word_single (b0 : Byte) : read_word [b0] = (b0.val + 65280, []) := by
  have h0 := b0.isLt
  have e1 : (((b0.val : Nat) : Int) % 256).toNat = b0.val := by omega
  have e2 : (((-1 : Int)) % 65536).toNat * 256 = 65535 * 256 := by decide
  simp only [read_word, istreamGet, e1, e2, byte_or_high _ _ h0]
  have : (b0.val + 256 * 65535) % 65536 = b0.val + 65280 := by omega
  rw [this]

/-- C14. Little-endian word decoding: two bytes `b0`, `b1` read in that order decode to
`b0 + 256*b1`, a value in 0..65535; every word the loader decodes, whatever the stream, is
in 0..65535 and so is non-negative as an `int`, and the branch `cnt <= 0` of the
constructor is taken exactly when the node-count word is 0. -/
theorem little_endian_word_decoding (b0 b1 : Byte) (rest : List Byte) :
    read_word (b0 :: b1 :: rest) = (b0.val + 256 * b1.val, rest) ∧
    b0.val + 256 * b1.val < 65536 ∧
    (∀ s : List Byte, (read_word s).1 < 65536 ∧ (0 : Int) ≤ ((read_word s).1 : Int)) ∧
    (∀ s : List Byte, (((read_word s).1 : Int) ≤ 0 ↔ (read_word s).1 = 0)) ∧
    (∀ (p : Platform) (s : List Byte), (read_word s).1 = 0 →
      BinaryGraphLoader p s = ((read_word s).2, ARGEdit.empty)) ∧
    (∀ (p : Platform) (s : List Byte), (read_word s).1 ≠ 0 →
      BinaryGraphLoader p s = binSections p (read_word s).1 0 (read_word s).2
        (insertZeros (read_word s).1 ARGEdit.empty)) := by
  refine ⟨read_word_bytes b0 b1 rest, ?_, ?_, ?_, ?_, ?_⟩
  · have h0 := b0.isLt
    have h1 := b1.isLt
    omega
  · intro s
    exact ⟨read_word_lt s, Int.ofNat_nonneg _⟩
  · intro s
    omega
  · intro p s h
    simp [BinaryGraphLoader, h]
  · intro p s h
    have hpos : ¬ (((read_word s).1 : Int) ≤ 0) := by omega
    simp only [BinaryGraphLoader, hpos, if_false, Int.toNat_ofNat]

/-- C14, witness: the bytes `02 01` decode to 258; the count word `00 00` makes the
constructor return at once, the count word `01 00` does not. -/
theorem little_endian_word_decoding_witness :
    read_word [2, 1, 7] = (258, [7]) ∧
    BinaryGraphLoader examplePlatform [0, 0, 7] = ([7], ARGEdit.empty) ∧
    BinaryGraphLoader examplePlatform [1, 0, 0, 0] =
      binSections examplePlatform 1 0 [0, 0] (insertZeros 1 ARGEdit.empty) :=
  ⟨(little_endian_word_decoding 2 1 [7]).1,
    (little_endian_word_decoding 0 0 []).2.2.2.2.1 examplePlatform [0, 0, 7] (by decide),
    (little_endian_word_decoding 0 0 []).2.2.2.2.2 examplePlatform [1, 0, 0, 0] (by decide)⟩

theorem read_word_padded {s1 s2 : List Byte} (h : Padded s1 s2) :
    (read_word s2).1 = (read_word s1).1 ∧ Padded (read_word s1).2 (read_word s2).2 := by
  obtain ⟨k, rfl⟩ := h
  cases s1 with
  | nil =>
    cases k with
    | zero => exact ⟨rfl, 0, rfl⟩
    | succ k =>
      cases k with
      | zero => exact ⟨by decide, 0, by decide⟩
      | succ k =>
        simp only [List.nil_append, List.replicate_succ, read_word_bytes, read_word_nil]
        exact ⟨by decide, k, by simp⟩
  | cons b0 r =>
    cases r with
    | nil =>
      cases k with
      | zero => exact ⟨rfl, 0, rfl⟩
      | succ k =>
        have e : ((255 : Byte).val : Nat) = 255 := rfl
        simp only [List.singleton_append, List.replicate_succ, read_word_bytes, read_word_single,
          e]
        exact ⟨trivial, k, rfl⟩
    | cons b1 r =>
      rw [show b0 :: b1 :: r ++ List.replicate k (255 : Byte) =
        b0 :: b1 :: (r ++ List.replicate k (255 : Byte)) from rfl, read_word_bytes,
        read_word_bytes]
      exact ⟨rfl, k, rfl⟩

theorem binEdges_padded (p : Platform) (i : Nat) (k : Nat) :
    ∀ (s1 s2 : List Byte) (g : ARGEdit Int Unit), Padded s1 s2 →
    (binEdges p i k s2 g).2 = (binEdges p i k s1 g).2 ∧
    Padded (binEdges p i k s1 g).1 (binEdges p i k s2 g).1 := by
  induction k with
  | zero => intro s1 s2 g h; exact ⟨rfl, h⟩
  | succ k ih =>
    intro s1 s2 g h
    obtain ⟨h1, h2⟩ := read_word_padded h
    simp only [binEdges, h1]
    exact ih _ _ _ h2

theorem binSections_padded (p : Platform) (k : Nat) :
    ∀ (i : Nat) (s1 s2 : List Byte) (g : ARGEdit Int Unit), Padded s1 s2 →
    (binSections p k i s2 g).2 = (binSections p k i s1 g).2 := by
  induction k with
  | zero => intro i s1 s2 g _; rfl
  | succ k ih =>
    intro i s1 s2 g h
    obtain ⟨h1, h2⟩ := read_word_padded h
    obtain ⟨h3, h4⟩ := binEdges_padded p i (read_word s1).1 _ _ g h2
    simp only [binSections, h1, h3]
    exact ih _ _ _ _ h4

theorem binEdges_exhausted (p : Platform) (i : Nat) (k : Nat) :
    ∀ (g : ARGEdit Int Unit), binEdges p i k [] g =
      ([], ⟨g.log ++ List.replicate k (Ins.edge (i % (p.idMax + 1)) (65535 % (p.idMax + 1)) ())⟩) := by
  induction k with
  | zero => intro g; simp [binEdges]
  | succ k ih =>
    intro g
    simp only [binEdges, read_word_nil, ih, ARGEdit.InsertEdge, List.append_assoc,
      List.singleton_append, List.replicate_succ]

theorem binSections_one (p : Platform) (i : Nat) (s : List Byte) (g : ARGEdit Int Unit) :
    binSections p 1 i s g = binEdges p i (read_word s).1 (read_word s).2 g := by
  simp [binSections]

theorem binSections_one_exhausted (p : Platform) (i w : Nat) (g : ARGEdit Int Unit)
    (hw : read_word [] = (w, [])) :
    binSections p 1 i [] g =
      ([], ⟨g.log ++ List.replicate w (Ins.edge (i % (p.idMax + 1)) (65535 % (p.idMax + 1)) ())⟩) := by
  rw [binSections_one, hw]
  exact binEdges_exhausted p i w g

theorem loader_one_node_exhausted (p : Platform) :
    BinaryGraphLoader p [1, 0] =
      ([], ⟨Ins.node 0 :: List.replicate 65535 (Ins.edge 0 (65535 % (p.idMax + 1)) ())⟩) := by
  have hw : read_word [1, 0] = (1, []) := by decide
  have hpos : ¬ ((1 : Int) ≤ 0) := by decide
  have h1 : BinaryGraphLoader p [1, 0] =
      binSections p 1 0 [] (insertZeros 1 ARGEdit.empty) := by
    simp only [BinaryGraphLoader, hw, Nat.cast_one, hpos, if_false, Int.toNat_one]
  rw [h1, binSections_one_exhausted p 0 65535 _ read_word_nil]
  rfl

/-- C18. Truncated binary input is not detected: on an exhausted stream `read_word`
returns 65535, and `b0 + 0xFF00` when only the high byte is missing, without any error;
the builder filled by the binary loader is the one it would fill if the input were
followed by any number of bytes `FF`, so missing words are read as `0xFFFF`; for instance,
after a node count of 1 and nothing else the loader inserts the node and then 65535 edges
from node 0 to the target 65535 (as a `node_id`). -/
theorem truncated_binary_input_not_detected :
    read_word [] = (65535, []) ∧
    (∀ b0 : Byte, read_word [b0] = (b0.val + 65280, [])) ∧
    (∀ (p : Platform) (s : List Byte) (k : Nat),
      (BinaryGraphLoader p (s ++ List.replicate k (255 : Byte))).2 =
        (BinaryGraphLoader p s).2) ∧
    (∀ p : Platform, BinaryGraphLoader p [1, 0] =
      ([], ⟨Ins.node 0 :: List.replicate 65535 (Ins.edge 0 (65535 % (p.idMax + 1)) ())⟩)) := by
  refine ⟨read_word_nil, read_word_single, ?_, ?_⟩
  · intro p s k
    obtain ⟨h1, h2⟩ := @read_word_padded s _ ⟨k, rfl⟩
    simp only [BinaryGraphLoader, h1]
    split
    · rfl
    · exact binSections_padded p _ 0 _ _ _ h2
  · intro p
    exact loader_one_node_exhausted p

/-- C18, witness: the input `01 00`, cut after the node count, fills the same builder as
the same input followed by two bytes `FF`. -/
theorem truncated_binary_input_not_detected_witness :
    (BinaryGraphLoader examplePlatform ([1, 0] ++ List.replicate 2 (255 : Byte))).2 =
      (BinaryGraphLoader examplePlatform [1, 0]).2 :=
  truncated_binary_input_not_detected.2.2.1 examplePlatform [1, 0] 2

/-! ## Claims about the writers and the edge lines -/

theorem writeLines_eq_of_builtFrom {α β : Type} (cn : AttrCodec α) (ce : AttrCodec β)
    (g : ARGraph α β) (l : ARGLoader α β) (h : g.BuiltFrom l) :
    writeLines cn ce g = loaderWriteLines cn ce l := by
  obtain ⟨hn, hrest⟩ := h
  simp only [writeLines, loaderWriteLines, hn]
  congr 2
  · apply List.map_congr_left
    intro i hi
    have := hrest i (List.mem_range.mp hi)
    simp [nodeLine, loaderNodeLine, this.1]
  · apply List.flatMap_congr
    intro i hi
    have h1 := hrest i (List.mem_range.mp hi)
    simp only [sectionLines, loaderSectionLines, h1.2.1]
    congr 1
    apply List.map_congr_left
    intro j hj
    have h2 := h1.2.2 j (List.mem_range.mp hj)
    simp [edgeLine, loaderEdgeLine, h2]

theorem writeLines_length {α β : Type} (cn : AttrCodec α) (ce : AttrCodec β)
    (g : ARGraph α β) : (writeLines cn ce g).length = 1 + 2 * g.NodeCount + g.edgeCount := by
  have h : ∀ l : List Nat, (l.flatMap (sectionLines ce g)).length =
      l.length + (l.map g.OutEdgeCount).sum := by
    intro l
    induction l with
    | nil => rfl
    | cons x l ih =>
      simp only [List.flatMap_cons, List.length_append, ih, sectionLines, List.length_cons,
        List.length_map, List.length_range, List.map_cons, List.sum_cons]
      omega
  simp only [writeLines, List.length_cons, List.length_append, List.length_map,
    List.length_range, h, ARGraph.edgeCount]
  omega

theorem endLines_count (ls : List (List Char)) (h : ∀ l ∈ ls, '\n' ∉ l) :
    (endLines ls).count '\n' = ls.length := by
  induction ls with
  | nil => simp [endLines]
  | cons l ls ih =>
    have ih2 := ih (fun x hx => h x (by simp [hx]))
    have hl : l.count '\n' = 0 := List.count_eq_zero.mpr (h l (by simp))
    simp only [endLines, List.flatMap_cons, List.count_append, List.length_cons] at ih2 ⊢
    rw [ih2, hl]
    simp
    omega

theorem writeLines_no_newline {α β : Type} (cn : AttrCodec α) (ce : AttrCodec β)
    (g : ARGraph α β)
    (hn : ∀ i, i < g.NodeCount → '\n' ∉ cn.put (g.GetNodeAttr i))
    (he : ∀ i j, i < g.NodeCount → j < g.OutEdgeCount i → '\n' ∉ ce.put (g.GetOutEdge i j).2) :
    ∀ l ∈ writeLines cn ce g, '\n' ∉ l := by
  intro l hl
  simp only [writeLines, List.mem_cons, List.mem_append, List.mem_map, List.mem_range,
    List.mem_flatMap, sectionLines] at hl
  rcases hl with rfl | ⟨i, hi, rfl⟩ | ⟨i, hi, rfl | ⟨j, hj, rfl⟩⟩
  · exact (countLine_ok _).1
  · exact (numeral_line_ok (showNat_numeral i) _ (by
      intro c hc
      simp only [List.mem_cons] at hc
      rcases hc with rfl | hc
      · decide
      · intro e; exact hn i hi (e ▸ hc))).1
  · exact (countLine_ok _).1
  · exact (numeral_line_ok (showNat_numeral i) _ (by
      intro c hc
      simp only [List.mem_cons, List.mem_append] at hc
      rcases hc with rfl | hc | rfl | hc
      · decide
      · exact ((showNat_numeral _).2.1 c hc).2.2.2.2.2
      · decide
      · intro e; exact he i j hi hj (e ▸ hc))).1

theorem write_text {α β : Type} (cn : AttrCodec α) (ce : AttrCodec β) (g : ARGraph α β) :
    StreamARGLoader.write cn ce g =
      (showNat g.NodeCount ++ ['\n']) ++
      ((List.range g.NodeCount).flatMap (fun i =>
          showNat i ++ [' '] ++ cn.put (g.GetNodeAttr i) ++ ['\n']) ++
       (List.range g.NodeCount).flatMap (fun i =>
          (showNat (g.OutEdgeCount i) ++ ['\n']) ++
          (List.range (g.OutEdgeCount i)).flatMap (fun j =>
            showNat i ++ [' '] ++ showNat (g.GetOutEdge i j).1 ++ [' '] ++
              ce.put (g.GetOutEdge i j).2 ++ ['\n']))) := by
  simp only [StreamARGLoader.write, endLines, writeLines, List.flatMap_cons,
    List.flatMap_append, List.flatMap_map, List.flatMap_assoc, sectionLines, nodeLine,
    edgeLine, List.append_assoc, List.singleton_append, List.cons_append, List.nil_append]

theorem writeLoader_text {α β : Type} (cn : AttrCodec α) (ce : AttrCodec β)
    (l : ARGLoader α β) :
    StreamARGLoader.writeLoader cn ce l =
      (showNat l.NodeCount ++ ['\n']) ++
      ((List.range l.NodeCount).flatMap (fun i =>
          showNat i ++ [' '] ++ cn.put (l.GetNodeAttr i) ++ ['\n']) ++
       (List.range l.NodeCount).flatMap (fun i =>
          (showNat (l.OutEdgeCount i) ++ ['\n']) ++
          (List.range (l.OutEdgeCount i)).flatMap (fun j =>
            showNat i ++ [' '] ++ showNat (l.GetOutEdge i j).1 ++ [' '] ++
              ce.put (l.GetOutEdge i j).2 ++ ['\n']))) := by
  simp only [StreamARGLoader.writeLoader, endLines, loaderWriteLines, List.flatMap_cons,
    List.flatMap_append, List.flatMap_map, List.flatMap_assoc, loaderSectionLines,
    loaderNodeLine, loaderEdgeLine, List.append_assoc, List.singleton_append,
    List.cons_append, List.nil_append]

/-- C17. The two writers agree: when the graph `g` has the node count, the node attributes
and the per-node out-edge sequences of the loader `l`, `write(out, g)` and `write(out, l)`
emit exactly the same text, character for character: the node count and a newline, then
for each node in id order `i attr` and a newline, then for each node in id order its
out-edge count and a newline followed, for each out-edge in index order, by `i k attr` and
a newline. The text is made of 1 + 2n + E pieces, each ended by the newline of `endl`, and
holds exactly 1 + 2n + E newlines when the attributes are printed without newlines. -/
theorem the_two_writers_agree {α β : Type} (cn : AttrCodec α) (ce : AttrCodec β)
    (g : ARGraph α β) (l : ARGLoader α β) (h : g.BuiltFrom l) :
    StreamARGLoader.write cn ce g = StreamARGLoader.writeLoader cn ce l ∧
    StreamARGLoader.write cn ce g =
      (showNat g.NodeCount ++ ['\n']) ++
      ((List.range g.NodeCount).flatMap (fun i =>
          showNat i ++ [' '] ++ cn.put (g.GetNodeAttr i) ++ ['\n']) ++
       (List.range g.NodeCount).flatMap (fun i =>
          (showNat (g.OutEdgeCount i) ++ ['\n']) ++
          (List.range (g.OutEdgeCount i)).flatMap (fun j =>
            showNat i ++ [' '] ++ showNat (g.GetOutEdge i j).1 ++ [' '] ++
              ce.put (g.GetOutEdge i j).2 ++ ['\n']))) ∧
    StreamARGLoader.writeLoader cn ce l =
      (showNat l.NodeCount ++ ['\n']) ++
      ((List.range l.NodeCount).flatMap (fun i =>
          showNat i ++ [' '] ++ cn.put (l.GetNodeAttr i) ++ ['\n']) ++
       (List.range l.NodeCount).flatMap (fun i =>
          (showNat (l.OutEdgeCount i) ++ ['\n']) ++
          (List.range (l.OutEdgeCount i)).flatMap (fun j =>
            showNat i ++ [' '] ++ showNat (l.GetOutEdge i j).1 ++ [' '] ++
              ce.put (l.GetOutEdge i j).2 ++ ['\n']))) ∧
    (∃ ls : List (List Char), ls.length = 1 + 2 * g.NodeCount + g.edgeCount ∧
      StreamARGLoader.write cn ce g = ls.flatMap (fun x => x ++ ['\n']) ∧
      StreamARGLoader.writeLoader cn ce l = ls.flatMap (fun x => x ++ ['\n'])) ∧
    ((∀ i, i < g.NodeCount → '\n' ∉ cn.put (g.GetNodeAttr i)) →
      (∀ i, i < g.NodeCount → ∀ j, j < g.OutEdgeCount i →
        '\n' ∉ ce.put (g.GetOutEdge i j).2) →
      (StreamARGLoader.write cn ce g).count '\n' = 1 + 2 * g.NodeCount + g.edgeCount ∧
      (StreamARGLoader.writeLoader cn ce l).count '\n' =
        1 + 2 * g.NodeCount + g.edgeCount) := by
  have he := writeLines_eq_of_builtFrom cn ce g l h
  have hw : StreamARGLoader.write cn ce g = StreamARGLoader.writeLoader cn ce l := by
    simp only [StreamARGLoader.write, StreamARGLoader.writeLoader, he]
  refine ⟨hw, write_text cn ce g, writeLoader_text cn ce l,
    ⟨writeLines cn ce g, writeLines_length cn ce g, rfl, ?_⟩, ?_⟩
  · rw [← hw]; rfl
  · intro hn hed
    have hc : (StreamARGLoader.write cn ce g).count '\n' =
        1 + 2 * g.NodeCount + g.edgeCount := by
      rw [← writeLines_length cn ce g]
      exact endLines_count _
        (writeLines_no_newline cn ce g hn (fun i j hi hj => hed i hi j hj))
    exact ⟨hc, by rw [← hw]; exact hc⟩

set_option maxRecDepth 100000 in
/-- C17, witness: the builder of the documented example, seen as a loader, and the graph
built from it are both written as the same text of 1 + 2*3 + 3 = 10 lines. -/
theorem the_two_writers_agree_witness :
    StreamARGLoader.write (intCodec 0) (intCodec 0)
        (ARGraph.ofLoader (docExampleBuilder.toLoader 0 0)) =
      "3\n0 27\n1 42\n2 13\n2\n0 1 24\n0 2 73\n1\n1 3 66\n0\n".toList ∧
    StreamARGLoader.writeLoader (intCodec 0) (intCodec 0) (docExampleBuilder.toLoader 0 0) =
      "3\n0 27\n1 42\n2 13\n2\n0 1 24\n0 2 73\n1\n1 3 66\n0\n".toList ∧
    StreamARGLoader.write (intCodec 0) (intCodec 0)
        (ARGraph.ofLoader (docExampleBuilder.toLoader 0 0)) =
      StreamARGLoader.writeLoader (intCodec 0) (intCodec 0) (docExampleBuilder.toLoader 0 0) ∧
    (StreamARGLoader.write (intCodec 0) (intCodec 0)
        (ARGraph.ofLoader (docExampleBuilder.toLoader 0 0))).count '\n' = 10 :=
  have h := the_two_writers_agree (intCodec 0) (intCodec 0)
    (ARGraph.ofLoader (docExampleBuilder.toLoader 0 0)) (docExampleBuilder.toLoader 0 0)
    ⟨rfl, fun _ _ => ⟨rfl, rfl, fun _ _ => rfl⟩⟩
  ⟨by decide, by decide, h.1,
    (h.2.2.2.2 (by decide) (by decide)).1.trans (by decide)⟩

theorem visitor_spec (clock : Nat → Nat) (m : VisitorCall) :
    (visitor clock m).1 = false ∧
    (visitor clock m).2.data.solutions = m.data.solutions + 1 ∧
    (m.data.solutions = 0 →
      (visitor clock m).2.data.first_solution_time = clock m.clockCalls % ULONG_MOD ∧
      (visitor clock m).2.clockCalls = m.clockCalls + 1) ∧
    (m.data.solutions ≠ 0 →
      (visitor clock m).2.data.first_solution_time = m.data.first_solution_time ∧
      (visitor clock m).2.clockCalls = m.clockCalls) ∧
    (visitor clock m).2.ni1 = m.ni1 ∧ (visitor clock m).2.ni2 = m.ni2 ∧
    (visitor clock m).2.n = m.n := by
  unfold visitor
  by_cases h : m.data.solutions + 1 = 1
  · have h0 : m.data.solutions = 0 := by omega
    simp [h, h0]
  · have h0 : m.data.solutions ≠ 0 := by omega
    simp [h, h0]

theorem harnessVisitor_solutions (env : Env) (s : MatchState) (u : visitor_data_t × Nat) :
    (harnessVisitor env s u).2.1.solutions = u.1.solutions + 1 := by
  simp only [harnessVisitor]
  exact (visitor_spec env.clock _).2.1

theorem search_counts {α β γ δ : Type} (pb : Problem α β γ δ) (env : Env) (c : Int)
    (rem : Nat) :
    ∀ (k : Nat) (st : MatchState) (tr : Trace (visitor_data_t × Nat)),
    tr.usr.1.solutions = (tr.emitted.length : Int) + c →
    (search pb (harnessVisitor env) rem k st tr).usr.1.solutions =
      ((search pb (harnessVisitor env) rem k st tr).emitted.length : Int) + c := by
  induction rem with
  | zero =>
    intro k st tr h
    simp only [search, harnessVisitor_solutions, h, List.length_append, List.length_singleton,
      Nat.cast_add, Nat.cast_one]
    omega
  | succ rem ih =>
    intro k st tr h
    simp only [search]
    apply foldl_invariant (fun a : Trace (visitor_data_t × Nat) =>
      a.usr.1.solutions = (a.emitted.length : Int) + c)
    · intro a t _ ha
      by_cases hstop : a.stopped = true
      · simp only [hstop, if_true]; exact ha
      · simp only [hstop, Bool.false_eq_true, if_false]
        split
        · exact ih _ _ _ ha
        · exact ha
    · exact h

theorem match_counts {α β γ δ : Type} (pb : Problem α β γ δ) (env : Env) (calls : Nat)
    (tr : Trace (visitor_data_t × Nat))
    (h : match_ pb (harnessVisitor env) (⟨0, 0⟩, calls) = .ok tr) :
    tr.usr.1.solutions = (tr.emitted.length : Int) := by
  unfold match_ at h
  split at h
  · cases h
  · split at h
    · cases h
    · simp only [Except.ok.injEq] at h
      rw [← h]
      have := search_counts pb env 0 pb.pattern.NodeCount 0
        (MatchState.root pb.pattern.NodeCount pb.target.NodeCount)
        ⟨[], false, (⟨0, 0⟩, calls)⟩ (by simp)
      simpa using this

theorem trialStep_ok {env : Env} {h : Harness} {st st2 : TrialState} {now : Nat}
    (hs : trialStep env h st = .ok (st2, now)) :
    ∃ tr, match_ (h.problem env) (harnessVisitor env) (⟨0, 0⟩, st.clockCalls) = .ok tr ∧
      st2 = ⟨st.rep + 1, tr.usr.1, tr.usr.2 + 1⟩ ∧ now = env.clock tr.usr.2 := by
  unfold trialStep at hs
  cases hm : match_ (h.problem env) (harnessVisitor env) (⟨0, 0⟩, st.clockCalls) with
  | error e => rw [hm] at hs; cases hs
  | ok tr =>
    rw [hm] at hs
    simp only [Except.ok.injEq, Prod.mk.injEq] at hs
    exact ⟨tr, rfl, hs.1.symm, hs.2.symm⟩

theorem trialLoop_of_runs {env : Env} {h : Harness} {ticks : Nat} {limit : FloatVal} {j : Nat}
    {st st1 st2 : TrialState} (hr : RunsTrials env h ticks limit j st st1 st2) :
    ∀ fuel, j ≤ fuel → trialLoop env h ticks limit fuel st = .done st2 := by
  induction hr with
  | last st st2 now hs hc =>
    intro fuel hf
    obtain ⟨f, rfl⟩ : ∃ f, fuel = f + 1 := ⟨fuel - 1, by omega⟩
    simp [trialLoop, hs, hc]
  | more j st sa st1 st2 now hs hc _ ih =>
    intro fuel hf
    obtain ⟨f, rfl⟩ : ∃ f, fuel = f + 1 := ⟨fuel - 1, by omega⟩
    simp only [trialLoop, hs, hc, if_true]
    exact ih f (by omega)

theorem runs_of_trialLoop (env : Env) (h : Harness) (ticks : Nat) (limit : FloatVal)
    (fuel : Nat) :
    ∀ (st st2 : TrialState), trialLoop env h ticks limit fuel st = .done st2 →
    ∃ j st1, 1 ≤ j ∧ j ≤ fuel ∧ RunsTrials env h ticks limit j st st1 st2 := by
  induction fuel with
  | zero => intro st st2 hl; simp [trialLoop] at hl
  | succ f ih =>
    intro st st2 hl
    rw [trialLoop] at hl
    cases hs : trialStep env h st with
    | error e => rw [hs] at hl; cases hl
    | ok x =>
      obtain ⟨sa, now⟩ := x
      rw [hs] at hl
      simp only at hl
      by_cases hc : loopContinues env ticks limit now
      · simp only [hc, if_true] at hl
        obtain ⟨j, st1, h1, h2, h3⟩ := ih sa st2 hl
        exact ⟨j + 1, st1, by omega, by omega, RunsTrials.more j st sa st1 st2 now hs hc h3⟩
      · simp only [hc, if_false, LoopResult.done.injEq] at hl
        subst hl
        exact ⟨1, st, by omega, by omega, RunsTrials.last st sa now hs hc⟩

theorem runs_rep {env : Env} {h : Harness} {ticks : Nat} {limit : FloatVal} {j : Nat}
    {st st1 st2 : TrialState} (hr : RunsTrials env h ticks limit j st st1 st2) :
    st2.rep = st.rep + j ∧ 1 ≤ j ∧
    ∃ now, trialStep env h st1 = .ok (st2, now) ∧ ¬ loopContinues env ticks limit now := by
  induction hr with
  | last st st2 now hs hc =>
    obtain ⟨tr, _, e, _⟩ := trialStep_ok hs
    exact ⟨by rw [e]; simp, by omega, now, hs, hc⟩
  | more j st sa st1 st2 now hs hc _ ih =>
    obtain ⟨tr, _, e, _⟩ := trialStep_ok hs
    refine ⟨?_, by omega, ih.2.2⟩
    rw [ih.1, e]
    push_cast
    omega

theorem main_usage (env : Env) (fuel : Nat) (argv : List (List Char)) (h : argv.length < 3) :
    main env fuel argv = .returned (-1) [.text usageMessage] := by
  simp [main, h]

theorem main_run (env : Env) (fuel : Nat) (argv : List (List Char)) (h : 3 ≤ argv.length)
    (pl tl : IStream × ARGEdit Int Unit)
    (hp : StreamARGLoader env.platform (intCodec env.platform.junkInt) emptyCodec
      (env.ifstream (argv.getD 1 [])) = .ok pl)
    (ht : StreamARGLoader env.platform (intCodec env.platform.junkInt) emptyCodec
      (env.ifstream (argv.getD 2 [])) = .ok tl) :
    main env fuel argv =
      match trialLoop env (Harness.ofLoaders env pl.2 tl.2) (env.clock 0 % ULONG_MOD)
          (limitOf env argv) fuel ⟨0, ⟨env.platform.junkNat, env.platform.junkInt⟩, 1⟩ with
      | .running => .running [.text "nodes1: ".toList,
          .int (Harness.ofLoaders env pl.2 tl.2).patt_graph.NodeCount, .text ['\n']]
      | .config e => .config e [.text "nodes1: ".toList,
          .int (Harness.ofLoaders env pl.2 tl.2).patt_graph.NodeCount, .text ['\n']]
      | .done st => .returned 0 ([.text "nodes1: ".toList,
          .int (Harness.ofLoaders env pl.2 tl.2).patt_graph.NodeCount, .text ['\n']] ++
          finalOutput env (env.clock 0 % ULONG_MOD) st (env.clock st.clockCalls)) := by
  have h3 : ¬ argv.length < 3 := by omega
  simp only [main, h3, if_false, hp, ht]

theorem main_fatal_pattern (env : Env) (fuel : Nat) (argv : List (List Char))
    (h : 3 ≤ argv.length) (e : Fatal) (g : ARGEdit Int Unit)
    (hp : StreamARGLoader env.platform (intCodec env.platform.junkInt) emptyCodec
      (env.ifstream (argv.getD 1 [])) = .error (e, g)) :
    main env fuel argv = .fatal e [] := by
  have h3 : ¬ argv.length < 3 := by omega
  simp only [main, h3, if_false, hp]

theorem main_fatal_target (env : Env) (fuel : Nat) (argv : List (List Char))
    (h : 3 ≤ argv.length) (pl : IStream × ARGEdit Int Unit) (e : Fatal) (g : ARGEdit Int Unit)
    (hp : StreamARGLoader env.platform (intCodec env.platform.junkInt) emptyCodec
      (env.ifstream (argv.getD 1 [])) = .ok pl)
    (ht : StreamARGLoader env.platform (intCodec env.platform.junkInt) emptyCodec
      (env.ifstream (argv.getD 2 [])) = .error (e, g)) :
    main env fuel argv = .fatal e [] := by
  have h3 : ¬ argv.length < 3 := by omega
  simp only [main, h3, if_false, hp, ht]

theorem main_returned {env : Env} {fuel : Nat} {argv : List (List Char)} {code : Int}
    {out : List Printed} (h3 : 3 ≤ argv.length) (h : main env fuel argv = .returned code out) :
    code = 0 ∧
    ∃ (pl tl : IStream × ARGEdit Int Unit) (st : TrialState),
      StreamARGLoader env.platform (intCodec env.platform.junkInt) emptyCodec
        (env.ifstream (argv.getD 1 [])) = .ok pl ∧
      StreamARGLoader env.platform (intCodec env.platform.junkInt) emptyCodec
        (env.ifstream (argv.getD 2 [])) = .ok tl ∧
      trialLoop env (Harness.ofLoaders env pl.2 tl.2) (env.clock 0 % ULONG_MOD)
        (limitOf env argv) fuel ⟨0, ⟨env.platform.junkNat, env.platform.junkInt⟩, 1⟩ =
        .done st ∧
      out = [.text "nodes1: ".toList,
          .int (Harness.ofLoaders env pl.2 tl.2).patt_graph.NodeCount, .text ['\n']] ++
        finalOutput env (env.clock 0 % ULONG_MOD) st (env.clock st.clockCalls) := by
  cases hp : StreamARGLoader env.platform (intCodec env.platform.junkInt) emptyCodec
      (env.ifstream (argv.getD 1 [])) with
  | error e =>
    obtain ⟨e1, g⟩ := e
    rw [main_fatal_pattern env fuel argv h3 e1 g hp] at h
    cases h
  | ok pl =>
    cases ht : StreamARGLoader env.platform (intCodec env.platform.junkInt) emptyCodec
        (env.ifstream (argv.getD 2 [])) with
    | error e =>
      obtain ⟨e1, g⟩ := e
      rw [main_fatal_target env fuel argv h3 pl e1 g hp ht] at h
      cases h
    | ok tl =>
      rw [main_run env fuel argv h3 pl tl hp ht] at h
      cases hl : trialLoop env (Harness.ofLoaders env pl.2 tl.2) (env.clock 0 % ULONG_MOD)
          (limitOf env argv) fuel ⟨0, ⟨env.platform.junkNat, env.platform.junkInt⟩, 1⟩ with
      | running => rw [hl] at h; cases h
      | config e => rw [hl] at h; cases h
      | done st =>
        rw [hl] at h
        simp only [MainResult.returned.injEq] at h
        exact ⟨h.1.symm, pl, tl, st, rfl, rfl, hl, h.2.symm⟩

theorem main_of_runs {env : Env} {fuel : Nat} {argv : List (List Char)}
    (h3 : 3 ≤ argv.length) {pl tl : IStream × ARGEdit Int Unit} {j : Nat}
    {st1 st2 : TrialState}
    (hp : StreamARGLoader env.platform (intCodec env.platform.junkInt) emptyCodec
      (env.ifstream (argv.getD 1 [])) = .ok pl)
    (ht : StreamARGLoader env.platform (intCodec env.platform.junkInt) emptyCodec
      (env.ifstream (argv.getD 2 [])) = .ok tl)
    (hr : RunsTrials env (Harness.ofLoaders env pl.2 tl.2) (env.clock 0 % ULONG_MOD)
      (limitOf env argv) j ⟨0, ⟨env.platform.junkNat, env.platform.junkInt⟩, 1⟩ st1 st2)
    (hf : j ≤ fuel) :
    main env fuel argv = .returned 0 ([.text "nodes1: ".toList,
        .int (Harness.ofLoaders env pl.2 tl.2).patt_graph.NodeCount, .text ['\n']] ++
      finalOutput env (env.clock 0 % ULONG_MOD) st2 (env.clock st2.clockCalls)) := by
  rw [main_run env fuel argv h3 pl tl hp ht, trialLoop_of_runs hr fuel hf]

theorem last_trial_count {env : Env} {h : Harness} {ticks : Nat} {limit : FloatVal} {j : Nat}
    {st st1 st2 : TrialState} (hr : RunsTrials env h ticks limit j st st1 st2) :
    ∃ tr, match_ (h.problem env) (harnessVisitor env) (⟨0, 0⟩, st1.clockCalls) = .ok tr ∧
      st2.vis_data.solutions = tr.emitted.length := by
  obtain ⟨_, _, now, hs, _⟩ := runs_rep hr
  obtain ⟨tr, hm, e, _⟩ := trialStep_ok hs
  exact ⟨tr, hm, by rw [e]; exact match_counts _ env _ tr hm⟩


/-! ### The example run of the harness -/

set_option maxRecDepth 100000 in
theorem example_load_p :
    StreamARGLoader exampleEnv.platform (intCodec exampleEnv.platform.junkInt) emptyCodec
      (exampleEnv.ifstream (exampleArgs.getD 1 [])) = .ok (⟨[], false, false⟩, ⟨[.node 5]⟩) := by
  decide

set_option maxRecDepth 100000 in
theorem example_load_t :
    StreamARGLoader exampleEnv.platform (intCodec exampleEnv.platform.junkInt) emptyCodec
      (exampleEnv.ifstream (exampleArgs.getD 2 [])) =
      .ok (⟨[], false, false⟩, ⟨[.node 5, .node 5, .node 5]⟩) := by
  decide

set_option maxRecDepth 100000 in
theorem example_load_missing :
    StreamARGLoader exampleEnv.platform (intCodec exampleEnv.platform.junkInt) emptyCodec
      (exampleEnv.ifstream (([['v', 'f', '3'], ['x'], ['t']] : List (List Char)).getD 1 [])) =
      .error (Fatal.eof, ARGEdit.empty) := by
  decide

set_option maxRecDepth 100000 in
theorem example_step1 :
    trialStep exampleEnv exampleHarness ⟨0, ⟨0, 0⟩, 1⟩ = .ok (⟨1, ⟨10, 3⟩, 3⟩, 100) := by
  decide

set_option maxRecDepth 100000 in
theorem example_step2 :
    trialStep exampleEnv exampleHarness ⟨1, ⟨10, 3⟩, 3⟩ = .ok (⟨2, ⟨110, 3⟩, 5⟩, 300) := by
  decide

set_option maxRecDepth 100000 in
theorem example_match2 :
    (match_ (exampleHarness.problem exampleEnv) (harnessVisitor exampleEnv)
      (⟨0, 0⟩, 3)).toOption.map (fun tr => (tr.emitted.length, tr.usr)) =
      some (3, (⟨110, 3⟩, 4)) := by
  decide

theorem example_limit : limitOf exampleEnv exampleArgs = .finite 2 0 := by
  decide

theorem example_continues : loopContinues exampleEnv 0 (.finite 2 0) 100 := by
  decide

theorem example_stops : ¬ loopContinues exampleEnv 0 (.finite 2 0) 300 := by
  decide

theorem example_runs :
    RunsTrials exampleEnv exampleHarness 0 (.finite 2 0) 2 ⟨0, ⟨0, 0⟩, 1⟩ ⟨1, ⟨10, 3⟩, 3⟩
      ⟨2, ⟨110, 3⟩, 5⟩ :=
  RunsTrials.more 1 _ _ _ _ 100 example_step1 example_continues
    (RunsTrials.last _ _ 300 example_step2 example_stops)

theorem example_main :
    main exampleEnv 5 exampleArgs =
      .returned 0 exampleOutput := by
  rw [main_run exampleEnv 5 exampleArgs (by decide) _ _ example_load_p example_load_t,
    example_limit]
  have hl : trialLoop exampleEnv (Harness.ofLoaders exampleEnv
      ((⟨[], false, false⟩, ⟨[.node 5]⟩) : IStream × ARGEdit Int Unit).2
      ((⟨[], false, false⟩, ⟨[.node 5, .node 5, .node 5]⟩) : IStream × ARGEdit Int Unit).2)
      (exampleEnv.clock 0 % ULONG_MOD) (.finite 2 0) 5
      ⟨0, ⟨exampleEnv.platform.junkNat, exampleEnv.platform.junkInt⟩, 1⟩ =
      .done ⟨2, ⟨110, 3⟩, 5⟩ := trialLoop_of_runs example_runs 5 (by decide)
  rw [hl]
  have hn : (Harness.ofLoaders exampleEnv
      ((⟨[], false, false⟩, ⟨[.node 5]⟩) : IStream × ARGEdit Int Unit).2
      ((⟨[], false, false⟩, ⟨[.node 5, .node 5, .node 5]⟩) :
        IStream × ARGEdit Int Unit).2).patt_graph.NodeCount = 1 := by decide
  simp only [hn]
  norm_num [finalOutput, ulongSub, ULONG_MOD, exampleEnv, exampleOutput]

/-! ### Claims about the command-line harness -/

/-- C11 counterexample: with three arguments of which the first file cannot be opened,
`main` does not return zero, whatever the bound on the number of trials: the loader reports
the premature end of the file and the run ends in the fatal error, printing nothing. -/
theorem cli_exit_code_counterexample :
    3 ≤ ([['v', 'f', '3'], ['x'], ['t']] : List (List Char)).length ∧
    exampleEnv.files ['x'] = none ∧
    ∀ fuel, main exampleEnv fuel [['v', 'f', '3'], ['x'], ['t']] = .fatal Fatal.eof [] :=
  ⟨by decide, by decide, fun fuel =>
    main_fatal_pattern exampleEnv fuel _ (by decide) _ _ example_load_missing⟩

/-- C11, amended: with fewer than two file arguments `main` returns -1 and prints exactly
the usage message, whatever the files are; with at least two, `main` returns zero and no
other code whenever it returns: it does return, with code zero, when both files load and
the trial loop comes to its end, and a fatal error of a loader ends the run without an
exit code of `main`. -/
theorem cli_exit_code (env : Env) (fuel : Nat) (argv : List (List Char)) :
    (argv.length < 3 → main env fuel argv = .returned (-1) [.text usageMessage]) ∧
    (3 ≤ argv.length → ∀ code out, main env fuel argv = .returned code out → code = 0) ∧
    (3 ≤ argv.length → ∀ pl tl st,
      StreamARGLoader env.platform (intCodec env.platform.junkInt) emptyCodec
        (env.ifstream (argv.getD 1 [])) = .ok pl →
      StreamARGLoader env.platform (intCodec env.platform.junkInt) emptyCodec
        (env.ifstream (argv.getD 2 [])) = .ok tl →
      trialLoop env (Harness.ofLoaders env pl.2 tl.2) (env.clock 0 % ULONG_MOD)
        (limitOf env argv) fuel ⟨0, ⟨env.platform.junkNat, env.platform.junkInt⟩, 1⟩ =
        .done st →
      ∃ out, main env fuel argv = .returned 0 out) ∧
    (3 ≤ argv.length → ∀ e g,
      StreamARGLoader env.platform (intCodec env.platform.junkInt) emptyCodec
        (env.ifstream (argv.getD 1 [])) = .error (e, g) →
      main env fuel argv = .fatal e []) ∧
    (3 ≤ argv.length → ∀ pl e g,
      StreamARGLoader env.platform (intCodec env.platform.junkInt) emptyCodec
        (env.ifstream (argv.getD 1 [])) = .ok pl →
      StreamARGLoader env.platform (intCodec env.platform.junkInt) emptyCodec
        (env.ifstream (argv.getD 2 [])) = .error (e, g) →
      main env fuel argv = .fatal e []) := by
  refine ⟨main_usage env fuel argv, ?_, ?_, ?_, ?_⟩
  · intro h3 code out h
    exact (main_returned h3 h).1
  · intro h3 pl tl st hp ht hl
    rw [main_run env fuel argv h3 pl tl hp ht, hl]
    exact ⟨_, rfl⟩
  · intro h3 e g hp
    exact main_fatal_pattern env fuel argv h3 e g hp
  · intro h3 pl e g hp ht
    exact main_fatal_target env fuel argv h3 pl e g hp ht

/-- Witness of `cli_exit_code`: without arguments the example prints the usage message and
returns -1; on `vf3 p t 2` both files load, the loop ends after two trials and `main`
returns 0. -/
theorem cli_exit_code_witness :
    main exampleEnv 5 [] = .returned (-1) [.text usageMessage] ∧
    (3 ≤ exampleArgs.length ∧ ∃ out, main exampleEnv 5 exampleArgs = .returned 0 out) :=
  ⟨(cli_exit_code exampleEnv 5 []).1 (by decide),
   by decide,
   (cli_exit_code exampleEnv 5 exampleArgs).2.2.1 (by decide) _ _ ⟨2, ⟨110, 3⟩, 5⟩
     example_load_p example_load_t
     (by rw [example_limit]; exact trialLoop_of_runs example_runs 5 (by decide))⟩

/-- C12 counterexample: on `vf3 p t 2` the run makes two trials and the visitor is invoked
3 times during the last one, but the first value `main` prints is 1, the number of nodes
of the pattern; the count 3 is the second value. -/
theorem cli_solution_count_counterexample :
    (∃ out, main exampleEnv 5 exampleArgs = .returned 0 out ∧ firstValue out = some (.int 1)) ∧
    RunsTrials exampleEnv exampleHarness (exampleEnv.clock 0 % ULONG_MOD)
      (limitOf exampleEnv exampleArgs) 2 ⟨0, ⟨0, 0⟩, 1⟩ ⟨1, ⟨10, 3⟩, 3⟩ ⟨2, ⟨110, 3⟩, 5⟩ ∧
    (match_ (exampleHarness.problem exampleEnv) (harnessVisitor exampleEnv)
      (⟨0, 0⟩, 3)).toOption.map (fun tr => (tr.emitted.length, tr.usr)) =
      some (3, (⟨110, 3⟩, 4)) :=
  ⟨⟨_, example_main, rfl⟩, by rw [example_limit]; exact example_runs, example_match2⟩

/-- C12, amended: on at least two file arguments, whenever `main` returns, both files were
loaded, the loop made `j ≥ 1` trials, and the output is the line `nodes1: ` with the number
of nodes of the pattern followed by three values, the first of which is the number of
visitor calls of the search of the last trial alone; that search starts from counters reset
to zero, whatever the earlier trials found. Conversely, when both files load and the loop
makes `j` trials within the bound, `main` returns with that output. -/
theorem cli_solution_count (env : Env) (fuel : Nat) (argv : List (List Char))
    (h3 : 3 ≤ argv.length) :
    (∀ (code : Int) (out : List Printed), main env fuel argv = .returned code out →
      ∃ (pl tl : IStream × ARGEdit Int Unit) (j : Nat) (st1 st2 : TrialState)
        (tr : Trace (visitor_data_t × Nat)) (timeAll timeFirst : ℚ),
        StreamARGLoader env.platform (intCodec env.platform.junkInt) emptyCodec
          (env.ifstream (argv.getD 1 [])) = .ok pl ∧
        StreamARGLoader env.platform (intCodec env.platform.junkInt) emptyCodec
          (env.ifstream (argv.getD 2 [])) = .ok tl ∧
        RunsTrials env (Harness.ofLoaders env pl.2 tl.2) (env.clock 0 % ULONG_MOD)
          (limitOf env argv) j ⟨0, ⟨env.platform.junkNat, env.platform.junkInt⟩, 1⟩
          st1 st2 ∧
        1 ≤ j ∧ st2.rep = j ∧
        match_ ((Harness.ofLoaders env pl.2 tl.2).problem env) (harnessVisitor env)
          (⟨0, 0⟩, st1.clockCalls) = .ok tr ∧
        st2.vis_data.solutions = tr.emitted.length ∧
        out = [.text "nodes1: ".toList,
          .int (Harness.ofLoaders env pl.2 tl.2).patt_graph.NodeCount, .text ['\n'],
          .int tr.emitted.length, .text [' '], .real timeAll, .text [' '],
          .real timeFirst]) ∧
    (∀ (pl tl : IStream × ARGEdit Int Unit) (j : Nat) (st1 st2 : TrialState),
      StreamARGLoader env.platform (intCodec env.platform.junkInt) emptyCodec
        (env.ifstream (argv.getD 1 [])) = .ok pl →
      StreamARGLoader env.platform (intCodec env.platform.junkInt) emptyCodec
        (env.ifstream (argv.getD 2 [])) = .ok tl →
      RunsTrials env (Harness.ofLoaders env pl.2 tl.2) (env.clock 0 % ULONG_MOD)
        (limitOf env argv) j ⟨0, ⟨env.platform.junkNat, env.platform.junkInt⟩, 1⟩
        st1 st2 →
      j ≤ fuel →
      ∃ (tr : Trace (visitor_data_t × Nat)) (timeAll timeFirst : ℚ),
        match_ ((Harness.ofLoaders env pl.2 tl.2).problem env) (harnessVisitor env)
          (⟨0, 0⟩, st1.clockCalls) = .ok tr ∧
        main env fuel argv = .returned 0 [.text "nodes1: ".toList,
          .int (Harness.ofLoaders env pl.2 tl.2).patt_graph.NodeCount, .text ['\n'],
          .int tr.emitted.length, .text [' '], .real timeAll, .text [' '],
          .real timeFirst]) := by
  constructor
  · intro code out h
    obtain ⟨_, pl, tl, st, hp, ht, hl, ho⟩ := main_returned h3 h
    obtain ⟨j, st1, h1, _, hr⟩ := runs_of_trialLoop _ _ _ _ _ _ _ hl
    obtain ⟨tr, hm, hc⟩ := last_trial_count hr
    refine ⟨pl, tl, j, st1, st, tr,
      ((ulongSub (env.clock st.clockCalls) (env.clock 0 % ULONG_MOD) : Nat) : ℚ) /
        env.CLOCKS_PER_SEC / st.rep,
      ((ulongSub st.vis_data.first_solution_time (env.clock 0 % ULONG_MOD) : Nat) : ℚ) /
        env.CLOCKS_PER_SEC / st.rep,
      hp, ht, hr, h1, by simpa using (runs_rep hr).1, hm, hc, ?_⟩
    rw [ho]
    simp only [finalOutput, hc, List.cons_append, List.nil_append]
  · intro pl tl j st1 st2 hp ht hr hf
    obtain ⟨tr, hm, hc⟩ := last_trial_count hr
    refine ⟨tr,
      ((ulongSub (env.clock st2.clockCalls) (env.clock 0 % ULONG_MOD) : Nat) : ℚ) /
        env.CLOCKS_PER_SEC / st2.rep,
      ((ulongSub st2.vis_data.first_solution_time (env.clock 0 % ULONG_MOD) : Nat) : ℚ) /
        env.CLOCKS_PER_SEC / st2.rep, hm, ?_⟩
    rw [main_of_runs h3 hp ht hr hf]
    simp only [finalOutput, hc, List.cons_append, List.nil_append]

/-- Witness of `cli_solution_count` on the run `vf3 p t 2` of the example: the run makes
two trials and returns, and its output has the stated form. -/
theorem cli_solution_count_witness :
    3 ≤ exampleArgs.length ∧
    main exampleEnv 5 exampleArgs = .returned 0 exampleOutput ∧
    (∃ (tr : Trace (visitor_data_t × Nat)) (timeAll timeFirst : ℚ),
      match_ (exampleHarness.problem exampleEnv) (harnessVisitor exampleEnv)
        (⟨0, 0⟩, 3) = .ok tr ∧
      main exampleEnv 5 exampleArgs = .returned 0 [.text "nodes1: ".toList,
        .int exampleHarness.patt_graph.NodeCount, .text ['\n'],
        .int tr.emitted.length, .text [' '], .real timeAll, .text [' '],
        .real timeFirst]) ∧
    ∃ (pl tl : IStream × ARGEdit Int Unit) (j : Nat) (st1 st2 : TrialState)
      (tr : Trace (visitor_data_t × Nat)) (timeAll timeFirst : ℚ),
      StreamARGLoader exampleEnv.platform (intCodec exampleEnv.platform.junkInt) emptyCodec
        (exampleEnv.ifstream (exampleArgs.getD 1 [])) = .ok pl ∧
      StreamARGLoader exampleEnv.platform (intCodec exampleEnv.platform.junkInt) emptyCodec
        (exampleEnv.ifstream (exampleArgs.getD 2 [])) = .ok tl ∧
      RunsTrials exampleEnv (Harness.ofLoaders exampleEnv pl.2 tl.2)
        (exampleEnv.clock 0 % ULONG_MOD) (limitOf exampleEnv exampleArgs) j
        ⟨0, ⟨exampleEnv.platform.junkNat, exampleEnv.platform.junkInt⟩, 1⟩ st1 st2 ∧
      1 ≤ j ∧ st2.rep = j ∧
      match_ ((Harness.ofLoaders exampleEnv pl.2 tl.2).problem exampleEnv)
        (harnessVisitor exampleEnv) (⟨0, 0⟩, st1.clockCalls) = .ok tr ∧
      st2.vis_data.solutions = tr.emitted.length ∧
      exampleOutput = [.text "nodes1: ".toList,
        .int (Harness.ofLoaders exampleEnv pl.2 tl.2).patt_graph.NodeCount, .text ['\n'],
        .int tr.emitted.length, .text [' '], .real timeAll, .text [' '], .real timeFirst] :=
  ⟨by decide, example_main,
    (cli_solution_count exampleEnv 5 exampleArgs (by decide)).2 _ _ 2 ⟨1, ⟨10, 3⟩, 3⟩
      ⟨2, ⟨110, 3⟩, 5⟩ example_load_p example_load_t
      (by rw [example_limit]; exact example_runs) (by decide),
    (cli_solution_count exampleEnv 5 exampleArgs (by decide)).1 0 exampleOutput example_main⟩

/-- C13: on `vf3 p t 2` with 100 ticks per second and the clock readings 0 (start), 10
(first solution of trial 1), 100 (end of trial 1), 110 (first solution of trial 2), 300
(end of trial 2), 300 (final reading), the last value `main` prints is 11/20 s: the tick of
the first solution of the last trial minus the tick at the start of the whole run, divided
by the ticks per second and by the number of trials. The average over the two trials of
the time to the first solution is 1/10 s. -/
theorem cli_time_to_first_is_not_the_average :
    main exampleEnv 5 exampleArgs =
      .returned 0 exampleOutput ∧
    RunsTrials exampleEnv exampleHarness (exampleEnv.clock 0 % ULONG_MOD)
      (limitOf exampleEnv exampleArgs) 2 ⟨0, ⟨0, 0⟩, 1⟩ ⟨1, ⟨10, 3⟩, 3⟩ ⟨2, ⟨110, 3⟩, 5⟩ ∧
    List.map exampleEnv.clock [0, 1, 2, 3, 4, 5] = [0, 10, 100, 110, 300, 300] ∧
    averageTimeToFirst exampleEnv.CLOCKS_PER_SEC [(0, 10), (100, 110)] = 1 / 10 ∧
    ((110 : ℚ) - 0) / exampleEnv.CLOCKS_PER_SEC / 2 = 11 / 20 ∧
    (11 / 20 : ℚ) ≠ 1 / 10 := by
  refine ⟨example_main, by rw [example_limit]; exact example_runs, by decide, ?_, ?_, ?_⟩
  · norm_num [averageTimeToFirst, exampleEnv]
  · norm_num [exampleEnv]
  · norm_num

/-- C16: a call of the harness visitor on data with `solutions = s` returns false, leaves
`solutions = s + 1`, sets `first_solution_time` to the reading of the clock when `s = 0`
and leaves it unchanged (and does not read the clock) when `s ≠ 0`, and leaves `n`, `ni1`
and `ni2` as they were. -/
theorem visitor_effect (clock : Nat → Nat) (m : VisitorCall) (s : Int)
    (hs : m.data.solutions = s) :
    (visitor clock m).1 = false ∧
    (visitor clock m).2.data.solutions = s + 1 ∧
    (s = 0 →
      (visitor clock m).2.data.first_solution_time = clock m.clockCalls % ULONG_MOD ∧
      (visitor clock m).2.clockCalls = m.clockCalls + 1) ∧
    (s ≠ 0 →
      (visitor clock m).2.data.first_solution_time = m.data.first_solution_time ∧
      (visitor clock m).2.clockCalls = m.clockCalls) ∧
    (visitor clock m).2.ni1 = m.ni1 ∧ (visitor clock m).2.ni2 = m.ni2 ∧
    (visitor clock m).2.n = m.n := by
  subst hs
  exact visitor_spec clock m

/-- Witness of `visitor_effect`: a first call at clock reading 10 and a later call on data
holding 3 solutions. -/
theorem visitor_effect_witness :
    (visitor (fun _ => 10) ⟨1, [0], [2], ⟨7, 0⟩, 4⟩ =
      (false, ⟨1, [0], [2], ⟨10, 1⟩, 5⟩)) ∧
    (visitor (fun _ => 10) ⟨1, [0], [2], ⟨7, 3⟩, 4⟩).2.data = ⟨7, 4⟩ ∧
    ((visitor (fun _ => 10) ⟨1, [0], [2], ⟨7, 0⟩, 4⟩).1 = false ∧
    (visitor (fun _ => 10) ⟨1, [0], [2], ⟨7, 0⟩, 4⟩).2.data.solutions = 0 + 1 ∧
    ((0 : Int) = 0 →
      (visitor (fun _ => 10) ⟨1, [0], [2], ⟨7, 0⟩, 4⟩).2.data.first_solution_time =
        (fun _ => 10) 4 % ULONG_MOD ∧
      (visitor (fun _ => 10) ⟨1, [0], [2], ⟨7, 0⟩, 4⟩).2.clockCalls = 4 + 1) ∧
    ((0 : Int) ≠ 0 →
      (visitor (fun _ => 10) ⟨1, [0], [2], ⟨7, 0⟩, 4⟩).2.data.first_solution_time = 7 ∧
      (visitor (fun _ => 10) ⟨1, [0], [2], ⟨7, 0⟩, 4⟩).2.clockCalls = 4) ∧
    (visitor (fun _ => 10) ⟨1, [0], [2], ⟨7, 0⟩, 4⟩).2.ni1 = [0] ∧
    (visitor (fun _ => 10) ⟨1, [0], [2], ⟨7, 0⟩, 4⟩).2.ni2 = [2] ∧
    (visitor (fun _ => 10) ⟨1, [0], [2], ⟨7, 0⟩, 4⟩).2.n = 1) :=
  ⟨by decide, by decide, visitor_effect (fun _ => 10) ⟨1, [0], [2], ⟨7, 0⟩, 4⟩ 0 rfl⟩

end VF3
